import Mathlib

/-!
Data filter module of the IoT Edge pipeline.

Shallow embedding of `modules/data_filter` (`filter.cpp`, `json_parser.cpp`).

* `std::string` is the list of its characters, `std::optional` is `Option`,
  `std::deque<double>` is a `List` whose head is the front of the deque.
* `uint64_t` counters are naturals reduced modulo `2 ^ 64` at every increment, and
  `std::stoull` fails beyond 64 bits.
* `double` is IEEE 754 binary64 (`Double`): a finite value is the rational it denotes and
  carries the proof that it is a binary64 number, `-0.0`, the infinities and NaN are apart.
  Every arithmetic operation computes the exact result and rounds it to the nearest
  binary64 number, ties to even, overflowing to an infinity; each operation of the source is
  rounded on its own (no fused multiply-add, no extended precision).
* The filter is written over a record `Arith` of the operations it uses; `binary64` is the
  record of the `double` operations, which is what the program runs on.
* `std::stod` and the stream insertions are written out after the C and C++ standards
  ("C" locale, round-half-even printing of the exact binary value); `std::stod` throws
  `std::out_of_range` when `strtod` reports `ERANGE` (glibc on x86-64, where tininess is
  detected after rounding).

The definitions come first (binary64, filter, library calls, codec, notions used in the
statements), the theorems after them (binary64, filter, searching, numbers, records, the
window over a run, rounding errors along a constant window).
-/

namespace iot_edge

/-! ## IEEE 754 binary64 -/

/-- Nearest natural number to a non-negative rational, ties to the even neighbour. -/
def roundHalfEven (q : ℚ) : Nat :=
  let fl := q.floor.toNat
  let r := q - fl
  if r < 1 / 2 then fl
  else if 1 / 2 < r then fl + 1
  else if fl % 2 = 0 then fl else fl + 1

/-- Two to an integer power. -/
@[irreducible]
def pow2 (e : ℤ) : ℚ :=
  if 0 ≤ e then ((2 ^ e.toNat : ℕ) : ℚ) else 1 / ((2 ^ (-e).toNat : ℕ) : ℚ)

/-- Number of halvings that bring `n` below two (at most `fuel` of them), added to `acc`. -/
def log2Aux : Nat → Nat → Nat → Nat
  | 0, _, acc => acc
  | fuel + 1, n, acc => if n < 2 then acc else log2Aux fuel (n / 2) (acc + 1)

/-- Floor of the binary logarithm of the magnitude of a non-zero rational. -/
@[irreducible]
def ilog2 (x : ℚ) : ℤ :=
  let e : ℤ := (log2Aux x.num.natAbs x.num.natAbs 0 : ℤ) - (log2Aux x.den x.den 0 : ℤ)
  if pow2 e ≤ |x| then e else e - 1

/-- Exponent of the unit in the last place of the binary64 numbers around `x`: 52 below
the binary exponent of `x`, which is not taken below `-1022` (subnormal numbers). -/
def ulpExp (x : ℚ) : ℤ := max (ilog2 x) (-1022) - 52

/-- Rounding to the nearest binary64 number, ties to the even significand; the exponent is
not bounded above. -/
@[irreducible]
def rn (x : ℚ) : ℚ :=
  let s := pow2 (ulpExp x)
  let m : ℚ := (roundHalfEven (|x| / s) : ℚ) * s
  if x < 0 then -m else m

/-- The rational is a finite binary64 number: below `2 ^ 1024` in magnitude and a multiple
of the unit in the last place of its binade. -/
@[irreducible]
def isBinary64 (q : ℚ) : Bool :=
  decide (|q| < pow2 1024) && decide ((q / pow2 (ulpExp q)).den = 1)

/-- The bits of an integer square root, from bit `i - 1` down: `r` grows by every power of
two that keeps its square at most `n`. -/
def sqrtAux : Nat → Nat → Nat → Nat
  | 0, _, r => r
  | i + 1, n, r => sqrtAux i n (if (r + 2 ^ i) * (r + 2 ^ i) ≤ n then r + 2 ^ i else r)

/-- Integer square root (rounded down). -/
def isqrt (n : Nat) : Nat := sqrtAux (log2Aux n n 0 / 2 + 1) n 0

/-- The square root of a positive rational rounded to the nearest binary64 number. -/
@[irreducible]
def rnSqrt (x : ℚ) : ℚ :=
  let s := pow2 (ilog2 x / 2 - 52)
  let y := x / (s * s)
  let r := isqrt y.floor.toNat
  let half : ℚ := (r : ℚ) + 1 / 2
  let m : Nat :=
    if y < half * half then r
    else if half * half < y then r + 1
    else if r % 2 = 0 then r else r + 1
  (m : ℚ) * s

/-- A `double`: IEEE 754 binary64. A finite value other than `-0.0` is the rational it
denotes (`0` is `+0.0`); the payload of a NaN is not kept, its sign is. -/
inductive Double where
  | finite (value : ℚ) (h : isBinary64 value = true)
  | negZero
  | inf (negative : Bool)
  | nan (negative : Bool)
deriving DecidableEq

namespace Double

/-- The rational denoted by a finite value (`0` for the others). -/
def toRat : Double → ℚ
  | finite q _ => q
  | _ => 0

/-- The value is finite (a rational or `-0.0`). -/
def IsFinite : Double → Prop
  | finite _ _ => True
  | negZero => True
  | _ => False

/-- The `double` of an exact result `x` in round-to-nearest-even: infinite beyond the
range; a zero result takes the sign of `x`, and the sign `zeroNegative` when `x` is zero. -/
def round (zeroNegative : Bool) (x : ℚ) : Double :=
  if h : isBinary64 (rn x) = true then
    if rn x = 0 ∧ (x < 0 ∨ (x = 0 ∧ zeroNegative = true)) then negZero else finite (rn x) h
  else inf (decide (x < 0))

/-- The `double` of a decimal literal of the source text. -/
def ofRat (q : ℚ) : Double := round false q

/-- The conversion `static_cast<double>(n)` of an unsigned integer. -/
def ofNat (n : Nat) : Double := round false (n : ℚ)

/-- Unary minus. -/
def neg : Double → Double
  | finite q _ => if q = 0 then negZero else round false (-q)
  | negZero => round false 0
  | inf negative => inf (!negative)
  | nan negative => nan (!negative)

/-- The operator `+`. An invalid operation gives the default NaN, whose sign bit is set on
x86-64. -/
def add (x y : Double) : Double :=
  match x with
  | nan s => nan s
  | inf a =>
    (match y with
     | nan s => nan s
     | inf b => if a = b then inf a else nan true
     | negZero => inf a
     | finite _ _ => inf a)
  | negZero =>
    (match y with
     | nan s => nan s
     | inf b => inf b
     | negZero => negZero
     | finite q _ => round false q)
  | finite p _ =>
    (match y with
     | nan s => nan s
     | inf b => inf b
     | negZero => round false p
     | finite q _ => round false (p + q))

/-- The operator `-`. -/
def sub (x y : Double) : Double := add x (neg y)

/-- The operator `*`. -/
def mul (x y : Double) : Double :=
  match x with
  | nan s => nan s
  | inf a =>
    (match y with
     | nan s => nan s
     | inf b => inf (a != b)
     | negZero => nan true
     | finite q _ => if q = 0 then nan true else inf (a != decide (q < 0)))
  | negZero =>
    (match y with
     | nan s => nan s
     | inf _ => nan true
     | negZero => round false 0
     | finite q _ => round (!decide (q < 0)) 0)
  | finite p _ =>
    (match y with
     | nan s => nan s
     | inf b => if p = 0 then nan true else inf (decide (p < 0) != b)
     | negZero => round (!decide (p < 0)) 0
     | finite q _ => round (decide (p < 0) != decide (q < 0)) (p * q))

/-- The operator `/`. -/
def div (x y : Double) : Double :=
  match x with
  | nan s => nan s
  | inf a =>
    (match y with
     | nan s => nan s
     | inf _ => nan true
     | negZero => inf (!a)
     | finite q _ => inf (a != decide (q < 0)))
  | negZero =>
    (match y with
     | nan s => nan s
     | inf b => round (!b) 0
     | negZero => nan true
     | finite q _ => if q = 0 then nan true else round (!decide (q < 0)) 0)
  | finite p _ =>
    (match y with
     | nan s => nan s
     | inf b => round (decide (p < 0) != b) 0
     | negZero => if p = 0 then nan true else inf (!decide (p < 0))
     | finite q _ =>
       if q = 0 then (if p = 0 then nan true else inf (decide (p < 0)))
       else round (decide (p < 0) != decide (q < 0)) (p / q))

/-- The call `std::sqrt(x)`; the square root of a binary64 number is rounded to a binary64
number, so that the last branch is not taken. -/
def sqrt : Double → Double
  | nan s => nan s
  | inf negative => if negative then nan true else inf false
  | negZero => negZero
  | finite q _ =>
    if q < 0 then nan true
    else if q = 0 then round false 0
    else if h : isBinary64 (rnSqrt q) = true then finite (rnSqrt q) h else nan true

/-- The call `std::abs(x)`. -/
def abs : Double → Double
  | nan _ => nan false
  | inf _ => inf false
  | negZero => round false 0
  | finite q _ => round false |q|

/-- The operator `<`. -/
def lt (x y : Double) : Bool :=
  match x with
  | nan _ => false
  | inf a =>
    (match y with
     | nan _ => false
     | inf b => a && !b
     | negZero => a
     | finite _ _ => a)
  | negZero =>
    (match y with
     | nan _ => false
     | inf b => !b
     | negZero => false
     | finite q _ => decide (0 < q))
  | finite p _ =>
    (match y with
     | nan _ => false
     | inf b => !b
     | negZero => decide (p < 0)
     | finite q _ => decide (p < q))

/-- The operator `<=`. -/
def le (x y : Double) : Bool :=
  match x with
  | nan _ => false
  | inf a =>
    (match y with
     | nan _ => false
     | inf b => a || !b
     | negZero => a
     | finite _ _ => a)
  | negZero =>
    (match y with
     | nan _ => false
     | inf b => !b
     | negZero => true
     | finite q _ => decide (0 ≤ q))
  | finite p _ =>
    (match y with
     | nan _ => false
     | inf b => !b
     | negZero => decide (p ≤ 0)
     | finite q _ => decide (p ≤ q))

end Double

/-! ## filter.h / filter.cpp -/

/-- The operations on `double` that the filter uses: the conversion of an unsigned integer
(also the literals `0.0`, `1.0`, `5.0`), the four operations, `std::sqrt`, `std::abs`, and
the comparisons `<` and `<=` (`a > b` is `b < a`, `a >= b` is `b <= a`). -/
structure Arith (α : Type) where
  ofNat : Nat → α
  add : α → α → α
  sub : α → α → α
  mul : α → α → α
  div : α → α → α
  sqrt : α → α
  abs : α → α
  lt : α → α → Bool
  le : α → α → Bool

/-- The operations of `double`, which the program runs on. -/
def binary64 : Arith Double :=
  { ofNat := Double.ofNat, add := Double.add, sub := Double.sub, mul := Double.mul,
    div := Double.div, sqrt := Double.sqrt, abs := Double.abs, lt := Double.lt,
    le := Double.le }

/-- The operations of an ordered field, without rounding; `sqrt` stands for the square
root. The filter never runs on them: they serve to compare it with the arithmetic of the
specification. -/
def Arith.exact {α : Type} [LinearOrderedField α] (sqrt : α → α) : Arith α :=
  { ofNat := fun n => (n : α), add := fun a b => a + b, sub := fun a b => a - b,
    mul := fun a b => a * b, div := fun a b => a / b, sqrt := sqrt, abs := fun a => |a|,
    lt := fun a b => decide (a < b), le := fun a b => decide (a ≤ b) }

/-- The call `std::max(a, b)`: `b` when `a < b`, otherwise `a`. -/
def Arith.max {α : Type} (A : Arith α) (a b : α) : α := if A.lt a b then b else a

/-- The order is coherent: `a < b` excludes `b <= a`. -/
def Arith.Ordered {α : Type} (A : Arith α) : Prop :=
  ∀ a b, A.lt a b = true → A.le b a = false

/-- Filter result with reason for rejection (`reason` is empty if accepted). -/
structure FilterResult where
  accepted : Bool
  reason : String
deriving DecidableEq, Repr

/-- The `DataFilter::Config` record. -/
structure Config (α : Type) where
  temp_min_valid : α
  temp_max_valid : α
  noise_threshold : α
  spike_window : Nat

/-- Member initialisers of `DataFilter::Config`: `-40.0`, `85.0`, `0.5`, `5`. -/
def Config.default : Config Double :=
  { temp_min_valid := Double.ofRat (-40), temp_max_valid := Double.ofRat 85,
    noise_threshold := Double.ofRat (1 / 2), spike_window := 5 }

/-- The private members of `DataFilter`. -/
structure DataFilter (α : Type) where
  config_ : Config α
  recent_readings_ : List α
  total_ : Nat
  accepted_ : Nat
  rejected_ : Nat

/-- The operator `++` on a `uint64_t`. -/
def incr64 (x : Nat) : Nat := (x + 1) % 2 ^ 64

/-- The constructor `DataFilter(const Config&)`: empty window, counters at zero. -/
def DataFilter.new {α : Type} (config : Config α) : DataFilter α :=
  { config_ := config, recent_readings_ := [], total_ := 0, accepted_ := 0, rejected_ := 0 }

section Filter

variable {α : Type}

/-- The accessor `total_count()`. -/
def DataFilter.total_count (f : DataFilter α) : Nat := f.total_

/-- The accessor `accepted_count()`. -/
def DataFilter.accepted_count (f : DataFilter α) : Nat := f.accepted_

/-- The accessor `rejected_count()`. -/
def DataFilter.rejected_count (f : DataFilter α) : Nat := f.rejected_

/-- The method `DataFilter::is_in_range`. -/
def DataFilter.is_in_range (A : Arith α) (f : DataFilter α) (temp : α) : Bool :=
  A.le f.config_.temp_min_valid temp && A.le temp f.config_.temp_max_valid

/-- The method `DataFilter::is_spike`. -/
def DataFilter.is_spike (A : Arith α) (f : DataFilter α) (temp : α) : Bool :=
  if f.recent_readings_.isEmpty then false
  else
    let avg := A.div (f.recent_readings_.foldl (fun acc r => A.add acc r) (A.ofNat 0))
                 (A.ofNat f.recent_readings_.length)
    let variance := f.recent_readings_.foldl
      (fun v r => A.add v (A.mul (A.sub r avg) (A.sub r avg))) (A.ofNat 0)
    let variance := A.div variance (A.ofNat f.recent_readings_.length)
    let stdev := A.sqrt variance
    let effective_stdev := A.max stdev (A.ofNat 1)
    let deviation := A.abs (A.sub temp avg)
    A.lt (A.mul (A.mul f.config_.noise_threshold effective_stdev) (A.ofNat 5)) deviation

/-- The statements `push_back(temperature)` followed by the guarded `pop_front()`. -/
def DataFilter.push (f : DataFilter α) (temperature : α) : DataFilter α :=
  let f := { f with recent_readings_ := f.recent_readings_ ++ [temperature] }
  if f.recent_readings_.length > f.config_.spike_window then
    { f with recent_readings_ := f.recent_readings_.tail }
  else f

/-- The method `DataFilter::evaluate`: the verdict and the filter after the call. -/
def DataFilter.evaluate (A : Arith α) (f : DataFilter α) (temperature : α) :
    FilterResult × DataFilter α :=
  let f := { f with total_ := incr64 f.total_ }
  if !f.is_in_range A temperature then
    let f := { f with rejected_ := incr64 f.rejected_ }
    (⟨false, "out_of_range"⟩, f)
  else if decide (f.recent_readings_.length ≥ 2) && f.is_spike A temperature then
    let f := { f with rejected_ := incr64 f.rejected_ }
    (⟨false, "spike_detected"⟩, f.push temperature)
  else
    let f := f.push temperature
    let f := { f with accepted_ := incr64 f.accepted_ }
    (⟨true, ""⟩, f)

/-- A fresh-or-running filter fed a sequence of temperatures, one `evaluate` call each. -/
def DataFilter.run (A : Arith α) (f : DataFilter α) (temps : List α) : DataFilter α :=
  temps.foldl (fun g t => (g.evaluate A t).2) f

/-- The mean of a window as the program computes it: the sum accumulated from the front,
starting from `0.0`, divided by the converted count. -/
def Arith.mean (A : Arith α) (w : List α) : α :=
  A.div (w.foldl (fun acc r => A.add acc r) (A.ofNat 0)) (A.ofNat w.length)

/-- The population standard deviation of a window as the program computes it: the square
root of the accumulated squared differences to the computed mean, divided by the count. -/
def Arith.sigma (A : Arith α) (w : List α) : α :=
  A.sqrt (A.div
    (w.foldl (fun v r => A.add v (A.mul (A.sub r (A.mean w)) (A.sub r (A.mean w)))) (A.ofNat 0))
    (A.ofNat w.length))

/-- The bound `noise_threshold * max(sigma, 1.0) * 5.0` as the program computes it. -/
def Arith.spikeBound (A : Arith α) (noise_threshold : α) (w : List α) : α :=
  A.mul (A.mul noise_threshold (A.max (A.sigma w) (A.ofNat 1))) (A.ofNat 5)

/-- The deviation `abs(c - mean)` as the program computes it. -/
def Arith.deviation (A : Arith α) (c : α) (w : List α) : α := A.abs (A.sub c (A.mean w))

/-- Arithmetic mean of a window, as the specification words it. -/
def mean [LinearOrderedField α] (w : List α) : α := w.sum / (w.length : α)

/-- Population variance of a window (sum of squared deviations divided by the count). -/
def populationVariance [LinearOrderedField α] (w : List α) : α :=
  (w.map (fun r => (r - mean w) ^ 2)).sum / (w.length : α)

end Filter

/-! ## C++ standard library, as far as `json_parser.cpp` calls it -/

/-- An integer power of a natural base, as a rational. -/
def ipow (b : Nat) (e : ℤ) : ℚ :=
  if 0 ≤ e then ((b ^ e.toNat : ℕ) : ℚ) else 1 / ((b ^ (-e).toNat : ℕ) : ℚ)

/-- The magnitude that `strtod` reads after the sign, before it is rounded: the exact value
of a decimal or hexadecimal literal, or one of the words for a non-finite value. -/
inductive Magnitude where
  | finite (value : ℚ)
  | inf
  | nan
deriving DecidableEq

/-- Whether `strtod` reports a range error (`errno` set to `ERANGE`) for the magnitude `v`:
the value rounds to an infinity (it is at least `2 ^ 1024 - 2 ^ 970`, half a unit in the
last place above the largest `double`), or it is not zero, rounds to 53 bits below the
smallest normal number `2 ^ -1022` and is not a binary64 number (tiny and inexact). -/
def erange (v : ℚ) : Bool :=
  decide (pow2 1024 - pow2 970 ≤ |v|) ||
    (decide (v ≠ 0) && decide (|v| < pow2 (-1022) - pow2 (-1076)) && !isBinary64 v)

/-- The "C" locale `isspace`. -/
def isspace (c : Char) : Bool :=
  c == ' ' || c == '\t' || c == '\n' || c == '\x0b' || c == '\x0c' || c == '\r'

/-- The "C" locale `isdigit`. -/
def isdigit (c : Char) : Bool := decide ('0' ≤ c) && decide (c ≤ '9')

/-- The "C" locale `isxdigit`. -/
def isxdigit (c : Char) : Bool :=
  isdigit c || (decide ('a' ≤ c) && decide (c ≤ 'f')) || (decide ('A' ≤ c) && decide (c ≤ 'F'))

/-- Value of a hexadecimal (hence also of a decimal) digit character. -/
def xdigitValue (c : Char) : Nat :=
  if isdigit c then c.toNat - '0'.toNat
  else if decide ('a' ≤ c) && decide (c ≤ 'f') then c.toNat - 'a'.toNat + 10
  else c.toNat - 'A'.toNat + 10

/-- Value of a digit string in the given base, most significant digit first. -/
def digitsValue (base : Nat) (ds : List Char) : Nat :=
  ds.foldl (fun acc c => base * acc + xdigitValue c) 0

/-- Optional sign in front of a number: whether it is `-`, and the text after it. -/
def takeSign : List Char → Bool × List Char
  | '-' :: rest => (true, rest)
  | '+' :: rest => (false, rest)
  | s => (false, s)

/-- Optional exponent part `e[+-]digits` (marker `e` or `p`, digits always decimal): the
exponent and the text after it; without a digit after the marker nothing is consumed. -/
def takeExponent (marker : Char) (s : List Char) : Int × List Char :=
  match s with
  | [] => (0, s)
  | c :: rest =>
    if c.toLower == marker then
      let (negative, r) := takeSign rest
      let ds := r.takeWhile isdigit
      if ds.isEmpty then (0, s)
      else ((if negative then -(digitsValue 10 ds : Int) else (digitsValue 10 ds : Int)),
        r.dropWhile isdigit)
    else (0, s)

/-- Digits, optional point, digits in the given base: integer digits, fraction digits and
the text after them. -/
def takeMantissa (isdig : Char → Bool) (s : List Char) : List Char × List Char × List Char :=
  let ip := s.takeWhile isdig
  let r1 := s.dropWhile isdig
  match r1 with
  | [] => (ip, [], r1)
  | c :: r => if c == '.' then (ip, r.takeWhile isdig, r.dropWhile isdig) else (ip, [], r1)

/-- Case-insensitive test that `s` starts with the lower-case word `w`. -/
def startsWithNoCase (w s : List Char) : Bool :=
  w.isPrefixOf (s.map Char.toLower)

/-- The subject sequence of `strtod` after white space and sign: the magnitude read and
the text left, or nothing when no conversion can be performed. -/
def strtodBody (s : List Char) : Option (Magnitude × List Char) :=
  if startsWithNoCase "infinity".toList s then some (.inf, s.drop 8)
  else if startsWithNoCase "inf".toList s then some (.inf, s.drop 3)
  else if startsWithNoCase "nan".toList s then
    match s.drop 3 with
    | '(' :: r =>
      match r.dropWhile (fun c => c.isAlphanum || c == '_') with
      | ')' :: r2 => some (.nan, r2)
      | _ => some (.nan, s.drop 3)
    | _ => some (.nan, s.drop 3)
  else
    let hex : Option (Magnitude × List Char) :=
      if startsWithNoCase "0x".toList s then
        let (ip, fp, r) := takeMantissa isxdigit (s.drop 2)
        if ip.isEmpty && fp.isEmpty then none
        else
          let (e, r2) := takeExponent 'p' r
          some (.finite (((digitsValue 16 ip : ℚ) + (digitsValue 16 fp : ℚ) /
            ((16 ^ fp.length : ℕ) : ℚ)) * ipow 2 e), r2)
      else none
    match hex with
    | some res => some res
    | none =>
      let (ip, fp, r) := takeMantissa isdigit s
      if ip.isEmpty && fp.isEmpty then none
      else
        let (e, r2) := takeExponent 'e' r
        some (.finite (((digitsValue 10 ip : ℚ) + (digitsValue 10 fp : ℚ) /
          ((10 ^ fp.length : ℕ) : ℚ)) * ipow 10 e), r2)

/-- The call `std::stod(str, &processed)`: the value and `processed`, or nothing when it
throws (`std::invalid_argument` when no conversion can be performed, `std::out_of_range`
when `strtod` reports a range error). A finite magnitude is rounded to the nearest
`double`; the sign is applied to the result. -/
def stod (str : List Char) : Option (Double × Nat) :=
  let (negative, s) := takeSign (str.dropWhile isspace)
  match strtodBody s with
  | none => none
  | some (.finite v, rest) =>
    if erange v then none
    else some (Double.round negative (if negative then -v else v), str.length - rest.length)
  | some (.inf, rest) => some (.inf negative, str.length - rest.length)
  | some (.nan, rest) => some (.nan negative, str.length - rest.length)

/-- The call `std::stoull(str, &processed)`: the value and `processed`, or nothing when it
throws (`std::invalid_argument` without a digit, `std::out_of_range` beyond 64 bits). -/
def stoull (str : List Char) : Option (Nat × Nat) :=
  let (negative, s) := takeSign (str.dropWhile isspace)
  let ds := s.takeWhile isdigit
  if ds.isEmpty then none
  else if digitsValue 10 ds ≥ 2 ^ 64 then none
  else
    some ((if negative then (2 ^ 64 - digitsValue 10 ds) % 2 ^ 64 else digitsValue 10 ds),
      str.length - (s.dropWhile isdigit).length)

/-- The call `s.find(pat)` of `std::string`: index of the first occurrence, `none` for `npos`. -/
def find (s pat : List Char) : Option Nat :=
  match s with
  | [] => if pat.isEmpty then some 0 else none
  | c :: t => if pat.isPrefixOf (c :: t) then some 0 else (find t pat).map (· + 1)

/-- First index of the character `ch` in `s`. -/
def indexOfChar (ch : Char) : List Char → Option Nat
  | [] => none
  | c :: t => if c == ch then some 0 else (indexOfChar ch t).map (· + 1)

/-- The call `s.find(ch, pos)` of `std::string`. -/
def find_char (s : List Char) (ch : Char) (pos : Nat) : Option Nat :=
  (indexOfChar ch (s.drop pos)).map (· + pos)

/-- The call `s.substr(pos, n)` for `pos` within the string. -/
def substr (s : List Char) (pos n : Nat) : List Char := (s.drop pos).take n

/-- Decimal digits of `n`, most significant first, pushed in front of `acc`. -/
def putDigits : Nat → Nat → List Char → List Char
  | 0, _, acc => acc
  | fuel + 1, n, acc =>
    if n < 10 then Char.ofNat ('0'.toNat + n) :: acc
    else putDigits fuel (n / 10) (Char.ofNat ('0'.toNat + n % 10) :: acc)

/-- The insertion `oss << n` of an unsigned integer. -/
def put_uint (n : Nat) : List Char := putDigits (n + 1) n []

/-- The decimal number written for a finite `double` of value `q` printed with `precision`
decimals: the nearest multiple of `10 ^ -precision`, ties to even. -/
def roundFixed (precision : Nat) (q : ℚ) : ℚ :=
  let m : ℚ := (roundHalfEven (|q| * 10 ^ precision) : ℚ) / 10 ^ precision
  if q < 0 then -m else m

/-- The fixed notation of a finite value of sign `negative` and magnitude `m`: the minus
sign, the integer digits of the magnitude rounded to `precision` decimals, and after a
point its `precision` fraction digits. -/
def putFixedDigits (precision : Nat) (negative : Bool) (m : ℚ) : List Char :=
  let scaled := roundHalfEven (m * 10 ^ precision)
  let frac := put_uint (scaled % 10 ^ precision)
  (if negative then ['-'] else []) ++ put_uint (scaled / 10 ^ precision) ++
    (if precision = 0 then []
     else '.' :: (List.replicate (precision - frac.length) '0' ++ frac))

/-- The insertion `oss << std::fixed << std::setprecision(precision) << x`; `-0.0` is
written with its sign. -/
def put_fixed (precision : Nat) : Double → List Char
  | .finite q _ => putFixedDigits precision (decide (q < 0)) |q|
  | .negZero => putFixedDigits precision true 0
  | .inf negative => (if negative then ['-'] else []) ++ "inf".toList
  | .nan negative => (if negative then ['-'] else []) ++ "nan".toList

/-! ## json_parser.h / json_parser.cpp -/

/-- The record `SensorMessage`. -/
structure SensorMessage where
  sensor_id : List Char
  temperature : Double
  humidity : Double
  timestamp : List Char
  sequence_number : Nat
deriving DecidableEq

/-- The function `JsonParser::extract_string`. -/
def extract_string (json key : List Char) : Option (List Char) :=
  let search := "\"".toList ++ key ++ "\":\"".toList
  match find json search with
  | none => none
  | some pos =>
    let pos := pos + search.length
    match find_char json '"' pos with
    | none => none
    | some stop => some (substr json pos (stop - pos))

/-- The function `JsonParser::extract_number`. -/
def extract_number (json key : List Char) : Option Double :=
  let search := "\"".toList ++ key ++ "\":".toList
  match find json search with
  | none => none
  | some pos =>
    let pos := pos + search.length
    match stod (json.drop pos) with
    | none => none
    | some (val, processed) => if processed = 0 then none else some val

/-- The function `JsonParser::extract_uint`. -/
def extract_uint (json key : List Char) : Option Nat :=
  let search := "\"".toList ++ key ++ "\":".toList
  match find json search with
  | none => none
  | some pos =>
    let pos := pos + search.length
    match stoull (json.drop pos) with
    | none => none
    | some (val, processed) => if processed = 0 then none else some val

/-- The function `JsonParser::parse_sensor_message`. -/
def parse_sensor_message (json : List Char) : Option SensorMessage :=
  let sensor_id := extract_string json "sensorId".toList
  let temperature := extract_number json "temperature".toList
  let humidity := extract_number json "humidity".toList
  let timestamp := extract_string json "timestamp".toList
  let sequence := extract_uint json "sequenceNumber".toList
  match sensor_id, temperature, humidity, timestamp, sequence with
  | some sensor_id, some temperature, some humidity, some timestamp, some sequence =>
    some { sensor_id := sensor_id, temperature := temperature, humidity := humidity,
           timestamp := timestamp, sequence_number := sequence }
  | _, _, _, _, _ => none

/-- The function `JsonParser::to_json`. -/
def to_json (msg : SensorMessage) (filter_passed : Bool) (filter_reason : List Char) :
    List Char :=
  let oss : List Char := "\x7b".toList
    ++ "\"sensorId\":\"".toList ++ msg.sensor_id ++ "\",".toList
    ++ "\"temperature\":".toList ++ put_fixed 2 msg.temperature ++ ",".toList
    ++ "\"humidity\":".toList ++ put_fixed 1 msg.humidity ++ ",".toList
    ++ "\"timestamp\":\"".toList ++ msg.timestamp ++ "\",".toList
    ++ "\"sequenceNumber\":".toList ++ put_uint msg.sequence_number ++ ",".toList
    ++ "\"filterPassed\":".toList ++ (if filter_passed then "true".toList else "false".toList)
  let oss :=
    if !filter_reason.isEmpty then
      oss ++ ",\"filterReason\":\"".toList ++ filter_reason ++ "\"".toList
    else oss
  oss ++ "\x7d".toList

/-! ## Notions used to state the codec theorems -/

/-- No occurrence of `pat` starts inside `A` when `A` is followed by `S`. -/
def Skip (pat A S : List Char) : Prop :=
  find (A ++ S) pat = (find S pat).map (· + A.length)

/-- A plain decimal literal: optional minus sign, integer digits, and fraction digits
(written after a point; none when `frac` is empty). -/
structure DecLit where
  negative : Bool
  int : List Char
  frac : List Char

/-- The literal has at least one integer digit and only digits in both parts. -/
def DecLit.WellFormed (l : DecLit) : Prop :=
  l.int ≠ [] ∧ (∀ c ∈ l.int, isdigit c = true) ∧ (∀ c ∈ l.frac, isdigit c = true)

/-- The literal as written. -/
def DecLit.text (l : DecLit) : List Char :=
  (if l.negative then ['-'] else []) ++ l.int ++ (if l.frac.isEmpty then [] else '.' :: l.frac)

/-- The `uint64_t` that `std::stoull` makes of the literal: the integer digits, negated
modulo 2^64 after a minus sign; the fraction is not read. -/
def DecLit.uintValue (l : DecLit) : Nat :=
  if l.negative then (2 ^ 64 - digitsValue 10 l.int) % 2 ^ 64 else digitsValue 10 l.int

/-- The number the literal denotes. -/
def DecLit.value (l : DecLit) : ℚ :=
  let m : ℚ := (digitsValue 10 l.int : ℚ) + (digitsValue 10 l.frac : ℚ) / 10 ^ l.frac.length
  if l.negative then -m else m

/-- The text starts with a character accepted by `isdig`. -/
def startsWith (isdig : Char → Bool) : List Char → Bool
  | [] => false
  | c :: _ => isdig c

/-- The text starts with an exponent part: `e` or `E`, an optional sign, a digit. -/
def exponentAhead : List Char → Bool
  | [] => false
  | c :: r => c.toLower == 'e' && startsWith isdigit (takeSign r).2

/-- The text, read after a lone `0`, makes a hexadecimal literal of it: `x` or `X` followed
by a hexadecimal digit, or by a point and a hexadecimal digit. -/
def hexAhead : List Char → Bool
  | [] => false
  | c :: r => c.toLower == 'x' &&
      (startsWith isxdigit r ||
        (match r with
         | [] => false
         | d :: r2 => d == '.' && startsWith isxdigit r2))

/-- The text after the literal `l` extends it into a longer number for `std::stod`: it
starts with a digit; or with a point (the literal having none) followed by a digit or an
exponent part; or with an exponent part; or the literal is a lone `0` and a hexadecimal
literal follows. -/
def extendsLiteral (l : DecLit) (rest : List Char) : Bool :=
  startsWith isdigit rest ||
    (l.frac.isEmpty &&
      (match rest with
       | [] => false
       | c :: r => c == '.' && (startsWith isdigit r || exponentAhead r))) ||
    exponentAhead rest ||
    (l.int == ['0'] && l.frac.isEmpty && hexAhead rest)

/-- A non-empty string of decimal digits. -/
def IsDigits (ds : List Char) : Prop := ds ≠ [] ∧ ∀ c ∈ ds, isdigit c = true

/-- The text starts with no digit. -/
def NoDigitAhead (rest : List Char) : Prop := ∀ c, rest.head? = some c → isdigit c = false

/-- The `double` nearest to a decimal literal: `std::stod` applied to the text of a
literal in the range of `double`; a literal of value zero keeps its sign. -/
def DecLit.double (l : DecLit) : Double := Double.round l.negative l.value

/-- The value a `double` takes once printed with `precision` decimals and read back: the
`double` nearest to the decimal number written, with the sign written. -/
def Double.printed (precision : Nat) : Double → Double
  | .finite q _ => Double.round (decide (q < 0)) (roundFixed precision q)
  | .negZero => .negZero
  | .inf negative => .inf negative
  | .nan negative => .nan negative

/-- The text goes on with a comma or a closing brace. -/
def Terminated (rest : List Char) : Prop :=
  ∃ c r, rest = c :: r ∧ (c = ',' ∨ c = '\x7d')

/-- The text `lit` is free of double quotes and, followed by a comma or a closing brace, is
read by `std::stod` as `val`, with at least one character processed. -/
def NumLit (lit : List Char) (val : Double) : Prop :=
  '"' ∉ lit ∧ ∀ rest, Terminated rest → ∃ k, k ≠ 0 ∧ stod (lit ++ rest) = some (val, k)

/-- The text `lit` is free of double quotes and, followed by a comma or a closing brace, is
read by `std::stoull` as `val`, with at least one character processed. -/
def UIntLit (lit : List Char) (val : Nat) : Prop :=
  '"' ∉ lit ∧ ∀ rest, Terminated rest → ∃ k, k ≠ 0 ∧ stoull (lit ++ rest) = some (val, k)

/-- A string member `"key":"value"` of a flat record. -/
def stringField (key value : List Char) : List Char :=
  "\"".toList ++ key ++ "\":\"".toList ++ value ++ "\"".toList

/-- A numeric member `"key":literal` of a flat record. -/
def numberField (key literal : List Char) : List Char :=
  "\"".toList ++ key ++ "\":".toList ++ literal

/-- Members joined by commas. -/
def joinFields : List (List Char) → List Char
  | [] => []
  | [x] => x
  | x :: y :: r => x ++ ',' :: joinFields (y :: r)

/-- The five required members, in the order of the schema. -/
def requiredFields (s t h ts n : List Char) : List (List Char) :=
  [stringField "sensorId".toList s, numberField "temperature".toList t,
   numberField "humidity".toList h, stringField "timestamp".toList ts,
   numberField "sequenceNumber".toList n]

/-- A flat record: the members joined by commas inside braces. -/
def flatRecord (fields : List (List Char)) : List Char :=
  "\x7b".toList ++ joinFields fields ++ "\x7d".toList

/-- A key name: non-empty and alphabetic. -/
def IsKey (key : List Char) : Prop := key ≠ [] ∧ ∀ c ∈ key, c.isAlpha = true

/-- The text searched for a key: the quoted key, a colon, and `tail` (empty for a number,
an opening quote for a string). -/
def keyPattern (key tail : List Char) : List Char := '"' :: (key ++ '"' :: ':' :: tail)

/-- A string value written with one escaped quote: `a`, a backslash, a quote, `b`. -/
def escapedValue (a b : List Char) : List Char := a ++ '\\' :: '"' :: b

/-- The text `f` is a member with key `k`: a string or a number whose value holds no double
quote, or a string whose value holds one escaped quote and no other. -/
def IsField (k f : List Char) : Prop :=
  (∃ v, '"' ∉ v ∧ f = stringField k v) ∨ (∃ lit, '"' ∉ lit ∧ f = numberField k lit) ∨
    (∃ a b, '"' ∉ a ∧ '"' ∉ b ∧ f = stringField k (escapedValue a b))

/-- The names of the five required keys. -/
def requiredKeys : List (List Char) :=
  ["sensorId".toList, "temperature".toList, "humidity".toList, "timestamp".toList,
   "sequenceNumber".toList]

/-- The text holds none of the five quoted keys followed by a colon. -/
def KeyFree (pre : List Char) : Prop :=
  ∀ key ∈ requiredKeys, ¬ keyPattern key [] <:+: pre

/-- The last `k` elements of a sequence, in their order (all of them if there are fewer). -/
def lastElements {α : Type} (k : Nat) (l : List α) : List α := l.drop (l.length - k)

/-! ## Theorems: binary64 -/

theorem pow2_eq (e : ℤ) : pow2 e = (2 : ℚ) ^ e := by
  unfold pow2
  split_ifs with h
  · obtain ⟨n, rfl⟩ := Int.eq_ofNat_of_zero_le h
    simp
  · push_neg at h
    obtain ⟨n, hn⟩ := Int.eq_ofNat_of_zero_le (show 0 ≤ -e by omega)
    have he : e = -(n : ℤ) := by omega
    subst he
    simp

theorem pow2_pos (e : ℤ) : 0 < pow2 e := by
  rw [pow2_eq]; positivity

theorem pow2_add (a b : ℤ) : pow2 (a + b) = pow2 a * pow2 b := by
  simp only [pow2_eq]
  exact zpow_add₀ (by norm_num) a b

theorem pow2_sub (a b : ℤ) : pow2 (a - b) = pow2 a / pow2 b := by
  simp only [pow2_eq]
  exact zpow_sub₀ (by norm_num) a b

theorem pow2_le_pow2 {a b : ℤ} (h : a ≤ b) : pow2 a ≤ pow2 b := by
  simp only [pow2_eq]
  exact zpow_le_zpow_right₀ (by norm_num) h

theorem pow2_lt_pow2 {a b : ℤ} (h : a < b) : pow2 a < pow2 b := by
  simp only [pow2_eq]
  exact zpow_lt_zpow_right₀ (by norm_num) h

theorem pow2_natCast (n : ℕ) : pow2 (n : ℤ) = ((2 ^ n : ℕ) : ℚ) := by
  rw [pow2_eq]; simp

theorem pow2_zero : pow2 0 = 1 := by rw [pow2_eq]; norm_num

theorem pow2_one : pow2 1 = 2 := by rw [pow2_eq]; norm_num

theorem pow2_neg_eq (n : ℕ) : pow2 (-(n : ℤ)) = 1 / 2 ^ n := by
  rw [pow2_eq, zpow_neg, zpow_natCast, one_div]

theorem pow2_nat_eq (n : ℕ) : pow2 (n : ℤ) = 2 ^ n := by
  rw [pow2_eq, zpow_natCast]

theorem log2Aux_spec (fuel n acc : Nat) (h : n ≤ fuel) (hn : 0 < n) :
    ∃ k, log2Aux fuel n acc = acc + k ∧ 2 ^ k ≤ n ∧ n < 2 ^ (k + 1) := by
  induction fuel generalizing n acc with
  | zero => omega
  | succ fuel ih =>
    unfold log2Aux
    by_cases h2 : n < 2
    · rw [if_pos h2]
      exact ⟨0, rfl, by simp; omega, by simp; omega⟩
    · rw [if_neg h2]
      obtain ⟨k, e, a, b⟩ := ih (n / 2) (acc + 1) (by omega) (by omega)
      refine ⟨k + 1, by rw [e]; omega, ?_, ?_⟩
      · rw [pow_succ]; omega
      · rw [pow_succ]; omega

theorem ilog2_spec (x : ℚ) (hx : x ≠ 0) : pow2 (ilog2 x) ≤ |x| ∧ |x| < pow2 (ilog2 x + 1) := by
  have hnum : 0 < x.num.natAbs := Int.natAbs_pos.2 (Rat.num_ne_zero.2 hx)
  have hden : 0 < x.den := x.den_pos
  obtain ⟨la, ela, a1, a2⟩ := log2Aux_spec x.num.natAbs x.num.natAbs 0 (le_refl _) hnum
  obtain ⟨lb, elb, b1, b2⟩ := log2Aux_spec x.den x.den 0 (le_refl _) hden
  rw [Nat.zero_add] at ela elb
  have habs : |x| = (x.num.natAbs : ℚ) / (x.den : ℚ) := by
    rw [Rat.abs_def, Rat.divInt_eq_div, Int.cast_natCast, Int.cast_natCast]
  have hdq : (0 : ℚ) < x.den := by exact_mod_cast hden
  have A1 : ((2 ^ la : ℕ) : ℚ) ≤ (x.num.natAbs : ℚ) := by exact_mod_cast a1
  have A2 : (x.num.natAbs : ℚ) < ((2 ^ (la + 1) : ℕ) : ℚ) := by exact_mod_cast a2
  have B1 : ((2 ^ lb : ℕ) : ℚ) ≤ (x.den : ℚ) := by exact_mod_cast b1
  have B2 : (x.den : ℚ) < ((2 ^ (lb + 1) : ℕ) : ℚ) := by exact_mod_cast b2
  have up : |x| < pow2 ((la : ℤ) - (lb : ℤ) + 1) := by
    have e : ((la : ℤ) - (lb : ℤ) + 1) = ((la + 1 : ℕ) : ℤ) - (lb : ℤ) := by push_cast; ring
    rw [e, pow2_sub, pow2_natCast, pow2_natCast, habs, div_lt_div_iff₀ hdq (by positivity)]
    calc (x.num.natAbs : ℚ) * ((2 ^ lb : ℕ) : ℚ) < ((2 ^ (la + 1) : ℕ) : ℚ) * ((2 ^ lb : ℕ) : ℚ) := by
          apply mul_lt_mul_of_pos_right A2; positivity
      _ ≤ ((2 ^ (la + 1) : ℕ) : ℚ) * (x.den : ℚ) := by
          apply mul_le_mul_of_nonneg_left B1; positivity
  have lo : pow2 ((la : ℤ) - (lb : ℤ) - 1) ≤ |x| := by
    have e : ((la : ℤ) - (lb : ℤ) - 1) = (la : ℤ) - ((lb + 1 : ℕ) : ℤ) := by push_cast; ring
    rw [e, pow2_sub, pow2_natCast, pow2_natCast, habs, div_le_div_iff₀ (by positivity) hdq]
    calc ((2 ^ la : ℕ) : ℚ) * (x.den : ℚ) ≤ (x.num.natAbs : ℚ) * (x.den : ℚ) := by
          apply mul_le_mul_of_nonneg_right A1; positivity
      _ ≤ (x.num.natAbs : ℚ) * ((2 ^ (lb + 1) : ℕ) : ℚ) := by
          apply mul_le_mul_of_nonneg_left (le_of_lt B2); positivity
  unfold ilog2
  simp only [ela, elb]
  split_ifs with h
  · exact ⟨h, up⟩
  · push_neg at h
    refine ⟨lo, ?_⟩
    rw [sub_add_cancel]
    exact h

theorem ilog2_unique (x : ℚ) (k : ℤ) (h1 : pow2 k ≤ |x|) (h2 : |x| < pow2 (k + 1)) :
    ilog2 x = k := by
  have hx : x ≠ 0 := by
    rintro rfl
    have := pow2_pos k
    simp at h1
    linarith
  obtain ⟨a, b⟩ := ilog2_spec x hx
  by_contra hne
  rcases lt_or_gt_of_ne hne with h | h
  · have : pow2 (ilog2 x + 1) ≤ pow2 k := pow2_le_pow2 (by omega)
    linarith
  · have : pow2 (k + 1) ≤ pow2 (ilog2 x) := pow2_le_pow2 (by omega)
    linarith

theorem ilog2_neg (x : ℚ) : ilog2 (-x) = ilog2 x := by
  unfold ilog2
  simp

theorem ilog2_abs (x : ℚ) : ilog2 |x| = ilog2 x := by
  rcases abs_choice x with h | h <;> rw [h]
  exact ilog2_neg x

theorem ulpExp_neg (x : ℚ) : ulpExp (-x) = ulpExp x := by
  unfold ulpExp; rw [ilog2_neg]

theorem ulpExp_abs (x : ℚ) : ulpExp |x| = ulpExp x := by
  unfold ulpExp; rw [ilog2_abs]

theorem roundHalfEven_close (x : ℚ) (hx : 0 ≤ x) : |(roundHalfEven x : ℚ) - x| ≤ 1 / 2 := by
  have hfl : (0 : ℤ) ≤ ⌊x⌋ := Int.floor_nonneg.2 hx
  have hcast : ((x.floor.toNat : ℕ) : ℚ) = ((⌊x⌋ : ℤ) : ℚ) := by
    have : ((x.floor.toNat : ℕ) : ℤ) = ⌊x⌋ := Int.toNat_of_nonneg hfl
    exact_mod_cast congrArg (fun z : ℤ => (z : ℚ)) this
  have h1 : ((⌊x⌋ : ℤ) : ℚ) ≤ x := Int.floor_le x
  have h2 : x < ((⌊x⌋ : ℤ) : ℚ) + 1 := Int.lt_floor_add_one x
  unfold roundHalfEven
  simp only
  rw [hcast]
  split_ifs with ha hb hc
  · rw [hcast, abs_le]; constructor <;> linarith
  · push_cast; rw [hcast, abs_le]; constructor <;> linarith
  · rw [hcast, abs_le]; constructor <;> linarith
  · push_cast; rw [hcast, abs_le]; constructor <;> linarith

theorem roundHalfEven_natCast (n : ℕ) : roundHalfEven (n : ℚ) = n := by
  have h : (n : ℚ).floor = (n : ℤ) := show ⌊(n : ℚ)⌋ = (n : ℤ) from Int.floor_natCast n
  unfold roundHalfEven
  simp [h]

theorem roundHalfEven_le (x : ℚ) (n : ℕ) (hx : 0 ≤ x) (h : x ≤ n) : roundHalfEven x ≤ n := by
  have hfl : (0 : ℤ) ≤ ⌊x⌋ := Int.floor_nonneg.2 hx
  have hnat : ((x.floor.toNat : ℕ) : ℤ) = ⌊x⌋ := Int.toNat_of_nonneg hfl
  have hcast : ((x.floor.toNat : ℕ) : ℚ) = ((⌊x⌋ : ℤ) : ℚ) := by
    exact_mod_cast congrArg (fun z : ℤ => (z : ℚ)) hnat
  have h1 : ((⌊x⌋ : ℤ) : ℚ) ≤ x := Int.floor_le x
  have hle : x.floor.toNat ≤ n := by
    have : ((x.floor.toNat : ℕ) : ℚ) ≤ (n : ℚ) := by rw [hcast]; linarith
    exact_mod_cast this
  unfold roundHalfEven
  simp only
  rw [hcast]
  rcases Nat.lt_or_ge x.floor.toNat n with hlt | hge
  · split_ifs <;> omega
  · have heq : x.floor.toNat = n := le_antisymm hle hge
    have hxn : x = n := by
      apply le_antisymm h
      rw [← heq, hcast]; exact h1
    have : x - ((⌊x⌋ : ℤ) : ℚ) = 0 := by
      rw [← hcast, heq, hxn]; simp
    rw [this]
    norm_num
    have h3 : ((x.floor.toNat : ℕ) : ℤ) ≤ n := by exact_mod_cast hle
    rw [hnat] at h3
    exact h3

theorem roundHalfEven_ge (x : ℚ) (n : ℕ) (h : (n : ℚ) ≤ x) : n ≤ roundHalfEven x := by
  have hx : 0 ≤ x := le_trans (Nat.cast_nonneg n) h
  have hfl : (0 : ℤ) ≤ ⌊x⌋ := Int.floor_nonneg.2 hx
  have hnat : ((x.floor.toNat : ℕ) : ℤ) = ⌊x⌋ := Int.toNat_of_nonneg hfl
  have hle : n ≤ x.floor.toNat := by
    have : (n : ℤ) ≤ ⌊x⌋ := Int.le_floor.2 (by exact_mod_cast h)
    omega
  unfold roundHalfEven
  simp only
  split_ifs <;> omega

theorem rn_neg (x : ℚ) : rn (-x) = -rn x := by
  unfold rn
  simp only [ulpExp_neg, abs_neg]
  rcases lt_trichotomy x 0 with h | h | h
  · have h1 : ¬ (-x < 0) := by linarith
    simp [h, h1]
  · subst h
    have h0 : roundHalfEven (0 : ℚ) = 0 := by simpa using roundHalfEven_natCast 0
    simp [h0]
  · have h1 : ¬ (x < 0) := by linarith
    have h2 : -x < 0 := by linarith
    simp [h1, h2]

theorem rn_abs (x : ℚ) : rn |x| = |rn x| := by
  have key : ∀ y : ℚ, 0 ≤ y → rn y = |rn y| := by
    intro y hy
    have : 0 ≤ rn y := by
      unfold rn
      simp only [not_lt.2 hy, if_false]
      have := pow2_pos (ulpExp y)
      positivity
    rw [abs_of_nonneg this]
  rcases abs_choice x with h | h
  · rw [h]; exact h ▸ key |x| (abs_nonneg x)
  · have := key |x| (abs_nonneg x)
    rw [h] at this ⊢
    rw [this, rn_neg, abs_neg]

/-- The rounded magnitude is a multiple of the unit in the last place. -/
theorem rn_abs_eq (x : ℚ) :
    |rn x| = (roundHalfEven (|x| / pow2 (ulpExp x)) : ℚ) * pow2 (ulpExp x) := by
  have hp := pow2_pos (ulpExp x)
  have hnn : (0 : ℚ) ≤ (roundHalfEven (|x| / pow2 (ulpExp x)) : ℚ) * pow2 (ulpExp x) := by
    positivity
  unfold rn
  simp only
  split_ifs
  · rw [abs_neg, abs_of_nonneg hnn]
  · rw [abs_of_nonneg hnn]

theorem rn_close (x : ℚ) : |rn x - x| ≤ pow2 (ulpExp x) / 2 := by
  have hp := pow2_pos (ulpExp x)
  have hc := roundHalfEven_close (|x| / pow2 (ulpExp x)) (by positivity)
  have key : abs ((roundHalfEven (|x| / pow2 (ulpExp x)) : ℚ) * pow2 (ulpExp x) - abs x)
      ≤ pow2 (ulpExp x) / 2 := by
    have e : (roundHalfEven (|x| / pow2 (ulpExp x)) : ℚ) * pow2 (ulpExp x) - |x| =
        ((roundHalfEven (|x| / pow2 (ulpExp x)) : ℚ) - |x| / pow2 (ulpExp x)) * pow2 (ulpExp x) := by
      field_simp
    rw [e, abs_mul, abs_of_pos hp]
    calc _ ≤ 1 / 2 * pow2 (ulpExp x) := mul_le_mul_of_nonneg_right hc hp.le
      _ = pow2 (ulpExp x) / 2 := by ring
  unfold rn
  simp only
  split_ifs with hneg
  · rw [abs_of_neg hneg] at key
    have e : -((roundHalfEven (-x / pow2 (ulpExp x)) : ℚ) * pow2 (ulpExp x)) - x =
        -((roundHalfEven (-x / pow2 (ulpExp x)) : ℚ) * pow2 (ulpExp x) - -x) := by ring
    rw [abs_of_neg hneg, e, abs_neg]
    exact key
  · rw [abs_of_nonneg (not_lt.1 hneg)] at key ⊢
    exact key

theorem ulp_le (x : ℚ) (hx : pow2 (-1022) ≤ |x|) : pow2 (ulpExp x) ≤ pow2 (-52) * |x| := by
  have hx0 : x ≠ 0 := by
    rintro rfl
    have := pow2_pos (-1022)
    simp at hx
    linarith
  obtain ⟨a, b⟩ := ilog2_spec x hx0
  have hge : -1022 ≤ ilog2 x := by
    by_contra hlt
    push_neg at hlt
    have : pow2 (ilog2 x + 1) ≤ pow2 (-1022) := pow2_le_pow2 (by omega)
    linarith
  unfold ulpExp
  rw [max_eq_left hge, sub_eq_add_neg, pow2_add, mul_comm]
  exact mul_le_mul_of_nonneg_left a (pow2_pos _).le

theorem ulp_subnormal (x : ℚ) (hx0 : x ≠ 0) (hx : |x| < pow2 (-1022)) : ulpExp x = -1074 := by
  unfold ulpExp
  obtain ⟨a, b⟩ := ilog2_spec x hx0
  have hlt : ilog2 x < -1022 := by
    by_contra hge
    push_neg at hge
    have : pow2 (-1022) ≤ pow2 (ilog2 x) := pow2_le_pow2 hge
    linarith
  rw [max_eq_right (by omega)]
  rfl

/-- The error of rounding to nearest: relative in the normal range, absolute below it. -/
theorem rn_error (x : ℚ) : |rn x - x| ≤ pow2 (-53) * |x| + pow2 (-1075) := by
  have hc := rn_close x
  have h1 : pow2 (-52) / 2 = pow2 (-53) := by
    rw [show (-53 : ℤ) = -52 - 1 by norm_num, pow2_sub, pow2_eq 1]; norm_num
  have h2 : pow2 (-1074) / 2 = pow2 (-1075) := by
    rw [show (-1075 : ℤ) = -1074 - 1 by norm_num, pow2_sub, pow2_eq 1]; norm_num
  by_cases hx0 : x = 0
  · subst hx0
    have h0 : roundHalfEven (0 : ℚ) = 0 := by simpa using roundHalfEven_natCast 0
    have : rn 0 = 0 := by simp [rn, h0]
    rw [this]
    simp
    exact (pow2_pos _).le
  rcases le_or_lt (pow2 (-1022)) |x| with h | h
  · have := ulp_le x h
    have p := pow2_pos (-1075)
    calc |rn x - x| ≤ pow2 (ulpExp x) / 2 := hc
      _ ≤ pow2 (-52) * |x| / 2 := by linarith
      _ = pow2 (-53) * |x| := by rw [← h1]; ring
      _ ≤ _ := by linarith
  · rw [ulp_subnormal x hx0 h, h2] at hc
    have : 0 ≤ pow2 (-53) * |x| := mul_nonneg (pow2_pos _).le (abs_nonneg _)
    linarith

theorem den_natCast_mul_pow2 (n : ℕ) (d : ℤ) (hd : 0 ≤ d) : ((n : ℚ) * pow2 d).den = 1 := by
  obtain ⟨m, rfl⟩ := Int.eq_ofNat_of_zero_le hd
  rw [pow2_natCast]
  have : (n : ℚ) * ((2 ^ m : ℕ) : ℚ) = ((n * 2 ^ m : ℕ) : ℚ) := by push_cast; ring
  rw [this]
  exact Rat.den_natCast _

theorem ulpExp_ge (x : ℚ) : -1074 ≤ ulpExp x := by
  unfold ulpExp
  have := le_max_right (ilog2 x) (-1022)
  omega

/-- A natural multiple of a power of two, with at most 53 bits and within the range, is a
binary64 number. -/
theorem isBinary64_grid (n : ℕ) (k : ℤ) (hk : -1074 ≤ k) (hn : n ≤ 2 ^ 53)
    (hlt : (n : ℚ) * pow2 k < pow2 1024) : isBinary64 ((n : ℚ) * pow2 k) = true := by
  have hkpos := pow2_pos k
  have hy0 : (0 : ℚ) ≤ (n : ℚ) * pow2 k := mul_nonneg (Nat.cast_nonneg n) hkpos.le
  unfold isBinary64
  rw [Bool.and_eq_true, decide_eq_true_eq, decide_eq_true_eq, abs_of_nonneg hy0]
  refine ⟨hlt, ?_⟩
  rcases Nat.eq_zero_or_pos n with h0 | hpos
  · subst h0; simp
  have hyne : (n : ℚ) * pow2 k ≠ 0 :=
    mul_ne_zero (Nat.cast_ne_zero.2 (Nat.pos_iff_ne_zero.1 hpos)) hkpos.ne'
  obtain ⟨a, b⟩ := ilog2_spec _ hyne
  rw [abs_of_nonneg hy0] at a b
  have hnq : (n : ℚ) ≤ pow2 53 := by
    rw [show (53 : ℤ) = ((53 : ℕ) : ℤ) by norm_num, pow2_natCast]; exact_mod_cast hn
  have hle : ilog2 ((n : ℚ) * pow2 k) ≤ 53 + k := by
    by_contra hgt
    push_neg at hgt
    have h1 : pow2 (53 + k + 1) ≤ pow2 (ilog2 ((n : ℚ) * pow2 k)) := pow2_le_pow2 (by omega)
    have h2 : (n : ℚ) * pow2 k ≤ pow2 (53 + k) := by
      rw [pow2_add]; exact mul_le_mul_of_nonneg_right hnq hkpos.le
    have h3 : pow2 (53 + k) < pow2 (53 + k + 1) := pow2_lt_pow2 (by omega)
    linarith
  rcases lt_or_eq_of_le hle with hlt2 | heq
  · have hu : ulpExp ((n : ℚ) * pow2 k) ≤ k := by
      unfold ulpExp
      rcases max_choice (ilog2 ((n : ℚ) * pow2 k)) (-1022) with h | h <;> rw [h] <;> omega
    have e : (n : ℚ) * pow2 k / pow2 (ulpExp ((n : ℚ) * pow2 k)) =
        (n : ℚ) * pow2 (k - ulpExp ((n : ℚ) * pow2 k)) := by
      rw [pow2_sub]; ring
    rw [e]
    exact den_natCast_mul_pow2 _ _ (by omega)
  · have hn53 : (n : ℚ) = pow2 53 := by
      apply le_antisymm hnq
      rw [heq, pow2_add] at a
      exact le_of_mul_le_mul_right a hkpos
    have hu : ulpExp ((n : ℚ) * pow2 k) = k + 1 := by
      unfold ulpExp
      rw [heq, max_eq_left (by omega)]
      ring
    rw [hu, hn53, pow2_add]
    have e : pow2 53 * pow2 k / (pow2 k * pow2 1) = ((2 ^ 52 : ℕ) : ℚ) * pow2 0 := by
      have h53 : pow2 53 = ((2 ^ 52 : ℕ) : ℚ) * pow2 1 := by
        rw [show (53 : ℤ) = 52 + 1 by norm_num, pow2_add,
          show (52 : ℤ) = ((52 : ℕ) : ℤ) by norm_num, pow2_natCast]
      rw [h53]
      have h1 := pow2_pos 1
      have h0 : pow2 0 = 1 := by rw [pow2_eq]; norm_num
      rw [h0]
      field_simp
      ring
    rw [e]
    exact den_natCast_mul_pow2 _ _ (le_refl _)

theorem isBinary64_neg (q : ℚ) : isBinary64 (-q) = isBinary64 q := by
  unfold isBinary64
  rw [abs_neg, ulpExp_neg, neg_div, Rat.den_neg_eq_den]

theorem isBinary64_abs (q : ℚ) : isBinary64 |q| = isBinary64 q := by
  rcases abs_choice q with h | h <;> rw [h]
  exact isBinary64_neg q

theorem isBinary64_lt {q : ℚ} (h : isBinary64 q = true) : |q| < pow2 1024 := by
  unfold isBinary64 at h
  rw [Bool.and_eq_true, decide_eq_true_eq] at h
  exact h.1

/-- Rounding leaves a binary64 number as it is. -/
theorem rn_of_isBinary64 {q : ℚ} (h : isBinary64 q = true) : rn q = q := by
  unfold isBinary64 at h
  rw [Bool.and_eq_true, decide_eq_true_eq, decide_eq_true_eq] at h
  have hp := pow2_pos (ulpExp q)
  have hz : ((q / pow2 (ulpExp q)).num : ℚ) = q / pow2 (ulpExp q) :=
    (Rat.den_eq_one_iff _).1 h.2
  have habs : |q| / pow2 (ulpExp q) = (((q / pow2 (ulpExp q)).num.natAbs : ℕ) : ℚ) := by
    rw [Nat.cast_natAbs, Int.cast_abs, hz, abs_div, abs_of_pos hp]
  have hm : (((q / pow2 (ulpExp q)).num.natAbs : ℕ) : ℚ) * pow2 (ulpExp q) = |q| := by
    rw [← habs]; field_simp
  unfold rn
  simp only
  rw [habs, roundHalfEven_natCast, hm]
  split_ifs with hneg
  · rw [abs_of_neg hneg]; ring
  · rw [abs_of_nonneg (not_lt.1 hneg)]

theorem rn_mantissa_le (x : ℚ) : roundHalfEven (|x| / pow2 (ulpExp x)) ≤ 2 ^ 53 := by
  have hp := pow2_pos (ulpExp x)
  apply roundHalfEven_le _ _ (div_nonneg (abs_nonneg x) hp.le)
  by_cases hx0 : x = 0
  · subst hx0; simp
  obtain ⟨a, b⟩ := ilog2_spec x hx0
  have h1 : pow2 (ilog2 x + 1) ≤ pow2 (ulpExp x + 53) := by
    apply pow2_le_pow2
    unfold ulpExp
    have := le_max_left (ilog2 x) (-1022)
    omega
  have h2 : pow2 (ulpExp x + 53) = pow2 (ulpExp x) * pow2 53 := pow2_add _ _
  have h53 : pow2 53 = ((2 ^ 53 : ℕ) : ℚ) := by
    rw [show (53 : ℤ) = ((53 : ℕ) : ℤ) by norm_num, pow2_natCast]
  rw [h2, h53] at h1
  rw [div_le_iff₀ hp]
  linarith

/-- A rounded value below `2 ^ 1024` is a binary64 number. -/
theorem isBinary64_rn (x : ℚ) (h : |rn x| < pow2 1024) : isBinary64 (rn x) = true := by
  rw [← isBinary64_abs, rn_abs_eq]
  rw [rn_abs_eq] at h
  exact isBinary64_grid _ _ (ulpExp_ge x) (rn_mantissa_le x) h

theorem isBinary64_zero : isBinary64 0 = true := by decide!

theorem rn_zero : rn 0 = 0 := rn_of_isBinary64 isBinary64_zero

namespace Double

theorem round_finite (z : Bool) (x : ℚ) (h : isBinary64 (rn x) = true) :
    (round z x).IsFinite ∧ (round z x).toRat = rn x := by
  unfold round
  rw [dif_pos h]
  split_ifs with h0
  · exact ⟨trivial, h0.1.symm⟩
  · exact ⟨trivial, rfl⟩

/-- Rounding a binary64 number gives that number, as a finite value. -/
theorem round_of_isBinary64 (z : Bool) {q : ℚ} (h : isBinary64 q = true) :
    (round z q).IsFinite ∧ (round z q).toRat = q := by
  have := round_finite z q (by rw [rn_of_isBinary64 h]; exact h)
  rwa [rn_of_isBinary64 h] at this

theorem isBinary64_toRat (x : Double) : isBinary64 x.toRat = true := by
  cases x with
  | finite q h => exact h
  | negZero => exact isBinary64_zero
  | inf _ => exact isBinary64_zero
  | nan _ => exact isBinary64_zero

theorem neg_finite {x : Double} (hx : x.IsFinite) : (neg x).IsFinite ∧ (neg x).toRat = -x.toRat := by
  cases x with
  | finite q h =>
    show (if q = 0 then negZero else round false (-q)).IsFinite ∧
      (if q = 0 then negZero else round false (-q)).toRat = -q
    split_ifs with h0
    · subst h0; exact ⟨trivial, by simp [toRat]⟩
    · exact round_of_isBinary64 false (by rw [isBinary64_neg]; exact h)
  | negZero =>
    have := round_of_isBinary64 false isBinary64_zero
    show (round false 0).IsFinite ∧ (round false 0).toRat = -0
    rw [neg_zero]; exact this
  | inf _ => exact hx.elim
  | nan _ => exact hx.elim

theorem add_finite {x y : Double} (hx : x.IsFinite) (hy : y.IsFinite)
    (h : isBinary64 (rn (x.toRat + y.toRat)) = true) :
    (add x y).IsFinite ∧ (add x y).toRat = rn (x.toRat + y.toRat) := by
  cases x with
  | finite p hp =>
    cases y with
    | finite q hq => exact round_finite false _ h
    | negZero =>
      have e : (finite p hp).toRat + negZero.toRat = p := add_zero p
      rw [e] at h ⊢
      exact round_finite false _ h
    | inf _ => exact hy.elim
    | nan _ => exact hy.elim
  | negZero =>
    cases y with
    | finite q hq =>
      have e : negZero.toRat + (finite q hq).toRat = q := zero_add q
      rw [e] at h ⊢
      exact round_finite false _ h
    | negZero =>
      have e : negZero.toRat + negZero.toRat = 0 := add_zero 0
      rw [e, rn_zero]
      exact ⟨trivial, rfl⟩
    | inf _ => exact hy.elim
    | nan _ => exact hy.elim
  | inf _ => exact hx.elim
  | nan _ => exact hx.elim

theorem sub_finite {x y : Double} (hx : x.IsFinite) (hy : y.IsFinite)
    (h : isBinary64 (rn (x.toRat - y.toRat)) = true) :
    (sub x y).IsFinite ∧ (sub x y).toRat = rn (x.toRat - y.toRat) := by
  obtain ⟨n1, n2⟩ := neg_finite hy
  have := add_finite hx n1 (by rw [n2, ← sub_eq_add_neg]; exact h)
  rwa [n2, ← sub_eq_add_neg] at this

theorem mul_finite {x y : Double} (hx : x.IsFinite) (hy : y.IsFinite)
    (h : isBinary64 (rn (x.toRat * y.toRat)) = true) :
    (mul x y).IsFinite ∧ (mul x y).toRat = rn (x.toRat * y.toRat) := by
  cases x with
  | finite p hp =>
    cases y with
    | finite q hq => exact round_finite _ _ h
    | negZero =>
      have e : (finite p hp).toRat * negZero.toRat = 0 := mul_zero p
      rw [e] at h ⊢
      exact round_finite _ _ h
    | inf _ => exact hy.elim
    | nan _ => exact hy.elim
  | negZero =>
    cases y with
    | finite q hq =>
      have e : negZero.toRat * (finite q hq).toRat = 0 := zero_mul q
      rw [e] at h ⊢
      exact round_finite _ _ h
    | negZero =>
      have e : negZero.toRat * negZero.toRat = 0 := mul_zero 0
      rw [e] at h ⊢
      exact round_finite _ _ h
    | inf _ => exact hy.elim
    | nan _ => exact hy.elim
  | inf _ => exact hx.elim
  | nan _ => exact hx.elim

theorem div_finite {x y : Double} (hx : x.IsFinite) (hy : y.IsFinite) (hy0 : y.toRat ≠ 0)
    (h : isBinary64 (rn (x.toRat / y.toRat)) = true) :
    (div x y).IsFinite ∧ (div x y).toRat = rn (x.toRat / y.toRat) := by
  cases y with
  | finite q hq =>
    have hq0 : q ≠ 0 := hy0
    cases x with
    | finite p hp =>
      show (if q = 0 then (if p = 0 then nan true else inf (decide (p < 0)))
        else round (decide (p < 0) != decide (q < 0)) (p / q)).IsFinite ∧
        (if q = 0 then (if p = 0 then nan true else inf (decide (p < 0)))
        else round (decide (p < 0) != decide (q < 0)) (p / q)).toRat = rn (p / q)
      rw [if_neg hq0]
      exact round_finite _ _ h
    | negZero =>
      have e : negZero.toRat / (finite q hq).toRat = 0 := zero_div q
      rw [e] at h ⊢
      show (if q = 0 then nan true else round (!decide (q < 0)) 0).IsFinite ∧
        (if q = 0 then nan true else round (!decide (q < 0)) 0).toRat = rn 0
      rw [if_neg hq0]
      exact round_finite _ _ h
    | inf _ => exact hx.elim
    | nan _ => exact hx.elim
  | negZero => exact absurd rfl hy0
  | inf _ => exact hy.elim
  | nan _ => exact hy.elim

theorem abs_finite {x : Double} (hx : x.IsFinite) : (abs x).IsFinite ∧ (abs x).toRat = |x.toRat| := by
  cases x with
  | finite q h => exact round_of_isBinary64 false (by rw [isBinary64_abs]; exact h)
  | negZero =>
    have := round_of_isBinary64 false isBinary64_zero
    show (round false 0).IsFinite ∧ (round false 0).toRat = |0|
    rw [abs_zero]; exact this
  | inf _ => exact hx.elim
  | nan _ => exact hx.elim

theorem lt_finite {x y : Double} (hx : x.IsFinite) (hy : y.IsFinite) :
    lt x y = decide (x.toRat < y.toRat) := by
  cases x <;> cases y <;> first
    | exact hx.elim
    | exact hy.elim
    | rfl

theorem le_finite {x y : Double} (hx : x.IsFinite) (hy : y.IsFinite) :
    le x y = decide (x.toRat ≤ y.toRat) := by
  cases x <;> cases y <;> first
    | exact hx.elim
    | exact hy.elim
    | rfl

/-- The order of `double`: `a < b` excludes `b <= a`. -/
theorem lt_not_le (a b : Double) (h : lt a b = true) : le b a = false := by
  cases a with
  | finite p hp =>
    cases b with
    | finite q hq =>
      have h1 : p < q := of_decide_eq_true h
      exact decide_eq_false (not_le.2 h1)
    | negZero =>
      have h1 : p < 0 := of_decide_eq_true h
      exact decide_eq_false (not_le.2 h1)
    | inf s => cases s <;> first | rfl | exact absurd h Bool.false_ne_true
    | nan _ => rfl
  | negZero =>
    cases b with
    | finite q hq =>
      have h1 : 0 < q := of_decide_eq_true h
      exact decide_eq_false (not_le.2 h1)
    | negZero => exact absurd h Bool.false_ne_true
    | inf s => cases s <;> first | rfl | exact absurd h Bool.false_ne_true
    | nan _ => rfl
  | inf s =>
    cases b with
    | finite q hq => cases s <;> first | rfl | exact absurd h Bool.false_ne_true
    | negZero => cases s <;> first | rfl | exact absurd h Bool.false_ne_true
    | inf t => cases s <;> cases t <;> first | rfl | exact absurd h Bool.false_ne_true
    | nan _ => rfl
  | nan _ => exact absurd h Bool.false_ne_true

theorem ofNat_finite (n : Nat) (h : isBinary64 (rn (n : ℚ)) = true) :
    (ofNat n).IsFinite ∧ (ofNat n).toRat = rn (n : ℚ) :=
  round_finite false _ h

end Double

/-- A value of magnitude at most `2 ^ 1023` rounds to a binary64 number. -/
theorem isBinary64_rn_of_le (x : ℚ) (h : |x| ≤ pow2 1023) : isBinary64 (rn x) = true := by
  apply isBinary64_rn
  have he := rn_error x
  have h1 : |rn x| ≤ |rn x - x| + |x| := by
    have := abs_add (rn x - x) x
    simpa using this
  have p53 : pow2 (-53) ≤ 1 / 2 := by
    have := pow2_le_pow2 (show (-53 : ℤ) ≤ -1 by norm_num)
    have e : pow2 (-1) = 1 / 2 := by rw [pow2_eq]; norm_num
    linarith
  have p1075 : pow2 (-1075) ≤ 1 / 2 := by
    have := pow2_le_pow2 (show (-1075 : ℤ) ≤ -1 by norm_num)
    have e : pow2 (-1) = 1 / 2 := by rw [pow2_eq]; norm_num
    linarith
  have p1023 : (2 : ℚ) ≤ pow2 1023 := by
    have := pow2_le_pow2 (show (1 : ℤ) ≤ 1023 by norm_num)
    have e : pow2 1 = 2 := by rw [pow2_eq]; norm_num
    linarith
  have p1024 : pow2 1024 = 2 * pow2 1023 := by
    rw [show (1024 : ℤ) = 1 + 1023 by norm_num, pow2_add, pow2_eq 1]; norm_num
  have hx0 := abs_nonneg x
  have : pow2 (-53) * |x| ≤ 1 / 2 * |x| := mul_le_mul_of_nonneg_right p53 hx0
  rw [p1024]
  linarith

theorem pow2_1024_split : pow2 1024 = 2 * pow2 1023 := by
  rw [show (1024 : ℤ) = 1 + 1023 by norm_num, pow2_add, pow2_one]

theorem pow2_1024_max : pow2 1024 - pow2 971 = ((2 ^ 53 - 1 : ℕ) : ℚ) * pow2 971 := by
  have h : pow2 1024 = pow2 ((53 : ℕ) : ℤ) * pow2 971 := by
    rw [← pow2_add]; norm_num
  rw [h, pow2_natCast]
  have : ((2 ^ 53 - 1 : ℕ) : ℚ) = ((2 ^ 53 : ℕ) : ℚ) - 1 := by norm_num
  rw [this]
  ring

/-- A binary64 number is at most the largest one, `2 ^ 1024 - 2 ^ 971`, in magnitude. -/
theorem isBinary64_le_max {q : ℚ} (h : isBinary64 q = true) : |q| ≤ pow2 1024 - pow2 971 := by
  have hlt := isBinary64_lt h
  have h971 : pow2 971 ≤ pow2 1023 := pow2_le_pow2 (by norm_num)
  by_cases hq0 : q = 0
  · subst hq0
    rw [abs_zero, pow2_1024_split]
    have := pow2_pos 1023
    linarith only [h971, this]
  obtain ⟨a, b⟩ := ilog2_spec q hq0
  have he : ilog2 q ≤ 1023 := by
    by_contra hgt
    push_neg at hgt
    have : pow2 1024 ≤ pow2 (ilog2 q) := pow2_le_pow2 (by omega)
    linarith only [this, a, hlt]
  rcases lt_or_eq_of_le he with h1 | h1
  · have : pow2 (ilog2 q + 1) ≤ pow2 1023 := pow2_le_pow2 (by omega)
    rw [pow2_1024_split]
    linarith only [this, b, h971]
  · have hu : ulpExp q = 971 := by
      unfold ulpExp
      rw [h1]
      norm_num
    unfold isBinary64 at h
    rw [Bool.and_eq_true, decide_eq_true_eq, decide_eq_true_eq, hu] at h
    have hp := pow2_pos 971
    have hz : ((q / pow2 971).num : ℚ) = q / pow2 971 := (Rat.den_eq_one_iff _).1 h.2
    have habs : |q| = (((q / pow2 971).num.natAbs : ℕ) : ℚ) * pow2 971 := by
      rw [Nat.cast_natAbs, Int.cast_abs, hz, abs_div, abs_of_pos hp]
      field_simp
    have hn : (q / pow2 971).num.natAbs < 2 ^ 53 := by
      have h2 : (((q / pow2 971).num.natAbs : ℕ) : ℚ) * pow2 971 <
          ((2 ^ 53 : ℕ) : ℚ) * pow2 971 := by
        rw [← habs, ← pow2_natCast, ← pow2_add]
        norm_num
        exact hlt
      have h3 := lt_of_mul_lt_mul_right h2 hp.le
      exact_mod_cast h3
    rw [pow2_1024_max, habs]
    apply mul_le_mul_of_nonneg_right _ hp.le
    have : (q / pow2 971).num.natAbs ≤ 2 ^ 53 - 1 := by omega
    exact_mod_cast this

theorem pow2_971_split : pow2 971 = 2 * pow2 970 := by
  rw [show (971 : ℤ) = 1 + 970 by norm_num, pow2_add, pow2_one]

/-- Rounding a value below the overflow threshold `2 ^ 1024 - 2 ^ 970` does not pass the
largest binary64 number. -/
theorem rn_le_max (x : ℚ) (h : |x| < pow2 1024 - pow2 970) : |rn x| ≤ pow2 1024 - pow2 971 := by
  have h971 : pow2 971 ≤ pow2 1023 := pow2_le_pow2 (by norm_num)
  have hp1023 := pow2_pos 1023
  by_cases hx0 : x = 0
  · subst hx0
    rw [rn_zero, abs_zero, pow2_1024_split]
    linarith only [h971, hp1023]
  obtain ⟨a, b⟩ := ilog2_spec x hx0
  have hlt : |x| < pow2 1024 := by
    have := pow2_pos 970
    linarith only [h, this]
  have he : ilog2 x ≤ 1023 := by
    by_contra hgt
    push_neg at hgt
    have : pow2 1024 ≤ pow2 (ilog2 x) := pow2_le_pow2 (by omega)
    linarith only [this, a, hlt]
  rw [rn_abs_eq]
  have hs := pow2_pos (ulpExp x)
  rcases lt_or_eq_of_le he with h1 | h1
  · have hm := rn_mantissa_le x
    have hmq : (roundHalfEven (|x| / pow2 (ulpExp x)) : ℚ) ≤ pow2 ((53 : ℕ) : ℤ) := by
      rw [pow2_natCast]; exact_mod_cast hm
    have hu : ulpExp x ≤ 970 := by
      unfold ulpExp
      rcases max_choice (ilog2 x) (-1022) with h2 | h2 <;> rw [h2] <;> omega
    have hs2 : pow2 (ulpExp x) ≤ pow2 970 := pow2_le_pow2 hu
    have h53 : pow2 ((53 : ℕ) : ℤ) * pow2 970 = pow2 1023 := by
      rw [← pow2_add]; norm_num
    calc (roundHalfEven (|x| / pow2 (ulpExp x)) : ℚ) * pow2 (ulpExp x)
        ≤ pow2 ((53 : ℕ) : ℤ) * pow2 970 :=
          mul_le_mul hmq hs2 hs.le (pow2_pos _).le
      _ = pow2 1023 := h53
      _ ≤ pow2 1024 - pow2 971 := by
          rw [pow2_1024_split]; linarith only [h971]
  · have hu : ulpExp x = 971 := by
      unfold ulpExp
      rw [h1]
      norm_num
    rw [hu, pow2_1024_max]
    apply mul_le_mul_of_nonneg_right _ (pow2_pos _).le
    have hp971 := pow2_pos 971
    have hy0 : (0 : ℚ) ≤ |x| / pow2 971 := div_nonneg (abs_nonneg x) hp971.le
    have hc := roundHalfEven_close (|x| / pow2 971) hy0
    have hy : |x| / pow2 971 < ((2 ^ 53 : ℕ) : ℚ) - 1 / 2 := by
      rw [div_lt_iff₀ hp971]
      have e : (((2 ^ 53 : ℕ) : ℚ) - 1 / 2) * pow2 971 = pow2 1024 - pow2 970 := by
        have h53 : pow2 1024 = ((2 ^ 53 : ℕ) : ℚ) * pow2 971 := by
          rw [← pow2_natCast, ← pow2_add]; norm_num
        rw [h53, pow2_971_split]
        ring
      rw [e]
      exact h
    have hR : (roundHalfEven (|x| / pow2 971) : ℚ) < ((2 ^ 53 : ℕ) : ℚ) := by
      have := (abs_le.1 hc).2
      linarith only [this, hy]
    have hR2 : roundHalfEven (|x| / pow2 971) < 2 ^ 53 := by exact_mod_cast hR
    have : roundHalfEven (|x| / pow2 971) ≤ 2 ^ 53 - 1 := by omega
    exact_mod_cast this

/-- A value below the overflow threshold rounds to a finite `double`, the nearest one. -/
theorem Double.round_in_range (z : Bool) (x : ℚ) (h : |x| < pow2 1024 - pow2 970) :
    (Double.round z x).IsFinite ∧ (Double.round z x).toRat = rn x := by
  apply Double.round_finite
  apply isBinary64_rn
  have := rn_le_max x h
  have hp := pow2_pos 971
  linarith only [this, hp]

/-! ## Theorems: filter -/

section FilterLemmas

variable {α : Type}

theorem is_spike_eq (A : Arith α) (f : DataFilter α) (c : α)
    (hne : f.recent_readings_ ≠ []) :
    f.is_spike A c = A.lt (A.spikeBound f.config_.noise_threshold f.recent_readings_)
      (A.deviation c f.recent_readings_) := by
  unfold DataFilter.is_spike
  have h : f.recent_readings_.isEmpty = false := by
    cases hw : f.recent_readings_ with
    | nil => exact absurd hw hne
    | cons _ _ => rfl
  simp only [h, Bool.false_eq_true, if_false]
  rfl

/-- The order of an ordered field is coherent, so the filter theorems stated for every
coherent arithmetic hold in exact arithmetic as well as on `double`. -/
theorem Arith.exact_ordered {β : Type} [LinearOrderedField β] (sqrt : β → β) :
    (Arith.exact sqrt).Ordered := by
  intro a b h
  have h1 : a < b := of_decide_eq_true h
  exact decide_eq_false (not_le.2 h1)

theorem push_window (f : DataFilter α) (c : α) :
    (f.push c).recent_readings_ =
      if f.recent_readings_.length + 1 > f.config_.spike_window
      then (f.recent_readings_ ++ [c]).tail else f.recent_readings_ ++ [c] := by
  unfold DataFilter.push
  by_cases h : f.recent_readings_.length + 1 > f.config_.spike_window <;> simp [h]

theorem push_counters (f : DataFilter α) (c : α) :
    (f.push c).total_ = f.total_ ∧ (f.push c).accepted_ = f.accepted_ ∧
      (f.push c).rejected_ = f.rejected_ ∧ (f.push c).config_ = f.config_ := by
  unfold DataFilter.push
  by_cases h : f.recent_readings_.length + 1 > f.config_.spike_window <;> simp [h]

theorem in_range_iff (A : Arith α) (f : DataFilter α) (t : α) :
    f.is_in_range A t = true ↔
      A.le f.config_.temp_min_valid t = true ∧ A.le t f.config_.temp_max_valid = true := by
  simp [DataFilter.is_in_range]

/-- The three branches of `evaluate`, with the spike test in the specification's words. -/
theorem evaluate_cases (A : Arith α) (f : DataFilter α) (c : α) :
    f.evaluate A c =
      if ¬ (A.le f.config_.temp_min_valid c = true ∧ A.le c f.config_.temp_max_valid = true) then
        (⟨false, "out_of_range"⟩,
          { f with total_ := incr64 f.total_, rejected_ := incr64 f.rejected_ })
      else if 2 ≤ f.recent_readings_.length ∧
          A.lt (A.spikeBound f.config_.noise_threshold f.recent_readings_)
            (A.deviation c f.recent_readings_) = true then
        (⟨false, "spike_detected"⟩,
          { f.push c with total_ := incr64 f.total_, rejected_ := incr64 f.rejected_ })
      else
        (⟨true, ""⟩,
          { f.push c with total_ := incr64 f.total_, accepted_ := incr64 f.accepted_ }) := by
  have hr := in_range_iff A { f with total_ := incr64 f.total_ } c
  simp only at hr
  by_cases hw : f.config_.spike_window < f.recent_readings_.length + 1
  all_goals (
    by_cases h1 : A.le f.config_.temp_min_valid c = true ∧ A.le c f.config_.temp_max_valid = true
    · have hr1 : DataFilter.is_in_range A { f with total_ := incr64 f.total_ } c = true := hr.2 h1
      by_cases h2 : 2 ≤ f.recent_readings_.length
      · have hne : f.recent_readings_ ≠ [] := by
          intro h0; rw [h0] at h2; simp at h2
        have hs := is_spike_eq A { f with total_ := incr64 f.total_ } c hne
        simp only at hs
        by_cases h3 : A.lt (A.spikeBound f.config_.noise_threshold f.recent_readings_)
            (A.deviation c f.recent_readings_) = true
        · simp [DataFilter.evaluate, hr1, hs, h1, h2, h3, hw, DataFilter.push]
        · simp [DataFilter.evaluate, hr1, hs, h1, h2, h3, hw, DataFilter.push]
      · simp [DataFilter.evaluate, hr1, h1, h2, hw, DataFilter.push]
    · have hr1 : DataFilter.is_in_range A { f with total_ := incr64 f.total_ } c = false := by
        rw [Bool.eq_false_iff]; exact fun h => h1 (hr.1 h)
      simp [DataFilter.evaluate, hr1, h1])

theorem incr64_of_lt (x : Nat) (h : x + 1 < 2 ^ 64) : incr64 x = x + 1 :=
  Nat.mod_eq_of_lt h

/-- Counter invariant carried through the calls: `n` calls so far. -/
theorem evaluate_counters (A : Arith α) (f : DataFilter α) (t : α) (n : Nat)
    (htot : f.total_ = n) (hsum : f.accepted_ + f.rejected_ = n) (hn : n + 1 < 2 ^ 64) :
    (f.evaluate A t).2.total_ = n + 1 ∧
      (f.evaluate A t).2.accepted_ + (f.evaluate A t).2.rejected_ = n + 1 ∧
      f.accepted_ ≤ (f.evaluate A t).2.accepted_ ∧
      f.rejected_ ≤ (f.evaluate A t).2.rejected_ ∧
      (f.evaluate A t).2.config_ = f.config_ := by
  have ht : incr64 f.total_ = n + 1 := by rw [htot]; exact incr64_of_lt _ hn
  have ha : incr64 f.accepted_ = f.accepted_ + 1 := incr64_of_lt _ (by omega)
  have hj : incr64 f.rejected_ = f.rejected_ + 1 := incr64_of_lt _ (by omega)
  obtain ⟨_, pa, pr, pc⟩ := push_counters f t
  rw [evaluate_cases]
  split_ifs
  all_goals
    refine ⟨?_, ?_, ?_, ?_, ?_⟩ <;> simp only [ht, ha, hj, pa, pr, pc] <;> omega

theorem run_counters (A : Arith α) (ts : List α) (f : DataFilter α) (n : Nat)
    (htot : f.total_ = n) (hsum : f.accepted_ + f.rejected_ = n)
    (hn : n + ts.length < 2 ^ 64) :
    (f.run A ts).total_ = n + ts.length ∧
      (f.run A ts).accepted_ + (f.run A ts).rejected_ = n + ts.length := by
  induction ts generalizing f n with
  | nil => exact ⟨htot, hsum⟩
  | cons t ts ih =>
    simp only [List.length_cons] at hn
    obtain ⟨h1, h2, _, _, _⟩ := evaluate_counters A f t n htot hsum (by omega)
    have := ih (f.evaluate A t).2 (n + 1) h1 h2 (by omega)
    simp only [DataFilter.run, List.foldl_cons, List.length_cons] at this ⊢
    rw [show n + (ts.length + 1) = n + 1 + ts.length by omega]
    exact this

/-- The verdict on an in-range candidate, for any arithmetic. -/
theorem evaluate_in_range (A : Arith α) (f : DataFilter α) (c : α)
    (hlo : A.le f.config_.temp_min_valid c = true)
    (hhi : A.le c f.config_.temp_max_valid = true) :
    ((f.evaluate A c).1 = ⟨false, "spike_detected"⟩ ↔
        (2 ≤ f.recent_readings_.length ∧
          A.lt (A.spikeBound f.config_.noise_threshold f.recent_readings_)
            (A.deviation c f.recent_readings_) = true)) ∧
      (¬ (2 ≤ f.recent_readings_.length ∧
          A.lt (A.spikeBound f.config_.noise_threshold f.recent_readings_)
            (A.deviation c f.recent_readings_) = true) →
        (f.evaluate A c).1 = ⟨true, ""⟩) := by
  rw [evaluate_cases]
  have h1 : ¬ ¬ (A.le f.config_.temp_min_valid c = true ∧
      A.le c f.config_.temp_max_valid = true) := not_not.2 ⟨hlo, hhi⟩
  rw [if_neg h1]
  constructor
  · constructor
    · intro h
      by_contra hn
      rw [if_neg hn] at h
      simp at h
    · intro h
      rw [if_pos h]
  · intro hn
    rw [if_neg hn]

end FilterLemmas

section FilterClaims

variable {α : Type}

/-- C2: a temperature below `temp_min_valid` or above `temp_max_valid` is rejected with
"out_of_range" whatever the window holds; the window is left exactly as it was, `total`
and `rejected` are incremented (as `uint64_t`, hence by one below the wrap) and
`accepted` is unchanged. It holds for every arithmetic whose order is coherent, the
`double` arithmetic among them. -/
theorem evaluate_out_of_range (A : Arith α) (hA : A.Ordered) (f : DataFilter α) (t : α)
    (h : A.lt t f.config_.temp_min_valid = true ∨ A.lt f.config_.temp_max_valid t = true) :
    (f.evaluate A t).1 = ⟨false, "out_of_range"⟩ ∧
      (f.evaluate A t).2.recent_readings_ = f.recent_readings_ ∧
      (f.evaluate A t).2.total_ = (f.total_ + 1) % 2 ^ 64 ∧
      (f.evaluate A t).2.rejected_ = (f.rejected_ + 1) % 2 ^ 64 ∧
      (f.evaluate A t).2.accepted_ = f.accepted_ ∧
      (f.total_ + 1 < 2 ^ 64 → (f.evaluate A t).2.total_ = f.total_ + 1) ∧
      (f.rejected_ + 1 < 2 ^ 64 → (f.evaluate A t).2.rejected_ = f.rejected_ + 1) := by
  have h1 : ¬ (A.le f.config_.temp_min_valid t = true ∧
      A.le t f.config_.temp_max_valid = true) := by
    rintro ⟨ha, hb⟩
    rcases h with h | h
    · rw [hA _ _ h] at ha; exact Bool.false_ne_true ha
    · rw [hA _ _ h] at hb; exact Bool.false_ne_true hb
  rw [evaluate_cases, if_pos h1]
  refine ⟨rfl, rfl, rfl, rfl, rfl, ?_, ?_⟩
  · intro hlt; exact incr64_of_lt _ hlt
  · intro hlt; exact incr64_of_lt _ hlt

/-- C3: on a freshly constructed filter fed any sequence of temperatures, after every
call `total_count() == accepted_count() + rejected_count()`, the call has increased
`total_count()` by exactly one, and no counter has decreased (fewer than 2^64 calls). -/
theorem counters_invariant (A : Arith α) (config : Config α) (ts : List α) (t : α)
    (hcalls : ts.length + 1 < 2 ^ 64) :
    (((DataFilter.new config).run A ts).evaluate A t).2.total_count =
        (((DataFilter.new config).run A ts).evaluate A t).2.accepted_count +
          (((DataFilter.new config).run A ts).evaluate A t).2.rejected_count ∧
      (((DataFilter.new config).run A ts).evaluate A t).2.total_count =
        ((DataFilter.new config).run A ts).total_count + 1 ∧
      ((DataFilter.new config).run A ts).accepted_count ≤
        (((DataFilter.new config).run A ts).evaluate A t).2.accepted_count ∧
      ((DataFilter.new config).run A ts).rejected_count ≤
        (((DataFilter.new config).run A ts).evaluate A t).2.rejected_count ∧
      ((DataFilter.new config).run A ts).total_count =
        ((DataFilter.new config).run A ts).accepted_count +
          ((DataFilter.new config).run A ts).rejected_count := by
  obtain ⟨h1, h2⟩ := run_counters A ts (DataFilter.new config) 0 rfl rfl (by omega)
  rw [Nat.zero_add] at h1 h2
  obtain ⟨e1, e2, e3, e4, _⟩ :=
    evaluate_counters A ((DataFilter.new config).run A ts) t ts.length h1 h2 hcalls
  simp only [DataFilter.total_count, DataFilter.accepted_count, DataFilter.rejected_count]
  refine ⟨by omega, by omega, e3, e4, by omega⟩

/-- C4: when an in-range candidate is rejected as "spike_detected" and the window holds at
most `spike_window` values, the new window is the old one with the candidate appended at
the back, the front element removed exactly when the old window was full; the candidate is
its newest element and the statistics of the next call are taken over that window; `total`
and `rejected` are incremented and `accepted` is unchanged. -/
theorem evaluate_spike_inserts (A : Arith α) (f : DataFilter α) (c : α)
    (hlen : f.recent_readings_.length ≤ f.config_.spike_window)
    (hlo : A.le f.config_.temp_min_valid c = true)
    (hhi : A.le c f.config_.temp_max_valid = true)
    (hspike : (f.evaluate A c).1 = ⟨false, "spike_detected"⟩) :
    (f.evaluate A c).2.recent_readings_ =
        (if f.recent_readings_.length = f.config_.spike_window
          then f.recent_readings_.tail ++ [c] else f.recent_readings_ ++ [c]) ∧
      (f.evaluate A c).2.recent_readings_.getLast? = some c ∧
      (∀ t : α, (f.evaluate A c).2.is_spike A t =
        A.lt (A.spikeBound f.config_.noise_threshold (f.evaluate A c).2.recent_readings_)
          (A.deviation t (f.evaluate A c).2.recent_readings_)) ∧
      (f.evaluate A c).2.total_ = (f.total_ + 1) % 2 ^ 64 ∧
      (f.evaluate A c).2.rejected_ = (f.rejected_ + 1) % 2 ^ 64 ∧
      (f.evaluate A c).2.accepted_ = f.accepted_ ∧
      (f.total_ + 1 < 2 ^ 64 → (f.evaluate A c).2.total_ = f.total_ + 1) ∧
      (f.rejected_ + 1 < 2 ^ 64 → (f.evaluate A c).2.rejected_ = f.rejected_ + 1) := by
  have h1 : ¬ ¬ (A.le f.config_.temp_min_valid c = true ∧
      A.le c f.config_.temp_max_valid = true) := not_not.2 ⟨hlo, hhi⟩
  obtain ⟨_, pa, pr, pc⟩ := push_counters f c
  rw [evaluate_cases, if_neg h1] at hspike ⊢
  by_cases h2 : 2 ≤ f.recent_readings_.length ∧
      A.lt (A.spikeBound f.config_.noise_threshold f.recent_readings_)
        (A.deviation c f.recent_readings_) = true
  · rw [if_pos h2]
    have hne : f.recent_readings_ ≠ [] := by
      intro h0; rw [h0] at h2; simp at h2
    have hw : (f.push c).recent_readings_ =
        (if f.recent_readings_.length = f.config_.spike_window
          then f.recent_readings_.tail ++ [c] else f.recent_readings_ ++ [c]) := by
      rw [push_window]
      by_cases he : f.recent_readings_.length = f.config_.spike_window
      · rw [if_pos (by omega), if_pos he]
        cases hl : f.recent_readings_ with
        | nil => exact absurd hl hne
        | cons x xs => rfl
      · rw [if_neg (by omega), if_neg he]
    have hlast : (f.push c).recent_readings_.getLast? = some c := by
      rw [hw]; split_ifs <;> simp
    have hne2 : (f.push c).recent_readings_ ≠ [] := by
      intro h0; rw [h0] at hlast; simp at hlast
    refine ⟨hw, hlast, ?_, rfl, rfl, pa, ?_, ?_⟩
    · intro t
      refine (is_spike_eq A
        { f.push c with total_ := incr64 f.total_, rejected_ := incr64 f.rejected_ } t hne2).trans ?_
      simp only [pc]
    · intro hlt; exact incr64_of_lt _ hlt
    · intro hlt; exact incr64_of_lt _ hlt
  · rw [if_neg h2] at hspike
    simp at hspike

end FilterClaims

section Binary64Claims

theorem ofRat_eq_finite (q : ℚ) (h : isBinary64 q = true) : Double.ofRat q = Double.finite q h := by
  unfold Double.ofRat Double.round
  have e := rn_of_isBinary64 h
  have h' : isBinary64 (rn q) = true := by rw [e]; exact h
  rw [dif_pos h']
  have hn : ¬ (rn q = 0 ∧ (q < 0 ∨ (q = 0 ∧ false = true))) := by
    rintro ⟨h0, h1 | ⟨_, h2⟩⟩
    · rw [e] at h0; rw [h0] at h1; exact lt_irrefl _ h1
    · exact Bool.false_ne_true h2
  rw [if_neg hn]
  congr 1

/-- A binary64 number between 16 and 32 is a multiple of `2 ^ -48`. -/
theorem grid_16_32 {q : ℚ} (h : isBinary64 q = true) (h16 : 16 ≤ q) (h32 : q < 32) :
    ∃ z : ℤ, q = z / 2 ^ 48 := by
  have hq0 : 0 ≤ q := by linarith only [h16]
  have hlog : ilog2 q = 4 := by
    apply ilog2_unique
    · rw [abs_of_nonneg hq0, show (4 : ℤ) = ((4 : ℕ) : ℤ) by norm_num, pow2_nat_eq]
      linarith only [h16]
    · rw [abs_of_nonneg hq0, show (4 + 1 : ℤ) = ((5 : ℕ) : ℤ) by norm_num, pow2_nat_eq]
      linarith only [h32]
  have hu : ulpExp q = -((48 : ℕ) : ℤ) := by
    unfold ulpExp
    rw [hlog]
    norm_num
  unfold isBinary64 at h
  rw [Bool.and_eq_true, decide_eq_true_eq, decide_eq_true_eq, hu, pow2_neg_eq] at h
  have hz := (Rat.den_eq_one_iff _).1 h.2
  refine ⟨(q / (1 / 2 ^ 48)).num, ?_⟩
  rw [hz]
  field_simp

/-- The window of five readings 20.0 under the default configuration: every reading above
22.5 and within the range is rejected as a spike. -/
theorem stable_window_spike (a b r : Nat) (c : Double)
    (h1 : Double.lt (Double.ofRat (45 / 2)) c = true)
    (h2 : Double.le c (Double.ofRat 85) = true) :
    ((DataFilter.mk Config.default (List.replicate 5 (Double.ofRat 20)) a b r).evaluate
      binary64 c).1 = ⟨false, "spike_detected"⟩ := by
  have b225 : isBinary64 (45 / 2) = true := by decide!
  have b85 : isBinary64 85 = true := by decide!
  have b20 : isBinary64 20 = true := by decide!
  have b40 : isBinary64 (-40) = true := by decide!
  have b52 : isBinary64 (5 / 2) = true := by decide!
  rw [ofRat_eq_finite _ b225] at h1
  rw [ofRat_eq_finite _ b85] at h2
  have hmean : binary64.mean (List.replicate 5 (Double.ofRat 20)) = Double.finite 20 b20 := by
    rw [← ofRat_eq_finite _ b20]
    decide!
  have hbound : binary64.spikeBound Config.default.noise_threshold
      (List.replicate 5 (Double.ofRat 20)) = Double.finite (5 / 2) b52 := by
    rw [← ofRat_eq_finite _ b52]
    decide!
  cases c with
  | nan s => exact absurd h1 Bool.false_ne_true
  | negZero =>
    have : (45 / 2 : ℚ) < 0 := of_decide_eq_true h1
    norm_num at this
  | inf s =>
    cases s with
    | false => exact absurd h2 Bool.false_ne_true
    | true => exact absurd h1 Bool.false_ne_true
  | finite q hq =>
    have hq1 : (45 / 2 : ℚ) < q := of_decide_eq_true h1
    have hq2 : q ≤ 85 := of_decide_eq_true h2
    have hlo : binary64.le (DataFilter.mk Config.default (List.replicate 5 (Double.ofRat 20))
        a b r).config_.temp_min_valid (Double.finite q hq) = true := by
      show Double.le (Double.ofRat (-40)) (Double.finite q hq) = true
      rw [ofRat_eq_finite _ b40]
      exact decide_eq_true (by linarith only [hq1])
    have hhi : binary64.le (Double.finite q hq) (DataFilter.mk Config.default
        (List.replicate 5 (Double.ofRat 20)) a b r).config_.temp_max_valid = true := by
      show Double.le (Double.finite q hq) (Double.ofRat 85) = true
      rw [ofRat_eq_finite _ b85]
      exact decide_eq_true hq2
    apply (evaluate_in_range binary64 _ _ hlo hhi).1.2
    refine ⟨by simp, ?_⟩
    show binary64.lt (binary64.spikeBound Config.default.noise_threshold
      (List.replicate 5 (Double.ofRat 20)))
      (binary64.deviation (Double.finite q hq) (List.replicate 5 (Double.ofRat 20))) = true
    rw [hbound]
    unfold Arith.deviation
    rw [hmean]
    have e53 : pow2 (-53) = 1 / 2 ^ 53 := pow2_neg_eq 53
    have hη : pow2 (-1075) ≤ 1 / 2 ^ 53 := by
      have := pow2_le_pow2 (show (-1075 : ℤ) ≤ -53 by norm_num)
      rwa [e53] at this
    have hy0 : 0 < q - 20 := by linarith only [hq1]
    have hbin : isBinary64 (rn ((Double.finite q hq).toRat - (Double.finite 20 b20).toRat))
        = true := by
      apply isBinary64_rn_of_le
      show |q - 20| ≤ pow2 1023
      rw [abs_of_pos hy0]
      have := pow2_le_pow2 (show ((7 : ℕ) : ℤ) ≤ 1023 by norm_num)
      rw [pow2_nat_eq] at this
      linarith only [this, hq2]
    obtain ⟨dfin, dval⟩ := Double.sub_finite (x := Double.finite q hq)
      (y := Double.finite 20 b20) trivial trivial hbin
    obtain ⟨afin, aval⟩ := Double.abs_finite dfin
    have hlt := Double.lt_finite (x := Double.finite (5 / 2) b52) trivial afin
    refine hlt.trans (decide_eq_true ?_)
    rw [aval, dval]
    show (5 / 2 : ℚ) < |rn (q - 20)|
    have hr := rn_error (q - 20)
    rw [abs_of_pos hy0, e53] at hr
    have hr1 := (abs_le.1 hr).1
    refine lt_of_lt_of_le ?_ (le_abs_self _)
    rcases lt_or_le q 32 with h32 | h32
    · obtain ⟨z, hz⟩ := grid_16_32 hq (by linarith only [hq1]) h32
      have hz1 : (45 * 2 ^ 47 : ℤ) < z := by
        have : ((45 * 2 ^ 47 : ℤ) : ℚ) < (z : ℚ) := by
          rw [hz] at hq1
          have h48 : (0 : ℚ) < 2 ^ 48 := by positivity
          rw [lt_div_iff₀ h48] at hq1
          push_cast
          linarith only [hq1]
        exact_mod_cast this
      have hz2 : ((45 * 2 ^ 47 + 1 : ℤ) : ℚ) ≤ (z : ℚ) := by exact_mod_cast hz1
      have hq3 : 45 / 2 + 1 / 2 ^ 48 ≤ q := by
        rw [hz, le_div_iff₀ (by positivity)]
        push_cast at hz2
        linarith only [hz2]
      linarith only [hr1, hq3, h32, hη]
    · linarith only [hr1, h32, hq2, hη]

/-- C1, amended to the arithmetic of the program: an in-range candidate is rejected as
"spike_detected" exactly when the window holds at least two values and the deviation
`abs(c - mean)` exceeds the bound `noise_threshold * max(sigma, 1.0) * 5.0`, where the mean
(sum accumulated from the front, divided by the count), the population standard deviation,
the deviation and the bound are the values computed in `double`, every operation rounded to
nearest; in every other case the candidate is accepted with an empty reason, in particular
when the window holds fewer than two values. With five readings 20.0 and the default
configuration the bound is 2.5, and every in-range reading above 22.5 is rejected. -/
theorem evaluate_spike_iff (f : DataFilter Double) (c : Double)
    (hlo : Double.le f.config_.temp_min_valid c = true)
    (hhi : Double.le c f.config_.temp_max_valid = true) :
    ((f.evaluate binary64 c).1 = ⟨false, "spike_detected"⟩ ↔
        (2 ≤ f.recent_readings_.length ∧
          Double.lt (binary64.spikeBound f.config_.noise_threshold f.recent_readings_)
            (binary64.deviation c f.recent_readings_) = true)) ∧
      (¬ (2 ≤ f.recent_readings_.length ∧
          Double.lt (binary64.spikeBound f.config_.noise_threshold f.recent_readings_)
            (binary64.deviation c f.recent_readings_) = true) →
        (f.evaluate binary64 c).1 = ⟨true, ""⟩) ∧
      (f.recent_readings_.length < 2 → (f.evaluate binary64 c).1 = ⟨true, ""⟩) ∧
      binary64.spikeBound Config.default.noise_threshold (List.replicate 5 (Double.ofRat 20))
        = Double.ofRat (5 / 2) ∧
      (∀ (total accepted rejected : Nat) (t : Double),
        Double.lt (Double.ofRat (45 / 2)) t = true → Double.le t (Double.ofRat 85) = true →
        ((DataFilter.mk Config.default (List.replicate 5 (Double.ofRat 20)) total accepted
          rejected).evaluate binary64 t).1 = ⟨false, "spike_detected"⟩) := by
  have h := evaluate_in_range binary64 f c hlo hhi
  refine ⟨h.1, h.2, fun hlen => h.2 (fun hc => ?_), by decide!, stable_window_spike⟩
  omega

/-- C1, amended, on the window of five readings 20.0 with the default configuration: the
candidate 22.5 is accepted, the candidate 23 is rejected as a spike. -/
theorem evaluate_spike_iff_witness :
    (Double.le Config.default.temp_min_valid (Double.ofRat (45 / 2)) = true ∧
      Double.le (Double.ofRat (45 / 2)) Config.default.temp_max_valid = true ∧
      Double.le Config.default.temp_min_valid (Double.ofRat 23) = true ∧
      Double.le (Double.ofRat 23) Config.default.temp_max_valid = true) ∧
    ((DataFilter.mk Config.default (List.replicate 5 (Double.ofRat 20)) 5 5 0).evaluate binary64
        (Double.ofRat (45 / 2))).1 = ⟨true, ""⟩ ∧
    ((DataFilter.mk Config.default (List.replicate 5 (Double.ofRat 20)) 5 5 0).evaluate binary64
        (Double.ofRat 23)).1 = ⟨false, "spike_detected"⟩ :=
  ⟨⟨by decide!, by decide!, by decide!, by decide!⟩,
    (evaluate_spike_iff (DataFilter.mk Config.default (List.replicate 5 (Double.ofRat 20)) 5 5 0)
      (Double.ofRat (45 / 2)) (by decide!) (by decide!)).2.1 (by decide!),
    (evaluate_spike_iff (DataFilter.mk Config.default (List.replicate 5 (Double.ofRat 20)) 5 5 0)
      (Double.ofRat 23) (by decide!) (by decide!)).1.2 (by decide!)⟩

/-- C1 fails as stated, with the mean and the standard deviation of the specification:
a fresh filter with the default configuration that has been fed 0.1, 0.2 and 0.3 accepts
2.7, although the window holds three values and the distance from 2.7 to their arithmetic
mean exceeds `noise_threshold * max(sigma, 1.0) * 5.0 = 2.5`; the deviation computed in
`double` is exactly 2.5. -/
theorem spike_verdict_differs_from_exact_statistics :
    ((DataFilter.new Config.default).run binary64
        [Double.ofRat (1 / 10), Double.ofRat (2 / 10), Double.ofRat (3 / 10)]).recent_readings_ =
      [Double.ofRat (1 / 10), Double.ofRat (2 / 10), Double.ofRat (3 / 10)] ∧
    (Double.le Config.default.temp_min_valid (Double.ofRat (27 / 10)) = true ∧
      Double.le (Double.ofRat (27 / 10)) Config.default.temp_max_valid = true) ∧
    (((DataFilter.new Config.default).run binary64
        [Double.ofRat (1 / 10), Double.ofRat (2 / 10), Double.ofRat (3 / 10)]).evaluate binary64
        (Double.ofRat (27 / 10))).1 = ⟨true, ""⟩ ∧
    binary64.deviation (Double.ofRat (27 / 10))
        [Double.ofRat (1 / 10), Double.ofRat (2 / 10), Double.ofRat (3 / 10)] =
      Double.ofRat (5 / 2) ∧
    (2 ≤ [Double.ofRat (1 / 10), Double.ofRat (2 / 10), Double.ofRat (3 / 10)].length ∧
      |((Double.ofRat (27 / 10)).toRat : ℝ) -
          mean ([Double.ofRat (1 / 10), Double.ofRat (2 / 10), Double.ofRat (3 / 10)].map
            (fun x => (x.toRat : ℝ)))| >
        (Config.default.noise_threshold.toRat : ℝ) *
          max (Real.sqrt (populationVariance
            ([Double.ofRat (1 / 10), Double.ofRat (2 / 10), Double.ofRat (3 / 10)].map
              (fun x => (x.toRat : ℝ))))) 1 * 5) := by
  have t1 : (Double.ofRat (1 / 10)).toRat = 3602879701896397 / 36028797018963968 := by decide!
  have t2 : (Double.ofRat (2 / 10)).toRat = 3602879701896397 / 18014398509481984 := by decide!
  have t3 : (Double.ofRat (3 / 10)).toRat = 5404319552844595 / 18014398509481984 := by decide!
  have tc : (Double.ofRat (27 / 10)).toRat = 3039929748475085 / 1125899906842624 := by decide!
  have tn : Config.default.noise_threshold.toRat = 1 / 2 := by decide!
  refine ⟨by decide!, ⟨by decide!, by decide!⟩, by decide!, by decide!, by decide, ?_⟩
  simp only [List.map_cons, List.map_nil, t1, t2, t3, tc, tn]
  have hm : mean ([((3602879701896397 / 36028797018963968 : ℚ) : ℝ),
      ((3602879701896397 / 18014398509481984 : ℚ) : ℝ),
      ((5404319552844595 / 18014398509481984 : ℚ) : ℝ)]) =
      21617278211378381 / 108086391056891904 := by
    norm_num [mean]
  have hv : populationVariance ([((3602879701896397 / 36028797018963968 : ℚ) : ℝ),
      ((3602879701896397 / 18014398509481984 : ℚ) : ℝ),
      ((5404319552844595 / 18014398509481984 : ℚ) : ℝ)]) ≤ 1 := by
    unfold populationVariance
    rw [hm]
    norm_num
  have hs : max (Real.sqrt (populationVariance ([((3602879701896397 / 36028797018963968 : ℚ) : ℝ),
      ((3602879701896397 / 18014398509481984 : ℚ) : ℝ),
      ((5404319552844595 / 18014398509481984 : ℚ) : ℝ)]))) 1 = 1 :=
    max_eq_right (Real.sqrt_le_one.2 hv)
  rw [hs, hm]
  norm_num [lt_abs]

/-- C2 at the default configuration: 100 exceeds `temp_max_valid = 85`. -/
theorem evaluate_out_of_range_witness :
    (Double.lt (Double.ofRat 100) Config.default.temp_min_valid = true ∨
      Double.lt Config.default.temp_max_valid (Double.ofRat 100) = true) ∧
      ((DataFilter.mk Config.default [Double.ofRat 20, Double.ofRat 21] 2 2 0).evaluate
        binary64 (Double.ofRat 100)).1 = ⟨false, "out_of_range"⟩ ∧
      ((DataFilter.mk Config.default [Double.ofRat 20, Double.ofRat 21] 2 2 0).evaluate
        binary64 (Double.ofRat 100)).2.recent_readings_ = [Double.ofRat 20, Double.ofRat 21] :=
  have h := evaluate_out_of_range binary64 Double.lt_not_le
    (DataFilter.mk Config.default [Double.ofRat 20, Double.ofRat 21] 2 2 0) (Double.ofRat 100)
    (Or.inr (by decide!))
  ⟨Or.inr (by decide!), h.1, h.2.1⟩

/-- C3 on three calls (one accepted, one out of range, one more) with the defaults. -/
theorem counters_invariant_witness :
    ([Double.ofRat 20, Double.ofRat 100].length + 1 < 2 ^ 64) ∧
      (((DataFilter.new Config.default).run binary64
          [Double.ofRat 20, Double.ofRat 100]).evaluate binary64
          (Double.ofRat 21)).2.total_count =
        (((DataFilter.new Config.default).run binary64
          [Double.ofRat 20, Double.ofRat 100]).evaluate binary64
          (Double.ofRat 21)).2.accepted_count +
        (((DataFilter.new Config.default).run binary64
          [Double.ofRat 20, Double.ofRat 100]).evaluate binary64
          (Double.ofRat 21)).2.rejected_count :=
  ⟨by decide, (counters_invariant binary64 Config.default [Double.ofRat 20, Double.ofRat 100]
    (Double.ofRat 21) (by decide)).1⟩

/-- C4 on a full window of five readings 20.0 with the defaults: 50 is a spike. -/
theorem evaluate_spike_inserts_witness :
    ((DataFilter.mk Config.default (List.replicate 5 (Double.ofRat 20)) 5 5 0).evaluate
        binary64 (Double.ofRat 50)).1 = ⟨false, "spike_detected"⟩ ∧
      ((DataFilter.mk Config.default (List.replicate 5 (Double.ofRat 20)) 5 5 0).evaluate
        binary64 (Double.ofRat 50)).2.recent_readings_ =
        [Double.ofRat 20, Double.ofRat 20, Double.ofRat 20, Double.ofRat 20, Double.ofRat 50] :=
  have hsp : ((DataFilter.mk Config.default (List.replicate 5 (Double.ofRat 20)) 5 5 0).evaluate
      binary64 (Double.ofRat 50)).1 = ⟨false, "spike_detected"⟩ := by decide!
  ⟨hsp, (evaluate_spike_inserts binary64
    (DataFilter.mk Config.default (List.replicate 5 (Double.ofRat 20)) 5 5 0) (Double.ofRat 50)
    (by decide) (by decide!) (by decide!) hsp).1.trans (by decide!)⟩

end Binary64Claims

/-! ## Theorems: searching -/

theorem find_cons (c : Char) (t pat : List Char) :
    find (c :: t) pat = if pat <+: c :: t then some 0 else (find t pat).map (· + 1) := by
  rw [find]
  by_cases h : pat <+: c :: t
  · rw [if_pos h, if_pos ( List.isPrefixOf_iff_prefix.2 h)]
  · rw [if_neg h, if_neg (fun h' => h ( List.isPrefixOf_iff_prefix.1 h'))]

theorem find_nil (pat : List Char) : find [] pat = if pat = [] then some 0 else none := by
  rw [find]
  cases pat <;> simp

/-- The model of `std::string::find` returns the first occurrence. -/
theorem find_eq_some_iff (s pat : List Char) (p : Nat) :
    find s pat = some p ↔
      pat <+: s.drop p ∧ p ≤ s.length ∧ ∀ i, i < p → ¬ pat <+: s.drop i := by
  induction s generalizing p with
  | nil =>
    rw [find_nil]
    by_cases h : pat = []
    · subst h
      simp only [if_true, Option.some.injEq, List.drop_nil, List.prefix_nil, List.length_nil,
        Nat.le_zero, true_and, not_true_eq_false, imp_false, not_lt]
      constructor
      · rintro rfl; exact ⟨rfl, fun i => Nat.zero_le i⟩
      · rintro ⟨h, _⟩; exact h.symm
    · simp [h]
  | cons c t ih =>
    rw [find_cons]
    by_cases h : pat <+: c :: t
    · rw [if_pos h]
      constructor
      · intro hp
        have : p = 0 := (Option.some.inj hp).symm
        subst this
        exact ⟨h, Nat.zero_le _, fun i hi => absurd hi (Nat.not_lt_zero i)⟩
      · rintro ⟨_, _, hmin⟩
        cases p with
        | zero => rfl
        | succ q => exact absurd h (hmin 0 (Nat.succ_pos q))
    · rw [if_neg h]
      cases p with
      | zero =>
        constructor
        · intro hp
          cases hf : find t pat <;> simp [hf] at hp
        · rintro ⟨h0, _, _⟩
          exact absurd h0 h
      | succ q =>
        have e : (find t pat).map (· + 1) = some (q + 1) ↔ find t pat = some q := by
          cases find t pat <;> simp
        rw [e, ih q]
        simp only [List.drop_succ_cons, List.length_cons, Nat.add_le_add_iff_right]
        constructor
        · rintro ⟨h1, h2, h3⟩
          refine ⟨h1, h2, fun i hi => ?_⟩
          cases i with
          | zero => exact h
          | succ j => exact h3 j (Nat.lt_of_succ_lt_succ hi)
        · rintro ⟨h1, h2, h3⟩
          exact ⟨h1, h2, fun i hi => h3 (i + 1) (Nat.succ_lt_succ hi)⟩

theorem find_eq_none_iff (s pat : List Char) : find s pat = none ↔ ¬ pat <:+: s := by
  induction s with
  | nil =>
    rw [find_nil]
    by_cases h : pat = []
    · simp [h]
    · simp [h]
  | cons c t ih =>
    rw [find_cons, List.infix_cons_iff]
    by_cases h : pat <+: c :: t
    · simp [h]
    · simp [h, ih]

theorem Skip.nil (pat S : List Char) : Skip pat [] S := by
  simp [Skip]

theorem Skip.cons {pat A S : List Char} {c : Char} (h : ¬ pat <+: c :: (A ++ S))
    (hA : Skip pat A S) : Skip pat (c :: A) S := by
  unfold Skip at hA ⊢
  rw [List.cons_append, find_cons, if_neg h, hA]
  cases find S pat <;> simp [Nat.add_assoc]

theorem Skip.append {pat A B S : List Char} (hA : Skip pat A (B ++ S)) (hB : Skip pat B S) :
    Skip pat (A ++ B) S := by
  unfold Skip at hA hB ⊢
  rw [List.append_assoc, hA, hB]
  cases find S pat
  · rfl
  · simp only [Option.map_some', List.length_append, Option.some.injEq]
    omega

theorem Skip.free {q : Char} {p A : List Char} (S : List Char) (h : ∀ c ∈ A, c ≠ q) :
    Skip (q :: p) A S := by
  induction A with
  | nil => exact Skip.nil _ _
  | cons a A ih =>
    refine Skip.cons ?_ (ih (fun c hc => h c (List.mem_cons_of_mem _ hc)))
    intro hp
    rw [List.cons_prefix_cons] at hp
    exact h a (List.mem_cons_self _ _) hp.1.symm

theorem find_at_start {s pat : List Char} (h : pat <+: s) : find s pat = some 0 := by
  cases s with
  | nil =>
    have : pat = [] := List.prefix_nil.1 h
    simp [find_nil, this]
  | cons c t => rw [find_cons, if_pos h]

/-- A quoted key cannot match at a quote that is followed by a different quote-free word. -/
theorem quoted_prefix_iff {K w T R : List Char} (hK : '"' ∉ K) (hw : '"' ∉ w) :
    K ++ '"' :: T <+: w ++ '"' :: R ↔ K = w ∧ T <+: R := by
  induction K generalizing w with
  | nil =>
    cases w with
    | nil => simp [List.cons_prefix_cons]
    | cons b w =>
      have hb : b ≠ '"' := fun h => hw (h ▸ List.mem_cons_self _ _)
      simp [List.cons_prefix_cons, hb, Ne.symm hb]
  | cons a K ih =>
    have ha : a ≠ '"' := fun h => hK (h ▸ List.mem_cons_self _ _)
    cases w with
    | nil => simp [List.cons_prefix_cons, ha]
    | cons b w =>
      have hK' : '"' ∉ K := fun h => hK (List.mem_cons_of_mem _ h)
      have hw' : '"' ∉ w := fun h => hw (List.mem_cons_of_mem _ h)
      simp only [List.cons_append, List.cons_prefix_cons, ih hK' hw', List.cons.injEq]
      tauto

theorem drop_length_add (A Y : List Char) (n : Nat) : (A ++ Y).drop (n + A.length) = Y.drop n := by
  rw [Nat.add_comm, ← List.drop_drop, List.drop_left]

theorem extract_string_skip {A Y key : List Char}
    (h : Skip ("\"".toList ++ key ++ "\":\"".toList) A Y) :
    extract_string (A ++ Y) key = extract_string Y key := by
  unfold Skip at h
  unfold extract_string
  simp only [h]
  cases find Y ("\"".toList ++ key ++ "\":\"".toList) with
  | none => rfl
  | some p =>
    simp only [Option.map_some', find_char, substr]
    have e : p + A.length + ("\"".toList ++ key ++ "\":\"".toList).length =
        (p + ("\"".toList ++ key ++ "\":\"".toList).length) + A.length := by omega
    rw [e, drop_length_add]
    cases indexOfChar '"' (Y.drop (p + ("\"".toList ++ key ++ "\":\"".toList).length)) with
    | none => rfl
    | some i => simp

theorem extract_number_skip {A Y key : List Char}
    (h : Skip ("\"".toList ++ key ++ "\":".toList) A Y) :
    extract_number (A ++ Y) key = extract_number Y key := by
  unfold Skip at h
  unfold extract_number
  simp only [h]
  cases find Y ("\"".toList ++ key ++ "\":".toList) with
  | none => rfl
  | some p =>
    simp only [Option.map_some']
    have e : p + A.length + ("\"".toList ++ key ++ "\":".toList).length =
        (p + ("\"".toList ++ key ++ "\":".toList).length) + A.length := by omega
    rw [e, drop_length_add]

theorem extract_uint_skip {A Y key : List Char}
    (h : Skip ("\"".toList ++ key ++ "\":".toList) A Y) :
    extract_uint (A ++ Y) key = extract_uint Y key := by
  unfold Skip at h
  unfold extract_uint
  simp only [h]
  cases find Y ("\"".toList ++ key ++ "\":".toList) with
  | none => rfl
  | some p =>
    simp only [Option.map_some']
    have e : p + A.length + ("\"".toList ++ key ++ "\":".toList).length =
        (p + ("\"".toList ++ key ++ "\":".toList).length) + A.length := by omega
    rw [e, drop_length_add]

/-! ## Theorems: numbers -/

theorem isdigit_cases {c : Char} (h : isdigit c = true) :
    c ∈ ['0', '1', '2', '3', '4', '5', '6', '7', '8', '9'] := by
  simp only [isdigit, Bool.and_eq_true, decide_eq_true_eq, Char.le_def] at h
  obtain ⟨h1, h2⟩ := h
  have e : c = Char.ofNat c.toNat := (Char.ofNat_toNat c).symm
  have h1' : 48 ≤ c.toNat := h1
  have h2' : c.toNat ≤ 57 := h2
  rw [e]
  generalize c.toNat = n at h1' h2'
  interval_cases n <;> decide

theorem isdigit_forall (P : Char → Prop) [DecidablePred P]
    (hP : ∀ c ∈ ['0', '1', '2', '3', '4', '5', '6', '7', '8', '9'], P c) {c : Char}
    (h : isdigit c = true) : P c :=
  hP c (isdigit_cases h)

theorem foldl_digits (b : Nat) (ds : List Char) (a : Nat) :
    ds.foldl (fun acc c => b * acc + xdigitValue c) a = a * b ^ ds.length + digitsValue b ds := by
  induction ds generalizing a with
  | nil => simp [digitsValue]
  | cons d ds ih =>
    simp only [List.foldl_cons, List.length_cons, digitsValue]
    rw [ih, ih (b * 0 + xdigitValue d)]
    ring

theorem digitsValue_append (b : Nat) (xs ys : List Char) :
    digitsValue b (xs ++ ys) = digitsValue b xs * b ^ ys.length + digitsValue b ys := by
  unfold digitsValue
  rw [List.foldl_append, foldl_digits]
  rfl

theorem digitsValue_replicate_zero (k : Nat) : digitsValue 10 (List.replicate k '0') = 0 := by
  induction k with
  | zero => rfl
  | succ k ih =>
    rw [List.replicate_succ, ← List.singleton_append, digitsValue_append, ih]
    have : digitsValue 10 ['0'] = 0 := by decide
    rw [this]; simp

theorem digit_ofNat {d : Nat} (h : d < 10) :
    isdigit (Char.ofNat ('0'.toNat + d)) = true ∧ xdigitValue (Char.ofNat ('0'.toNat + d)) = d := by
  interval_cases d <;> decide

theorem putDigits_acc (fuel n : Nat) (acc : List Char) :
    putDigits fuel n acc = putDigits fuel n [] ++ acc := by
  induction fuel generalizing n acc with
  | zero => simp [putDigits]
  | succ fuel ih =>
    rw [putDigits, putDigits]
    by_cases h : n < 10
    · simp [h]
    · rw [if_neg h, if_neg h, ih, ih (n / 10) [_]]
      simp

theorem putDigits_spec (fuel n : Nat) (h : n < fuel) :
    digitsValue 10 (putDigits fuel n []) = n ∧ IsDigits (putDigits fuel n []) := by
  induction fuel generalizing n with
  | zero => omega
  | succ fuel ih =>
    rw [putDigits]
    by_cases h10 : n < 10
    · rw [if_pos h10]
      obtain ⟨hd, hv⟩ := digit_ofNat h10
      refine ⟨?_, by simp, ?_⟩
      · simp only [digitsValue, List.foldl_cons, List.foldl_nil, hv]
        omega
      · intro c hc
        rw [List.mem_singleton] at hc
        rw [hc]; exact hd
    · rw [if_neg h10, putDigits_acc]
      obtain ⟨hv, hne, hall⟩ := ih (n / 10) (by omega)
      obtain ⟨hd, hx⟩ := digit_ofNat (Nat.mod_lt n (by decide : 10 > 0))
      refine ⟨?_, by simp [hne], ?_⟩
      · rw [digitsValue_append, hv]
        simp only [digitsValue, List.foldl_cons, List.foldl_nil, List.length_singleton, hx]
        omega
      · intro c hc
        rw [List.mem_append, List.mem_singleton] at hc
        rcases hc with hc | hc
        · exact hall c hc
        · rw [hc]; exact hd

theorem putDigits_length (fuel n k : Nat) (hk : 1 ≤ k) (h : n < 10 ^ k) :
    (putDigits fuel n []).length ≤ k := by
  induction fuel generalizing n k with
  | zero => simp [putDigits]
  | succ fuel ih =>
    rw [putDigits]
    by_cases h10 : n < 10
    · rw [if_pos h10]; simpa using hk
    · rw [if_neg h10, putDigits_acc]
      have hk2 : 2 ≤ k := by
        by_contra hlt
        have : k = 1 := by omega
        rw [this] at h
        omega
      have : n / 10 < 10 ^ (k - 1) := by
        rw [Nat.div_lt_iff_lt_mul (by decide)]
        calc n < 10 ^ k := h
          _ = 10 ^ (k - 1 + 1) := by rw [Nat.sub_add_cancel hk]
          _ = 10 ^ (k - 1) * 10 := by rw [pow_succ]
      have := ih (n / 10) (k - 1) (by omega) this
      simp only [List.length_append, List.length_singleton]
      omega

theorem put_uint_spec (n : Nat) : digitsValue 10 (put_uint n) = n ∧ IsDigits (put_uint n) :=
  putDigits_spec (n + 1) n (Nat.lt_succ_self n)

theorem digit_facts {d : Char} (h : isdigit d = true) :
    isspace d = false ∧ d.toLower = d ∧ d ≠ '-' ∧ d ≠ '+' ∧ d ≠ '.' ∧ d ≠ '"' ∧ d ≠ 'i' ∧
      d ≠ 'n' ∧ d ≠ 'x' ∧ d ≠ 'e' :=
  isdigit_forall (fun d => isspace d = false ∧ d.toLower = d ∧ d ≠ '-' ∧ d ≠ '+' ∧ d ≠ '.' ∧
    d ≠ '"' ∧ d ≠ 'i' ∧ d ≠ 'n' ∧ d ≠ 'x' ∧ d ≠ 'e') (by decide) h

theorem takeSign_digit {d : Char} (t : List Char) (h : isdigit d = true) :
    takeSign (d :: t) = (false, d :: t) := by
  have := isdigit_cases h
  simp only [List.mem_cons, List.mem_singleton, List.not_mem_nil, or_false] at this
  rcases this with rfl | rfl | rfl | rfl | rfl | rfl | rfl | rfl | rfl | rfl <;> rfl

theorem takeWhile_digits {ds rest : List Char} (hds : ∀ c ∈ ds, isdigit c = true)
    (hrest : NoDigitAhead rest) :
    (ds ++ rest).takeWhile isdigit = ds ∧ (ds ++ rest).dropWhile isdigit = rest := by
  have h1 : rest.takeWhile isdigit = [] ∧ rest.dropWhile isdigit = rest := by
    cases rest with
    | nil => simp
    | cons c r =>
      have hc : isdigit c = false := hrest c rfl
      simp [List.takeWhile_cons, List.dropWhile_cons, hc]
  rw [List.takeWhile_append_of_pos hds, List.dropWhile_append_of_pos hds, h1.1, h1.2]
  simp

theorem stoull_digits {ds rest : List Char} (hds : IsDigits ds) (hrest : NoDigitAhead rest) :
    stoull (ds ++ rest) =
      if digitsValue 10 ds ≥ 2 ^ 64 then none else some (digitsValue 10 ds, ds.length) := by
  obtain ⟨hne, hall⟩ := hds
  obtain ⟨htw, hdw⟩ := takeWhile_digits hall hrest
  cases hd : ds with
  | nil => exact absurd hd hne
  | cons d ds' =>
    have hdig : isdigit d = true := hall d (by rw [hd]; exact List.mem_cons_self _ _)
    have hsp : ((d :: ds') ++ rest).dropWhile isspace = (d :: ds') ++ rest := by
      rw [List.cons_append, List.dropWhile_cons, (digit_facts hdig).1]
      rfl
    rw [hd] at htw hdw
    unfold stoull
    rw [hsp, List.cons_append, takeSign_digit _ hdig]
    simp only
    rw [← List.cons_append, htw, hdw]
    simp only [List.isEmpty_cons, Bool.false_eq_true, if_false, List.length_append]
    split_ifs <;> simp

theorem stoull_minus_digits {ds rest : List Char} (hds : IsDigits ds)
    (hrest : NoDigitAhead rest) :
    stoull ('-' :: (ds ++ rest)) =
      if digitsValue 10 ds ≥ 2 ^ 64 then none
      else some ((2 ^ 64 - digitsValue 10 ds) % 2 ^ 64, ds.length + 1) := by
  obtain ⟨hne, hall⟩ := hds
  obtain ⟨htw, hdw⟩ := takeWhile_digits hall hrest
  have hsp : ('-' :: (ds ++ rest)).dropWhile isspace = '-' :: (ds ++ rest) := by
    rw [List.dropWhile_cons]
    rfl
  have hts : takeSign ('-' :: (ds ++ rest)) = (true, ds ++ rest) := rfl
  unfold stoull
  rw [hsp, hts]
  simp only
  rw [htw, hdw]
  have : ds.isEmpty = false := by
    cases ds with
    | nil => exact absurd rfl hne
    | cons _ _ => rfl
  simp only [this, Bool.false_eq_true, if_false, List.length_cons, List.length_append, if_true]
  split_ifs
  · rfl
  · simp only [Option.some.injEq, Prod.mk.injEq, true_and]
    omega

theorem startsWith_false {p : Char → Bool} {s : List Char} (h : startsWith p s = false) :
    s.takeWhile p = [] ∧ s.dropWhile p = s := by
  cases s with
  | nil => simp
  | cons c r =>
    have hc : p c = false := h
    simp [List.takeWhile_cons, List.dropWhile_cons, hc]

theorem noDigitAhead_of {s : List Char} (h : startsWith isdigit s = false) : NoDigitAhead s := by
  intro c hc
  cases s with
  | nil => simp at hc
  | cons a r =>
    simp only [List.head?_cons, Option.some.injEq] at hc
    rw [← hc]; exact h

theorem takeExponent_none {s : List Char} (h : exponentAhead s = false) :
    takeExponent 'e' s = (0, s) := by
  cases s with
  | nil => rfl
  | cons c r =>
    unfold takeExponent
    by_cases hc : (c.toLower == 'e') = true
    · have h2 : startsWith isdigit (takeSign r).2 = false := by
        simpa [exponentAhead, hc] using h
      rcases hts : takeSign r with ⟨negative, r2⟩
      rw [hts] at h2
      simp only [hc, if_true, hts, (startsWith_false h2).1, List.isEmpty_nil]
    · simp [hc]

/-- The decimal branch of `strtodBody`, taken when the text starts with a digit and the
attempt at a hexadecimal literal, if any, finds no hexadecimal digit. -/
theorem strtodBody_digit {d : Char} {t : List Char} (hd : isdigit d = true)
    (hx : startsWithNoCase "0x".toList (d :: t) = true →
      (takeMantissa isxdigit (t.drop 1)).1.isEmpty = true ∧
      (takeMantissa isxdigit (t.drop 1)).2.1.isEmpty = true) :
    strtodBody (d :: t) =
      (let (ip, fp, r) := takeMantissa isdigit (d :: t)
       if ip.isEmpty && fp.isEmpty then none
       else
         let (e, r2) := takeExponent 'e' r
         some (.finite (((digitsValue 10 ip : ℚ) + (digitsValue 10 fp : ℚ) /
           ((10 ^ fp.length : ℕ) : ℚ)) * ipow 10 e), r2)) := by
  obtain ⟨_, hlow, _, _, _, _, hi, hn, _, _⟩ := digit_facts hd
  have h1 : startsWithNoCase "infinity".toList (d :: t) = false := by
    simp [startsWithNoCase, List.isPrefixOf, hlow, Ne.symm hi]
  have h2 : startsWithNoCase "inf".toList (d :: t) = false := by
    simp [startsWithNoCase, List.isPrefixOf, hlow, Ne.symm hi]
  have h3 : startsWithNoCase "nan".toList (d :: t) = false := by
    simp [startsWithNoCase, List.isPrefixOf, hlow, Ne.symm hn]
  unfold strtodBody
  simp only [h1, h2, h3, Bool.false_eq_true, if_false]
  by_cases h4 : startsWithNoCase "0x".toList (d :: t) = true
  · obtain ⟨ha, hb⟩ := hx h4
    rcases hm : takeMantissa isxdigit (t.drop 1) with ⟨ip, fp, r⟩
    rw [hm] at ha hb
    simp only at ha hb
    have e : (d :: t).drop 2 = t.drop 1 := rfl
    simp only [h4, if_true, e, hm, ha, hb, Bool.and_self]
  · simp only [h4, Bool.false_eq_true, if_false]

theorem hex_attempt_fails {l : DecLit} {rest ip : List Char} {d : Char}
    (hd : isdigit d = true) (hint : l.int = d :: ip) (hip : ∀ c ∈ ip, isdigit c = true)
    (h4 : (l.int == ['0'] && l.frac.isEmpty && hexAhead rest) = false)
    (hx : startsWithNoCase "0x".toList
      (d :: (ip ++ (if l.frac.isEmpty then [] else '.' :: l.frac) ++ rest)) = true) :
    (takeMantissa isxdigit
        ((ip ++ (if l.frac.isEmpty then [] else '.' :: l.frac) ++ rest).drop 1)).1.isEmpty = true ∧
      (takeMantissa isxdigit
        ((ip ++ (if l.frac.isEmpty then [] else '.' :: l.frac) ++ rest).drop 1)).2.1.isEmpty
          = true := by
  have hlow := (digit_facts hd).2.1
  cases ip with
  | cons a r =>
    have ha := digit_facts (hip a (List.mem_cons_self _ _))
    have : ('x' == a.toLower) = false := by
      rw [ha.2.1]
      exact beq_false_of_ne (Ne.symm ha.2.2.2.2.2.2.2.2.1)
    simp [startsWithNoCase, List.isPrefixOf, this] at hx
  | nil =>
    cases hf : l.frac with
    | cons f r =>
      rw [hf] at hx
      simp [startsWithNoCase, List.isPrefixOf] at hx
    | nil =>
      rw [hf] at hx
      simp only [hf, List.isEmpty_nil, if_true, List.append_nil, List.nil_append] at hx ⊢
      cases rest with
      | nil => simp [startsWithNoCase, List.isPrefixOf] at hx
      | cons c r =>
        simp only [startsWithNoCase, List.map_cons, String.toList, List.isPrefixOf,
          Bool.and_eq_true, beq_iff_eq, hlow] at hx
        have hd0 : d = '0' := hx.1.symm
        have hcx : (c.toLower == 'x') = true := by
          rw [beq_iff_eq]; exact hx.2.1.symm
        have hint' : (l.int == ['0'] && l.frac.isEmpty) = true := by
          rw [hint, hd0, hf]; rfl
        have hh : hexAhead (c :: r) = false := by
          rw [hint', Bool.true_and] at h4; exact h4
        simp only [hexAhead, hcx, Bool.true_and, Bool.or_eq_false_iff] at hh
        obtain ⟨hh1, hh2⟩ := hh
        obtain ⟨e1, e2⟩ := startsWith_false hh1
        simp only [List.drop_succ_cons, List.drop_zero, takeMantissa, e1, e2]
        cases r with
        | nil => exact ⟨rfl, rfl⟩
        | cons d2 r2 =>
          simp only at hh2 ⊢
          by_cases hdot : (d2 == '.') = true
          · simp only [hdot, Bool.true_and] at hh2
            simp [hdot, (startsWith_false hh2).1]
          · simp [hdot]

theorem ipow_zero (b : Nat) : ipow b 0 = 1 := by
  simp [ipow]

theorem erange_neg (v : ℚ) : erange (-v) = erange v := by
  unfold erange
  rw [abs_neg, isBinary64_neg]
  simp

/-- The magnitude that `strtod` reads from a decimal literal followed by text that does not
extend it. -/
theorem strtodBody_declit (l : DecLit) (rest : List Char) (hwf : l.WellFormed)
    (hext : extendsLiteral l rest = false) :
    ∃ rest', rest'.length ≤ rest.length ∧
      strtodBody (l.int ++ (if l.frac.isEmpty then [] else '.' :: l.frac) ++ rest) =
        some (.finite ((digitsValue 10 l.int : ℚ) +
          (digitsValue 10 l.frac : ℚ) / 10 ^ l.frac.length), rest') := by
  obtain ⟨hne, hip, hfp⟩ := hwf
  simp only [extendsLiteral, Bool.or_eq_false_iff] at hext
  obtain ⟨⟨⟨h1, h2⟩, h3⟩, h4⟩ := hext
  obtain ⟨neg, ip, fp⟩ := l
  simp only at hne hip hfp h2 h4
  cases hipc : ip with
  | nil => exact absurd hipc hne
  | cons d ip' =>
    have hd : isdigit d = true := hip d (by rw [hipc]; exact List.mem_cons_self _ _)
    have hip' : ∀ c ∈ ip', isdigit c = true :=
      fun c hc => hip c (by rw [hipc]; exact List.mem_cons_of_mem _ hc)
    rw [hipc] at h4 hip
    have hdec := strtodBody_digit (d := d)
      (t := ip' ++ (if fp.isEmpty then [] else '.' :: fp) ++ rest) hd
      (fun hx => hex_attempt_fails (l := ⟨neg, d :: ip', fp⟩) hd rfl hip' h4 hx)
    simp only
    rw [List.cons_append, List.cons_append, hdec]
    cases fp with
    | cons f fr =>
      have hnd' : NoDigitAhead ('.' :: ((f :: fr) ++ rest)) := by
        intro c hc
        simp only [List.head?_cons, Option.some.injEq] at hc
        rw [← hc]; decide
      obtain ⟨e1, e2⟩ := takeWhile_digits hip hnd'
      obtain ⟨e3, e4⟩ := takeWhile_digits hfp (noDigitAhead_of h1)
      refine ⟨rest, le_refl _, ?_⟩
      simp only [List.isEmpty_cons, Bool.false_eq_true, if_false, List.append_assoc,
        List.cons_append] at e1 e2 e3 e4 ⊢
      simp only [takeMantissa, e1, e2]
      simp [e3, e4, takeExponent_none h3, ipow_zero]
    | nil =>
      obtain ⟨e1, e2⟩ := takeWhile_digits hip (noDigitAhead_of h1)
      simp only [List.isEmpty_nil, if_true, List.append_nil, List.cons_append] at e1 e2 ⊢
      simp only [takeMantissa, e1, e2]
      cases rest with
      | nil => exact ⟨[], le_refl _, by simp [takeExponent, ipow_zero]⟩
      | cons c r =>
        by_cases hdot : (c == '.') = true
        · simp only [List.isEmpty_nil, hdot, Bool.true_and, Bool.or_eq_false_iff] at h2
          obtain ⟨f1, f2⟩ := startsWith_false h2.1
          refine ⟨r, by simp, ?_⟩
          simp [hdot, f1, f2, takeExponent_none h2.2, ipow_zero]
        · refine ⟨c :: r, le_refl _, ?_⟩
          simp [hdot, takeExponent_none h3, ipow_zero]

/-- What `std::stod` makes of a decimal literal followed by text that does not extend it:
nothing when the value is outside the range of `double`, otherwise the `double` nearest to
the value of the literal, with at least one character processed. -/
theorem stod_declit (l : DecLit) (rest : List Char) (hwf : l.WellFormed)
    (hext : extendsLiteral l rest = false) :
    ∃ k, k ≠ 0 ∧ stod (l.text ++ rest) = if erange l.value then none else some (l.double, k) := by
  obtain ⟨rest', hlen, hbody⟩ := strtodBody_declit l rest hwf hext
  obtain ⟨hne, hip, hfp⟩ := hwf
  obtain ⟨neg, ip, fp⟩ := l
  simp only at hne hip hfp hbody
  cases hipc : ip with
  | nil => exact absurd hipc hne
  | cons d ip' =>
    have hd : isdigit d = true := hip d (by rw [hipc]; exact List.mem_cons_self _ _)
    rw [hipc] at hbody
    unfold stod
    cases neg with
    | false =>
      have hsp : (DecLit.text ⟨false, d :: ip', fp⟩ ++ rest).dropWhile isspace =
          (d :: ip') ++ (if fp.isEmpty then [] else '.' :: fp) ++ rest := by
        simp [DecLit.text, List.dropWhile_cons, (digit_facts hd).1]
      rw [hsp, List.cons_append, List.cons_append, takeSign_digit _ hd]
      simp only [List.cons_append] at hbody
      simp only [hbody]
      refine ⟨(DecLit.text ⟨false, d :: ip', fp⟩ ++ rest).length - rest'.length, ?_, ?_⟩
      · simp only [DecLit.text, List.length_append, List.length_cons]
        simp
        omega
      · simp [DecLit.value, DecLit.double]
    | true =>
      have hsp : (DecLit.text ⟨true, d :: ip', fp⟩ ++ rest).dropWhile isspace =
          '-' :: ((d :: ip') ++ (if fp.isEmpty then [] else '.' :: fp) ++ rest) := by
        simp [DecLit.text, List.dropWhile_cons, isspace]
      rw [hsp]
      have hts : takeSign ('-' :: ((d :: ip') ++ (if fp.isEmpty then [] else '.' :: fp) ++ rest))
          = (true, (d :: ip') ++ (if fp.isEmpty then [] else '.' :: fp) ++ rest) := rfl
      rw [hts]
      simp only [hbody]
      refine ⟨(DecLit.text ⟨true, d :: ip', fp⟩ ++ rest).length - rest'.length, ?_, ?_⟩
      · simp only [DecLit.text, List.length_append, List.length_cons]
        simp
        omega
      · simp only [DecLit.value, DecLit.double, if_true]
        rw [erange_neg]

theorem Terminated.stops {rest : List Char} (h : Terminated rest) :
    (∀ l : DecLit, extendsLiteral l rest = false) ∧ NoDigitAhead rest := by
  obtain ⟨c, r, rfl, hc⟩ := h
  have h1 : startsWith isdigit (c :: r) = false := by
    rcases hc with rfl | rfl <;> rfl
  refine ⟨fun l => ?_, noDigitAhead_of h1⟩
  rcases hc with rfl | rfl <;>
    simp [extendsLiteral, startsWith, exponentAhead, hexAhead, isdigit]

theorem digits_quote_free {ds : List Char} (h : ∀ c ∈ ds, isdigit c = true) : '"' ∉ ds := by
  intro hq
  exact absurd (h _ hq) (by decide)

theorem DecLit.quote_free_text (l : DecLit) (hwf : l.WellFormed) : '"' ∉ l.text := by
  · obtain ⟨_, hip, hfp⟩ := hwf
    have h1 := digits_quote_free hip
    have h2 := digits_quote_free hfp
    unfold DecLit.text
    intro hq
    simp only [List.mem_append, List.mem_ite_nil_left, List.mem_singleton,
      List.mem_ite_nil_right, List.mem_cons] at hq
    rcases hq with (⟨_, hq⟩ | hq) | ⟨_, hq | hq⟩
    · exact absurd hq (by decide)
    · exact h1 hq
    · exact absurd hq (by decide)
    · exact h2 hq

/-- A decimal literal in the range of `double` is read as the `double` nearest to it. -/
theorem DecLit.numLit (l : DecLit) (hwf : l.WellFormed) (hrange : erange l.value = false) :
    NumLit l.text l.double := by
  refine ⟨l.quote_free_text hwf, fun rest hrest => ?_⟩
  obtain ⟨k, hk, e⟩ := stod_declit l rest hwf (hrest.stops.1 l)
  rw [hrange] at e
  exact ⟨k, hk, e⟩

theorem IsDigits.digitsUIntLit {ds : List Char} (h : IsDigits ds) (hlt : digitsValue 10 ds < 2 ^ 64) :
    UIntLit ds (digitsValue 10 ds) := by
  refine ⟨digits_quote_free h.2, fun rest hrest => ⟨ds.length, ?_, ?_⟩⟩
  · exact fun h0 => h.1 (List.length_eq_zero.1 h0)
  · rw [stoull_digits h hrest.stops.2, if_neg (by omega)]

theorem DecLit.uintLit (l : DecLit) (hwf : l.WellFormed)
    (hrange : digitsValue 10 l.int < 2 ^ 64) : UIntLit l.text l.uintValue := by
  refine ⟨l.quote_free_text hwf, fun rest hrest => ?_⟩
  obtain ⟨hne, hip, hfp⟩ := hwf
  have hnd : NoDigitAhead ((if l.frac.isEmpty then [] else '.' :: l.frac) ++ rest) := by
    intro c hc
    cases hf : l.frac with
    | nil =>
      rw [hf] at hc
      exact hrest.stops.2 c (by simpa using hc)
    | cons f r =>
      rw [hf] at hc
      simp only [List.isEmpty_cons, Bool.false_eq_true, if_false, List.cons_append,
        List.head?_cons, Option.some.injEq] at hc
      rw [← hc]; decide
  have hlen : l.int.length ≠ 0 := fun h0 => hne (List.length_eq_zero.1 h0)
  cases hneg : l.negative with
  | false =>
    refine ⟨l.int.length, hlen, ?_⟩
    have e : l.text ++ rest = l.int ++ ((if l.frac.isEmpty then [] else '.' :: l.frac) ++ rest) := by
      simp [DecLit.text, hneg]
    rw [e, stoull_digits ⟨hne, hip⟩ hnd, if_neg (by omega)]
    simp [DecLit.uintValue, hneg]
  | true =>
    refine ⟨l.int.length + 1, by omega, ?_⟩
    have e : l.text ++ rest =
        '-' :: (l.int ++ ((if l.frac.isEmpty then [] else '.' :: l.frac) ++ rest)) := by
      simp [DecLit.text, hneg]
    rw [e, stoull_minus_digits ⟨hne, hip⟩ hnd, if_neg (by omega)]
    simp [DecLit.uintValue, hneg]

theorem put_uint_uintLit (n : Nat) (h : n < 2 ^ 64) : UIntLit (put_uint n) n := by
  obtain ⟨hv, hd⟩ := put_uint_spec n
  have := hd.digitsUIntLit (by rw [hv]; exact h)
  rwa [hv] at this

/-- The value printed with `p` decimals is within half a unit of the last decimal. -/
theorem roundFixed_close (p : Nat) (q : ℚ) : |roundFixed p q - q| ≤ 1 / 2 / 10 ^ p := by
  have h10 : (0 : ℚ) < 10 ^ p := by positivity
  have hc := roundHalfEven_close (|q| * 10 ^ p) (by positivity)
  have key : abs ((roundHalfEven (|q| * 10 ^ p) : ℚ) / 10 ^ p - abs q) ≤ 1 / 2 / 10 ^ p := by
    have e : (roundHalfEven (|q| * 10 ^ p) : ℚ) / 10 ^ p - |q| =
        ((roundHalfEven (|q| * 10 ^ p) : ℚ) - |q| * 10 ^ p) / 10 ^ p := by
      field_simp
      ring
    rw [e, abs_div, abs_of_pos h10]
    exact div_le_div_of_nonneg_right hc h10.le
  unfold roundFixed
  simp only
  split_ifs with hneg
  · rw [abs_of_neg hneg] at key
    have : -((roundHalfEven (|q| * 10 ^ p) : ℚ) / 10 ^ p) - q =
        -((roundHalfEven (|q| * 10 ^ p) : ℚ) / 10 ^ p - -q) := by ring
    rw [this, abs_neg]
    simpa [abs_of_neg hneg] using key
  · rw [abs_of_nonneg (not_lt.1 hneg)] at key
    simpa [abs_of_nonneg (not_lt.1 hneg)] using key

theorem erange_false_lt {v : ℚ} (h : erange v = false) : |v| < pow2 1024 - pow2 970 := by
  unfold erange at h
  rw [Bool.or_eq_false_iff, decide_eq_false_iff_not, not_le] at h
  exact h.1

/-- The `double` that `std::stod` makes of a value in range: finite, the nearest to the
value, the value itself when it is a `double`. -/
theorem Double.round_of_erange (z : Bool) {v : ℚ} (h : erange v = false) :
    (Double.round z v).IsFinite ∧ (Double.round z v).toRat = rn v ∧
      |(Double.round z v).toRat - v| ≤ pow2 (-53) * |v| + pow2 (-1075) ∧
      (isBinary64 v = true → (Double.round z v).toRat = v) := by
  obtain ⟨h1, h2⟩ := Double.round_in_range z v (erange_false_lt h)
  refine ⟨h1, h2, ?_, fun hb => ?_⟩
  · rw [h2]; exact rn_error v
  · rw [h2, rn_of_isBinary64 hb]

theorem roundFixed_abs (p : Nat) (q : ℚ) :
    |roundFixed p q| = (roundHalfEven (|q| * 10 ^ p) : ℚ) / 10 ^ p := by
  have hnn : (0 : ℚ) ≤ (roundHalfEven (|q| * 10 ^ p) : ℚ) / 10 ^ p := by positivity
  unfold roundFixed
  simp only
  split_ifs
  · rw [abs_neg, abs_of_nonneg hnn]
  · rw [abs_of_nonneg hnn]

theorem max_double_natCast : ∃ N : ℕ, pow2 1024 - pow2 971 = (N : ℚ) := by
  refine ⟨(2 ^ 53 - 1) * 2 ^ 971, ?_⟩
  have e : (971 : ℤ) = ((971 : ℕ) : ℤ) := by norm_num
  rw [pow2_1024_max, Nat.cast_mul, e, pow2_natCast]

theorem roundFixed_le_max (p : Nat) (q : ℚ) (h : |q| ≤ pow2 1024 - pow2 971) :
    |roundFixed p q| ≤ pow2 1024 - pow2 971 := by
  have h10 : (0 : ℚ) < 10 ^ p := by positivity
  obtain ⟨N, hN⟩ := max_double_natCast
  rw [hN] at h ⊢
  rw [roundFixed_abs, div_le_iff₀ h10]
  have : roundHalfEven (|q| * 10 ^ p) ≤ N * 10 ^ p := by
    apply roundHalfEven_le _ _ (by positivity)
    push_cast
    exact mul_le_mul_of_nonneg_right h h10.le
  exact_mod_cast this

theorem roundFixed_zero_or_ge (p : Nat) (q : ℚ) :
    roundFixed p q = 0 ∨ 1 / 10 ^ p ≤ |roundFixed p q| := by
  have h10 : (0 : ℚ) < 10 ^ p := by positivity
  rcases Nat.eq_zero_or_pos (roundHalfEven (|q| * 10 ^ p)) with h0 | hpos
  · left
    unfold roundFixed
    simp [h0]
  · right
    rw [roundFixed_abs]
    apply div_le_div_of_nonneg_right _ h10.le
    exact_mod_cast hpos

/-- The decimal number written for a `double` with at most 255 decimals is in the range of
`double`: `std::stod` reads it back. -/
theorem erange_roundFixed (p : Nat) (hp : p ≤ 255) {q : ℚ} (h : isBinary64 q = true) :
    erange (roundFixed p q) = false := by
  have hmax := roundFixed_le_max p q (isBinary64_le_max h)
  have h970 : pow2 970 < pow2 971 := pow2_lt_pow2 (by norm_num)
  unfold erange
  rw [Bool.or_eq_false_iff]
  constructor
  · rw [decide_eq_false_iff_not, not_le]
    linarith only [hmax, h970]
  · rcases roundFixed_zero_or_ge p q with h0 | hge
    · simp [h0]
    · have hlow : pow2 (-1022) ≤ 1 / 10 ^ p := by
        have h1 : (10 : ℚ) ^ p ≤ 2 ^ 1020 := by
          calc (10 : ℚ) ^ p ≤ 16 ^ p := by gcongr; norm_num
            _ ≤ 16 ^ 255 := by
                apply pow_le_pow_right₀ (by norm_num) hp
            _ = 2 ^ 1020 := by
                rw [show (16 : ℚ) = 2 ^ 4 by norm_num, ← pow_mul]
        have h2 : pow2 (-((1020 : ℕ) : ℤ)) ≤ 1 / 10 ^ p := by
          rw [pow2_neg_eq]
          exact one_div_le_one_div_of_le (by positivity) h1
        exact le_trans (pow2_le_pow2 (by norm_num)) h2
      have hpos := pow2_pos (-1076)
      have : ¬ (|roundFixed p q| < pow2 (-1022) - pow2 (-1076)) := by
        rw [not_lt]
        linarith only [hge, hlow, hpos]
      simp [this]

/-- The literal that `putFixedDigits` writes. -/
theorem putFixedDigits_literal (p : Nat) (hp : 1 ≤ p) (negative : Bool) (m : ℚ) :
    ∃ l : DecLit, l.WellFormed ∧ putFixedDigits p negative m = l.text ∧
      l.value = (if negative then -((roundHalfEven (m * 10 ^ p) : ℚ) / 10 ^ p)
        else (roundHalfEven (m * 10 ^ p) : ℚ) / 10 ^ p) ∧
      l.frac.length = p ∧ l.negative = negative := by
  obtain ⟨hiv, hine, hid⟩ := put_uint_spec (roundHalfEven (m * 10 ^ p) / 10 ^ p)
  obtain ⟨hfv, hfne, hfd⟩ := put_uint_spec (roundHalfEven (m * 10 ^ p) % 10 ^ p)
  have hlen : (put_uint (roundHalfEven (m * 10 ^ p) % 10 ^ p)).length ≤ p :=
    putDigits_length _ _ p hp (Nat.mod_lt _ (by positivity))
  refine ⟨⟨negative, put_uint (roundHalfEven (m * 10 ^ p) / 10 ^ p),
    List.replicate (p - (put_uint (roundHalfEven (m * 10 ^ p) % 10 ^ p)).length) '0' ++
      put_uint (roundHalfEven (m * 10 ^ p) % 10 ^ p)⟩, ⟨hine, hid, ?_⟩, ?_, ?_, ?_, rfl⟩
  · intro c hc
    rw [List.mem_append] at hc
    rcases hc with hc | hc
    · rw [(List.mem_replicate.1 hc).2]; rfl
    · exact hfd c hc
  · have hp0 : p ≠ 0 := by omega
    simp [putFixedDigits, DecLit.text, hp0, hfne]
  · have hl : (List.replicate (p - (put_uint (roundHalfEven (m * 10 ^ p) % 10 ^ p)).length) '0'
        ++ put_uint (roundHalfEven (m * 10 ^ p) % 10 ^ p)).length = p := by
      rw [List.length_append, List.length_replicate]; omega
    simp only [DecLit.value, hl, digitsValue_append, digitsValue_replicate_zero,
      hiv, hfv, Nat.zero_mul, Nat.zero_add]
    have key : ((roundHalfEven (m * 10 ^ p) / 10 ^ p : ℕ) : ℚ) +
        ((roundHalfEven (m * 10 ^ p) % 10 ^ p : ℕ) : ℚ) / 10 ^ p =
        (roundHalfEven (m * 10 ^ p) : ℚ) / 10 ^ p := by
      have h10 : ((10 : ℚ) ^ p) ≠ 0 := by positivity
      have := Nat.div_add_mod (roundHalfEven (m * 10 ^ p)) (10 ^ p)
      have hc : ((10 ^ p * (roundHalfEven (m * 10 ^ p) / 10 ^ p) +
          roundHalfEven (m * 10 ^ p) % 10 ^ p : ℕ) : ℚ) = (roundHalfEven (m * 10 ^ p) : ℚ) := by
        rw [this]
      push_cast at hc
      field_simp
      linarith
    rw [key]
  · simp only [List.length_append, List.length_replicate]
    omega

/-- The literal that `put_fixed` writes for a finite value other than `-0.0`. -/
theorem put_fixed_finite (p : Nat) (hp : 1 ≤ p) (q : ℚ) (h : isBinary64 q = true) :
    ∃ l : DecLit, l.WellFormed ∧ put_fixed p (.finite q h) = l.text ∧
      l.value = roundFixed p q ∧ l.frac.length = p ∧ l.negative = decide (q < 0) := by
  obtain ⟨l, hwf, ht, hv, hl, hn⟩ := putFixedDigits_literal p hp (decide (q < 0)) |q|
  refine ⟨l, hwf, ht, ?_, hl, hn⟩
  rw [hv]
  unfold roundFixed
  simp

/-- The literal that `put_fixed` writes for `-0.0`: a minus sign and zeros. -/
theorem put_fixed_negZero (p : Nat) (hp : 1 ≤ p) :
    ∃ l : DecLit, l.WellFormed ∧ put_fixed p .negZero = l.text ∧
      l.value = 0 ∧ l.frac.length = p ∧ l.negative = true := by
  obtain ⟨l, hwf, ht, hv, hl, hn⟩ := putFixedDigits_literal p hp true 0
  refine ⟨l, hwf, ht, ?_, hl, hn⟩
  rw [hv]
  have h0 : roundHalfEven (0 : ℚ) = 0 := by simpa using roundHalfEven_natCast 0
  simp [h0]

theorem erange_zero : erange 0 = false := by
  unfold erange
  simp
  have h1 := pow2_pos 970
  have h2 : pow2 970 < pow2 1024 := pow2_lt_pow2 (by norm_num)
  linarith only [h1, h2]

theorem put_fixed_numLit (p : Nat) (hp : 1 ≤ p) (hp2 : p ≤ 255) (x : Double) :
    NumLit (put_fixed p x) (x.printed p) := by
  cases x with
  | finite q h =>
    obtain ⟨l, hwf, ht, hv, _, hn⟩ := put_fixed_finite p hp q h
    have := l.numLit hwf (by rw [hv]; exact erange_roundFixed p hp2 h)
    rw [ht, Double.printed, ← hv, ← hn]
    exact this
  | negZero =>
    obtain ⟨l, hwf, ht, hv, _, hn⟩ := put_fixed_negZero p hp
    have := l.numLit hwf (by rw [hv]; exact erange_zero)
    rw [ht, Double.printed]
    have e : l.double = Double.negZero := by
      unfold DecLit.double
      rw [hv, hn]
      decide!
    rw [← e]
    exact this
  | inf negative =>
    refine ⟨?_, ?_⟩
    · cases negative <;> simp [put_fixed]
    · rintro rest ⟨c, r, rfl, hc⟩
      refine ⟨if negative then 4 else 3, by cases negative <;> decide, ?_⟩
      cases negative <;> rcases hc with rfl | rfl <;>
        simp [put_fixed, stod, isspace, takeSign, strtodBody, startsWithNoCase, List.isPrefixOf,
          Double.printed]
  | nan negative =>
    refine ⟨?_, ?_⟩
    · cases negative <;> simp [put_fixed]
    · rintro rest ⟨c, r, rfl, hc⟩
      refine ⟨if negative then 4 else 3, by cases negative <;> decide, ?_⟩
      cases negative <;> rcases hc with rfl | rfl <;>
        simp [put_fixed, stod, isspace, takeSign, strtodBody, startsWithNoCase, List.isPrefixOf,
          Double.printed]

/-! ## Theorems: records -/

theorem IsKey.quote_free {K : List Char} (h : IsKey K) : '"' ∉ K := by
  intro hq
  exact absurd (h.2 _ hq) (by decide)

theorem nomatch_key {K k T R : List Char} (hK : IsKey K) (hk : '"' ∉ k) (hne : K ≠ k) :
    ¬ keyPattern K T <+: '"' :: (k ++ '"' :: R) := by
  unfold keyPattern
  rw [List.cons_prefix_cons, quoted_prefix_iff hK.quote_free hk]
  exact fun h => hne h.2.1

theorem nomatch_value {K v T R : List Char} {c : Char} (hK : IsKey K) (hv : '"' ∉ v)
    (hc : c ≠ ':') : ¬ keyPattern K T <+: '"' :: (v ++ '"' :: c :: R) := by
  unfold keyPattern
  rw [List.cons_prefix_cons, quoted_prefix_iff hK.quote_free hv, List.cons_prefix_cons]
  exact fun h => hc h.2.2.1.symm

theorem nomatch_char {K T R : List Char} {x : Char} (hK : IsKey K) (hx : x.isAlpha = false) :
    ¬ keyPattern K T <+: '"' :: x :: R := by
  unfold keyPattern
  obtain ⟨hne, hal⟩ := hK
  cases K with
  | nil => exact absurd rfl hne
  | cons a K' =>
    rw [List.cons_prefix_cons, List.cons_append, List.cons_prefix_cons]
    rintro ⟨_, rfl, _⟩
    have := hal a (List.mem_cons_self _ _)
    rw [hx] at this
    exact absurd this (by decide)

theorem skip_stringField {K k v T S : List Char} {c : Char} (hK : IsKey K) (hk : IsKey k)
    (hne : K ≠ k) (hv : '"' ∉ v) (hc : c = ',' ∨ c = '\x7d') :
    Skip (keyPattern K T) (stringField k v ++ [c]) S := by
  have hc1 : c ≠ ':' := by rcases hc with rfl | rfl <;> decide
  have hc2 : c.isAlpha = false := by rcases hc with rfl | rfl <;> decide
  have hc3 : c ≠ '"' := by rcases hc with rfl | rfl <;> decide
  have e : stringField k v ++ [c] = ['"'] ++ (k ++ (['"'] ++ ([':'] ++ (['"'] ++ (v ++ (['"'] ++ [c])))))) := by
    simp [stringField]
  rw [e]
  refine Skip.append (Skip.cons ?_ (Skip.nil _ _)) (Skip.append (Skip.free _ ?_)
    (Skip.append (Skip.cons ?_ (Skip.nil _ _)) (Skip.append (Skip.free _ ?_)
    (Skip.append (Skip.cons ?_ (Skip.nil _ _)) (Skip.append (Skip.free _ ?_)
    (Skip.append (Skip.cons ?_ (Skip.nil _ _)) (Skip.free _ ?_)))))))
  · simp only [List.nil_append, List.append_assoc, List.cons_append, List.singleton_append]
    exact nomatch_key hK hk.quote_free hne
  · intro x hx hq
    exact hk.quote_free (hq ▸ hx)
  · simp only [List.nil_append, List.append_assoc, List.cons_append, List.singleton_append]
    exact nomatch_char hK (by decide)
  · intro x hx
    rw [List.mem_singleton] at hx
    rw [hx]; decide
  · simp only [List.nil_append, List.append_assoc, List.cons_append, List.singleton_append]
    exact nomatch_value hK hv hc1
  · intro x hx hq
    exact hv (hq ▸ hx)
  · simp only [List.nil_append, List.append_assoc, List.cons_append, List.singleton_append]
    exact nomatch_char hK hc2
  · intro x hx
    rw [List.mem_singleton] at hx
    rw [hx]; exact hc3

theorem skip_numberField {K k lit T S : List Char} {c : Char} (hK : IsKey K) (hk : IsKey k)
    (hne : K ≠ k) (hv : '"' ∉ lit) (hc : c = ',' ∨ c = '\x7d') :
    Skip (keyPattern K T) (numberField k lit ++ [c]) S := by
  have hc3 : c ≠ '"' := by rcases hc with rfl | rfl <;> decide
  have e : numberField k lit ++ [c] = ['"'] ++ (k ++ (['"'] ++ ([':'] ++ (lit ++ [c])))) := by
    simp [numberField]
  rw [e]
  refine Skip.append (Skip.cons ?_ (Skip.nil _ _)) (Skip.append (Skip.free _ ?_)
    (Skip.append (Skip.cons ?_ (Skip.nil _ _)) (Skip.append (Skip.free _ ?_)
    (Skip.append (Skip.free _ ?_) (Skip.free _ ?_)))))
  · simp only [List.nil_append, List.append_assoc, List.cons_append, List.singleton_append]
    exact nomatch_key hK hk.quote_free hne
  · intro x hx hq
    exact hk.quote_free (hq ▸ hx)
  · simp only [List.nil_append, List.append_assoc, List.cons_append, List.singleton_append]
    exact nomatch_char hK (by decide)
  · intro x hx
    rw [List.mem_singleton] at hx
    rw [hx]; decide
  · intro x hx hq
    exact hv (hq ▸ hx)
  · intro x hx
    rw [List.mem_singleton] at hx
    rw [hx]; exact hc3

theorem indexOfChar_append {v R : List Char} {q : Char} (hv : q ∉ v) :
    indexOfChar q (v ++ q :: R) = some v.length := by
  induction v with
  | nil => simp [indexOfChar]
  | cons a v ih =>
    have ha : a ≠ q := fun h => hv (h ▸ List.mem_cons_self _ _)
    have hv' : q ∉ v := fun h => hv (List.mem_cons_of_mem _ h)
    simp [indexOfChar, ha, ih hv']

theorem search_string_eq (key : List Char) :
    "\"".toList ++ key ++ "\":\"".toList = keyPattern key ['"'] := by
  simp [keyPattern]

theorem search_number_eq (key : List Char) :
    "\"".toList ++ key ++ "\":".toList = keyPattern key [] := by
  simp [keyPattern]

theorem hit_string {K v S : List Char} (hv : '"' ∉ v) :
    extract_string (stringField K v ++ S) K = some v := by
  have e : stringField K v ++ S = keyPattern K ['"'] ++ (v ++ '"' :: S) := by
    simp [stringField, keyPattern]
  unfold extract_string
  simp only [search_string_eq]
  rw [e, find_at_start (List.prefix_append _ _)]
  simp only [find_char, Nat.zero_add, List.drop_left, indexOfChar_append hv, Option.map_some',
    substr, Nat.add_sub_cancel, List.take_left]

theorem hit_number {K lit S : List Char} {val : Double} (hl : NumLit lit val)
    (hS : Terminated S) : extract_number (numberField K lit ++ S) K = some val := by
  have e : numberField K lit ++ S = keyPattern K [] ++ (lit ++ S) := by
    simp [numberField, keyPattern]
  obtain ⟨_, hst⟩ := hl
  obtain ⟨k, hk, hk2⟩ := hst S hS
  unfold extract_number
  simp only [search_number_eq]
  rw [e, find_at_start (List.prefix_append _ _)]
  simp only [Nat.zero_add, List.drop_left, hk2]
  rw [if_neg hk]

theorem hit_uint {K lit S : List Char} {val : Nat} (hl : UIntLit lit val)
    (hS : Terminated S) : extract_uint (numberField K lit ++ S) K = some val := by
  have e : numberField K lit ++ S = keyPattern K [] ++ (lit ++ S) := by
    simp [numberField, keyPattern]
  obtain ⟨_, hst⟩ := hl
  obtain ⟨k, hk, hk2⟩ := hst S hS
  unfold extract_uint
  simp only [search_number_eq]
  rw [e, find_at_start (List.prefix_append _ _)]
  simp only [Nat.zero_add, List.drop_left, hk2]
  rw [if_neg hk]

theorem keyPattern_start (K T : List Char) : keyPattern K [] <+: keyPattern K T := by
  refine ⟨T, ?_⟩
  simp [keyPattern]

theorem brace_not_mem_keyPattern {K T : List Char} (hK : IsKey K) (hT : '\x7b' ∉ T) :
    '\x7b' ∉ keyPattern K T := by
  unfold keyPattern
  intro h
  simp only [List.mem_cons, List.mem_append] at h
  rcases h with h | h | h | h | h
  · exact absurd h (by decide)
  · exact absurd (hK.2 _ h) (by decide)
  · exact absurd h (by decide)
  · exact absurd h (by decide)
  · exact hT h

theorem skip_before {pat A S : List Char} {c : Char} (hne : pat ≠ []) (hA : ¬ pat <:+: A)
    (hc : c ∉ pat) : Skip pat (A ++ [c]) S := by
  induction A with
  | nil =>
    refine Skip.cons ?_ (Skip.nil _ _)
    intro h
    cases pat with
    | nil => exact hne rfl
    | cons p0 pt =>
      rw [List.nil_append, List.cons_prefix_cons] at h
      exact hc (h.1 ▸ List.mem_cons_self _ _)
  | cons a A ih =>
    rw [List.infix_cons_iff, not_or] at hA
    refine Skip.cons ?_ (ih hA.2)
    intro h
    have h2 : a :: A <+: a :: (A ++ [c] ++ S) := by
      rw [List.append_assoc, ← List.cons_append]
      exact List.prefix_append _ _
    rcases List.prefix_or_prefix_of_prefix h h2 with h3 | h3
    · exact hA.1 h3
    · obtain ⟨t, ht⟩ := h3
      rw [← ht] at h
      have h' : t <+: c :: S := by simpa using h
      cases t with
      | nil =>
        rw [List.append_nil] at ht
        exact hA.1 (ht ▸ List.prefix_refl _)
      | cons t0 t' =>
        rw [List.cons_prefix_cons] at h'
        apply hc
        rw [← ht, h'.1]
        simp

theorem skip_escapedField {K k a b T S : List Char} {c : Char} (hK : IsKey K) (hk : IsKey k)
    (hne : K ≠ k) (ha : '"' ∉ a) (hb : '"' ∉ b) (hc : c = ',' ∨ c = '\x7d') :
    Skip (keyPattern K T) (stringField k (escapedValue a b) ++ [c]) S := by
  have hc1 : c ≠ ':' := by rcases hc with rfl | rfl <;> decide
  have hc2 : c.isAlpha = false := by rcases hc with rfl | rfl <;> decide
  have hc3 : c ≠ '"' := by rcases hc with rfl | rfl <;> decide
  have ha' : '"' ∉ a ++ ['\\'] := by
    intro h
    rcases List.mem_append.1 h with h | h
    · exact ha h
    · exact absurd (List.mem_singleton.1 h) (by decide)
  have hKa : K ≠ a ++ ['\\'] := by
    intro h
    have := hK.2 '\\' (by rw [h]; simp)
    exact absurd this (by decide)
  have e : stringField k (escapedValue a b) ++ [c] =
      ['"'] ++ (k ++ (['"'] ++ ([':'] ++ (['"'] ++ ((a ++ ['\\']) ++ (['"'] ++ (b ++
        (['"'] ++ [c])))))))) := by
    simp [stringField, escapedValue]
  rw [e]
  refine Skip.append (Skip.cons ?_ (Skip.nil _ _)) (Skip.append (Skip.free _ ?_)
    (Skip.append (Skip.cons ?_ (Skip.nil _ _)) (Skip.append (Skip.free _ ?_)
    (Skip.append (Skip.cons ?_ (Skip.nil _ _)) (Skip.append (Skip.free _ ?_)
    (Skip.append (Skip.cons ?_ (Skip.nil _ _)) (Skip.append (Skip.free _ ?_)
    (Skip.append (Skip.cons ?_ (Skip.nil _ _)) (Skip.free _ ?_)))))))))
  · simp only [List.nil_append, List.append_assoc, List.cons_append, List.singleton_append]
    exact nomatch_key hK hk.quote_free hne
  · intro x hx hq
    exact hk.quote_free (hq ▸ hx)
  · simp only [List.nil_append, List.append_assoc, List.cons_append, List.singleton_append]
    exact nomatch_char hK (by decide)
  · intro x hx
    rw [List.mem_singleton] at hx
    rw [hx]; decide
  · have := nomatch_key (T := T)
      (R := b ++ (['"'] ++ [c]) ++ S) hK ha' hKa
    simpa only [List.nil_append, List.append_assoc, List.cons_append,
      List.singleton_append] using this
  · intro x hx hq
    exact ha' (hq ▸ hx)
  · simp only [List.nil_append, List.append_assoc, List.cons_append, List.singleton_append]
    exact nomatch_value hK hb hc1
  · intro x hx hq
    exact hb (hq ▸ hx)
  · simp only [List.nil_append, List.append_assoc, List.cons_append, List.singleton_append]
    exact nomatch_char hK hc2
  · intro x hx
    rw [List.mem_singleton] at hx
    rw [hx]; exact hc3

theorem skip_field {K k f T S : List Char} {c : Char} (hK : IsKey K) (hk : IsKey k)
    (hne : K ≠ k) (hf : IsField k f) (hc : c = ',' ∨ c = '\x7d') :
    Skip (keyPattern K T) (f ++ [c]) S := by
  rcases hf with ⟨v, hv, rfl⟩ | ⟨lit, hv, rfl⟩ | ⟨a, b, ha, hb, rfl⟩
  · exact skip_stringField hK hk hne hv hc
  · exact skip_numberField hK hk hne hv hc
  · exact skip_escapedField hK hk hne ha hb hc

theorem joinFields_cons_append (x y : List Char) (r : List (List Char)) (post : List Char) :
    joinFields (x :: y :: r) ++ post = (x ++ [',']) ++ (joinFields (y :: r) ++ post) := by
  simp [joinFields]

/-- An extraction that is insensitive to skipped text and succeeds on the member `g`
succeeds on every list of members that holds `g` and otherwise members of other keys. -/
theorem extract_over {β : Type} (E : List Char → Option β) {K T g : List Char} {r : β}
    (hK : IsKey K)
    (hskip : ∀ A Y, Skip (keyPattern K T) A Y → E (A ++ Y) = E Y)
    (hhit : ∀ S, Terminated S → E (g ++ S) = some r)
    (fs : List (List Char)) (post : List Char)
    (hfs : ∀ f ∈ fs, ∃ k, IsKey k ∧ IsField k f ∧ (k = K → f = g))
    (hg : g ∈ fs) (hpost : Terminated post) :
    E (joinFields fs ++ post) = some r := by
  induction fs with
  | nil => simp at hg
  | cons f rest ih =>
    by_cases hfg : f = g
    · cases rest with
      | nil => rw [hfg]; exact hhit post hpost
      | cons y r' =>
        rw [joinFields_cons_append, hfg, List.append_assoc]
        exact hhit _ ⟨',', _, rfl, Or.inl rfl⟩
    · have hg' : g ∈ rest := by
        rcases List.mem_cons.1 hg with h | h
        · exact absurd h.symm hfg
        · exact h
      obtain ⟨k, hk, hfield, hkK⟩ := hfs f (List.mem_cons_self _ _)
      have hne : K ≠ k := fun h => hfg (hkK h.symm)
      cases rest with
      | nil => simp at hg'
      | cons y r' =>
        rw [joinFields_cons_append, hskip _ _ (skip_field hK hk hne hfield (Or.inl rfl))]
        exact ih (fun f hf => hfs f (List.mem_cons_of_mem _ hf)) hg'

theorem isKey_sensorId : IsKey "sensorId".toList := ⟨by decide, by decide⟩
theorem isKey_temperature : IsKey "temperature".toList := ⟨by decide, by decide⟩
theorem isKey_humidity : IsKey "humidity".toList := ⟨by decide, by decide⟩
theorem isKey_timestamp : IsKey "timestamp".toList := ⟨by decide, by decide⟩
theorem isKey_sequenceNumber : IsKey "sequenceNumber".toList := ⟨by decide, by decide⟩

/-- Every required member is a member of its own key, and of no other required key. -/
theorem requiredFields_keys {s t h ts n : List Char}
    (hs : IsField "sensorId".toList (stringField "sensorId".toList s)) (ht : '"' ∉ t)
    (hh : '"' ∉ h) (hts : '"' ∉ ts) (hn : '"' ∉ n) (i : Fin 5) :
    ∀ f ∈ requiredFields s t h ts n, ∃ k, IsKey k ∧ IsField k f ∧
      (k = ["sensorId".toList, "temperature".toList, "humidity".toList, "timestamp".toList,
            "sequenceNumber".toList].get ⟨i.1, i.2⟩ →
        f = (requiredFields s t h ts n).get ⟨i.1, i.2⟩) := by
  intro f hf
  simp only [requiredFields, List.mem_cons, List.mem_singleton, List.not_mem_nil, or_false] at hf
  rcases hf with rfl | rfl | rfl | rfl | rfl
  · refine ⟨_, isKey_sensorId, hs, ?_⟩
    fin_cases i <;> first | (intro _; rfl) | (intro h; exact absurd h (by decide))
  · refine ⟨_, isKey_temperature, Or.inr (Or.inl ⟨t, ht, rfl⟩), ?_⟩
    fin_cases i <;> first | (intro _; rfl) | (intro h; exact absurd h (by decide))
  · refine ⟨_, isKey_humidity, Or.inr (Or.inl ⟨h, hh, rfl⟩), ?_⟩
    fin_cases i <;> first | (intro _; rfl) | (intro h; exact absurd h (by decide))
  · refine ⟨_, isKey_timestamp, Or.inl ⟨ts, hts, rfl⟩, ?_⟩
    fin_cases i <;> first | (intro _; rfl) | (intro h; exact absurd h (by decide))
  · refine ⟨_, isKey_sequenceNumber, Or.inr (Or.inl ⟨n, hn, rfl⟩), ?_⟩
    fin_cases i <;> first | (intro _; rfl) | (intro h; exact absurd h (by decide))

theorem skip_leading {K T pre S : List Char} (hK : IsKey K) (hT : '\x7b' ∉ T)
    (hpre : ¬ keyPattern K [] <:+: pre) : Skip (keyPattern K T) (pre ++ ['\x7b']) S := by
  refine skip_before (by simp [keyPattern]) ?_ (brace_not_mem_keyPattern hK hT)
  intro h
  exact hpre (List.IsInfix.trans (keyPattern_start K T).isInfix h)

/-- Decoding of a record of the five required members in any order, after any text free
of the quoted keys and before any text that starts with a comma or a closing brace. -/
theorem parse_record {s sv t h ts n : List Char} {tv hv : Double} {nv : Nat}
    (hs : IsField "sensorId".toList (stringField "sensorId".toList s))
    (hsv : ∀ S, extract_string (stringField "sensorId".toList s ++ S) "sensorId".toList = some sv)
    (hts : '"' ∉ ts) (ht : NumLit t tv) (hh : NumLit h hv) (hn : UIntLit n nv)
    (fs : List (List Char)) (hperm : fs.Perm (requiredFields s t h ts n))
    (pre post : List Char) (hpre : KeyFree pre) (hpost : Terminated post) :
    parse_sensor_message (pre ++ ['\x7b'] ++ (joinFields fs ++ post)) =
      some { sensor_id := sv, temperature := tv, humidity := hv, timestamp := ts,
             sequence_number := nv } := by
  have hkeys := fun i => requiredFields_keys hs ht.1 hh.1 hts hn.1 i
  have hmem : ∀ i : Fin 5, ∀ f ∈ fs, ∃ k, IsKey k ∧ IsField k f ∧
      (k = ["sensorId".toList, "temperature".toList, "humidity".toList, "timestamp".toList,
            "sequenceNumber".toList].get ⟨i.1, i.2⟩ →
        f = (requiredFields s t h ts n).get ⟨i.1, i.2⟩) :=
    fun i f hf => hkeys i f (hperm.mem_iff.1 hf)
  have hin : ∀ i : Fin 5, (requiredFields s t h ts n).get ⟨i.1, i.2⟩ ∈ fs :=
    fun i => hperm.mem_iff.2 (List.get_mem _ _ _)
  have h1 : extract_string (pre ++ ['\x7b'] ++ (joinFields fs ++ post)) "sensorId".toList
      = some sv := by
    rw [extract_string_skip (by
      rw [search_string_eq]
      exact skip_leading isKey_sensorId (by decide) (hpre _ (by decide)))]
    exact extract_over (fun x => extract_string x "sensorId".toList) (T := ['"'])
      isKey_sensorId
      (fun A Y hsk => extract_string_skip (by rw [search_string_eq]; exact hsk))
      (fun S _ => hsv S) fs post (hmem 0) (hin 0) hpost
  have h2 : extract_number (pre ++ ['\x7b'] ++ (joinFields fs ++ post)) "temperature".toList
      = some tv := by
    rw [extract_number_skip (by
      rw [search_number_eq]
      exact skip_leading isKey_temperature (by decide) (hpre _ (by decide)))]
    exact extract_over (fun x => extract_number x "temperature".toList) (T := [])
      isKey_temperature
      (fun A Y hsk => extract_number_skip (by rw [search_number_eq]; exact hsk))
      (fun S hS => hit_number ht hS) fs post (hmem 1) (hin 1) hpost
  have h3 : extract_number (pre ++ ['\x7b'] ++ (joinFields fs ++ post)) "humidity".toList
      = some hv := by
    rw [extract_number_skip (by
      rw [search_number_eq]
      exact skip_leading isKey_humidity (by decide) (hpre _ (by decide)))]
    exact extract_over (fun x => extract_number x "humidity".toList) (T := [])
      isKey_humidity
      (fun A Y hsk => extract_number_skip (by rw [search_number_eq]; exact hsk))
      (fun S hS => hit_number hh hS) fs post (hmem 2) (hin 2) hpost
  have h4 : extract_string (pre ++ ['\x7b'] ++ (joinFields fs ++ post)) "timestamp".toList
      = some ts := by
    rw [extract_string_skip (by
      rw [search_string_eq]
      exact skip_leading isKey_timestamp (by decide) (hpre _ (by decide)))]
    exact extract_over (fun x => extract_string x "timestamp".toList) (T := ['"'])
      isKey_timestamp
      (fun A Y hsk => extract_string_skip (by rw [search_string_eq]; exact hsk))
      (fun S _ => hit_string hts) fs post (hmem 3) (hin 3) hpost
  have h5 : extract_uint (pre ++ ['\x7b'] ++ (joinFields fs ++ post)) "sequenceNumber".toList
      = some nv := by
    rw [extract_uint_skip (by
      rw [search_number_eq]
      exact skip_leading isKey_sequenceNumber (by decide) (hpre _ (by decide)))]
    exact extract_over (fun x => extract_uint x "sequenceNumber".toList) (T := [])
      isKey_sequenceNumber
      (fun A Y hsk => extract_uint_skip (by rw [search_number_eq]; exact hsk))
      (fun S hS => hit_uint hn hS) fs post (hmem 4) (hin 4) hpost
  unfold parse_sensor_message
  simp only [h1, h2, h3, h4, h5]

theorem isField_plain {k v : List Char} (hv : '"' ∉ v) : IsField k (stringField k v) :=
  Or.inl ⟨v, hv, rfl⟩

theorem keyFree_nil : KeyFree [] := by
  intro key _ h
  have := List.eq_nil_of_infix_nil h
  simp [keyPattern] at this

theorem to_json_eq_record (msg : SensorMessage) (filter_passed : Bool)
    (filter_reason : List Char) :
    ∃ post, Terminated post ∧ to_json msg filter_passed filter_reason =
      [] ++ ['\x7b'] ++ (joinFields (requiredFields msg.sensor_id (put_fixed 2 msg.temperature)
        (put_fixed 1 msg.humidity) msg.timestamp (put_uint msg.sequence_number)) ++ post) := by
  refine ⟨",\"filterPassed\":".toList ++ (if filter_passed then "true".toList else "false".toList)
    ++ (if !filter_reason.isEmpty then ",\"filterReason\":\"".toList ++ filter_reason ++ "\"".toList
        else []) ++ "\x7d".toList, ⟨',', _, rfl, Or.inl rfl⟩, ?_⟩
  unfold to_json
  cases hfr : filter_reason.isEmpty <;>
    simp [requiredFields, joinFields, stringField, numberField]

/-- What reading back a printed finite value gives: a finite `double`, the one nearest to
the decimal number written, which is within half a unit of the last printed decimal of the
original value. -/
theorem printed_finite (p : Nat) (q : ℚ) (h : isBinary64 q = true) :
    ((Double.finite q h).printed p).IsFinite ∧
      ((Double.finite q h).printed p).toRat = rn (roundFixed p q) ∧
      |roundFixed p q - q| ≤ 1 / 2 / 10 ^ p ∧
      |((Double.finite q h).printed p).toRat - roundFixed p q| ≤
        pow2 (-53) * |roundFixed p q| + pow2 (-1075) := by
  have hmax := roundFixed_le_max p q (isBinary64_le_max h)
  have h970 : pow2 970 < pow2 971 := pow2_lt_pow2 (by norm_num)
  obtain ⟨h1, h2⟩ := Double.round_in_range (decide (q < 0)) (roundFixed p q)
    (by linarith only [hmax, h970])
  refine ⟨h1, h2, roundFixed_close p q, ?_⟩
  show |(Double.round (decide (q < 0)) (roundFixed p q)).toRat - roundFixed p q| ≤ _
  rw [h2]
  exact rn_error _

/-- C5: round trip. For a message whose `sensor_id` and `timestamp` hold no double quote
and whose `sequence_number` is a 64-bit unsigned value, whatever the verdict and the reason,
decoding the text produced by `to_json` succeeds and gives back the same `sensor_id`,
`timestamp` and `sequence_number`, the temperature as printed with 2 decimals and the
humidity as printed with 1 decimal: for a finite value, the `double` nearest to the decimal
number written, which is within half a unit of the last printed decimal of the original
value (so not necessarily the original `double`); `-0.0`, infinities and NaN come back as
they are. -/
theorem parse_to_json_roundtrip (msg : SensorMessage) (filter_passed : Bool)
    (filter_reason : List Char) (hs : '"' ∉ msg.sensor_id) (hts : '"' ∉ msg.timestamp)
    (hseq : msg.sequence_number < 2 ^ 64) :
    parse_sensor_message (to_json msg filter_passed filter_reason) =
        some { sensor_id := msg.sensor_id,
               temperature := msg.temperature.printed 2,
               humidity := msg.humidity.printed 1,
               timestamp := msg.timestamp,
               sequence_number := msg.sequence_number } ∧
      (∀ q h, msg.temperature = .finite q h →
        (msg.temperature.printed 2).IsFinite ∧
        (msg.temperature.printed 2).toRat = rn (roundFixed 2 q) ∧
        |roundFixed 2 q - q| ≤ 1 / 2 / 10 ^ 2 ∧
        |(msg.temperature.printed 2).toRat - roundFixed 2 q| ≤
          pow2 (-53) * |roundFixed 2 q| + pow2 (-1075)) ∧
      (∀ q h, msg.humidity = .finite q h →
        (msg.humidity.printed 1).IsFinite ∧
        (msg.humidity.printed 1).toRat = rn (roundFixed 1 q) ∧
        |roundFixed 1 q - q| ≤ 1 / 2 / 10 ^ 1 ∧
        |(msg.humidity.printed 1).toRat - roundFixed 1 q| ≤
          pow2 (-53) * |roundFixed 1 q| + pow2 (-1075)) ∧
      (∀ x : Double, ¬ (∃ q h, x = .finite q h) → x.printed 2 = x ∧ x.printed 1 = x) := by
  refine ⟨?_, ?_, ?_, ?_⟩
  · obtain ⟨post, hpost, e⟩ := to_json_eq_record msg filter_passed filter_reason
    rw [e]
    exact parse_record (isField_plain hs) (fun S => hit_string hs) hts
      (put_fixed_numLit 2 (by decide) (by decide) _) (put_fixed_numLit 1 (by decide) (by decide) _)
      (put_uint_uintLit _ hseq) _ (List.Perm.refl _) [] post keyFree_nil hpost
  · intro q h hq
    rw [hq]
    exact printed_finite 2 q h
  · intro q h hq
    rw [hq]
    exact printed_finite 1 q h
  · intro x hx
    cases x with
    | finite q h => exact absurd ⟨q, h, rfl⟩ hx
    | negZero => exact ⟨rfl, rfl⟩
    | inf negative => exact ⟨rfl, rfl⟩
    | nan negative => exact ⟨rfl, rfl⟩

set_option maxRecDepth 100000 in
/-- C5 on the reading of the specification's example, rejected with a reason that itself
holds quotes: the doubles nearest to 22.3 and 45.6 come back unchanged. -/
theorem parse_to_json_roundtrip_witness :
    ('"' ∉ "temp-sensor-001".toList ∧ '"' ∉ "2024-01-01T00:00:00.000Z".toList ∧
        (7 : Nat) < 2 ^ 64) ∧
      parse_sensor_message (to_json
        ⟨"temp-sensor-001".toList, Double.ofRat 22.3, Double.ofRat 45.6,
          "2024-01-01T00:00:00.000Z".toList, 7⟩ false "\"sensorId\":\"x\"".toList) =
      some { sensor_id := "temp-sensor-001".toList,
             temperature := (Double.ofRat 22.3).printed 2,
             humidity := (Double.ofRat 45.6).printed 1,
             timestamp := "2024-01-01T00:00:00.000Z".toList,
             sequence_number := 7 } :=
  ⟨⟨by decide, by decide, by decide⟩,
    (parse_to_json_roundtrip
      ⟨"temp-sensor-001".toList, Double.ofRat 22.3, Double.ofRat 45.6,
        "2024-01-01T00:00:00.000Z".toList, 7⟩
      false "\"sensorId\":\"x\"".toList (by decide) (by decide) (by decide)).1⟩

set_option maxRecDepth 100000 in
/-- C6: the text produced by `to_json` is the opening brace, the six members `sensorId`,
`temperature` (2 decimals), `humidity` (1 decimal), `timestamp`, `sequenceNumber`,
`filterPassed` in this order with the strings copied verbatim, then a `filterReason` member
exactly when the reason is not empty, then the closing brace; a finite value is written as
a decimal literal with exactly `precision` fraction digits, a minus sign when negative
(`-0.0` as a minus sign and zeros); the specification's example, on the doubles nearest to
22.3 and 45.6, is reproduced character for character. -/
theorem to_json_text (msg : SensorMessage) (filter_passed : Bool) (filter_reason : List Char) :
    to_json msg filter_passed filter_reason =
        "\x7b\"sensorId\":\"".toList ++ msg.sensor_id ++
        "\",\"temperature\":".toList ++ put_fixed 2 msg.temperature ++
        ",\"humidity\":".toList ++ put_fixed 1 msg.humidity ++
        ",\"timestamp\":\"".toList ++ msg.timestamp ++
        "\",\"sequenceNumber\":".toList ++ put_uint msg.sequence_number ++
        ",\"filterPassed\":".toList ++ (if filter_passed then "true".toList else "false".toList) ++
        (if filter_reason = [] then []
         else ",\"filterReason\":\"".toList ++ filter_reason ++ "\"".toList) ++
        "\x7d".toList ∧
      (∀ (precision : Nat) (q : ℚ) (h : isBinary64 q = true), 1 ≤ precision →
        ∃ l : DecLit, l.WellFormed ∧ put_fixed precision (.finite q h) = l.text ∧
          l.value = roundFixed precision q ∧ l.frac.length = precision ∧
          l.negative = decide (q < 0)) ∧
      (∀ precision : Nat, 1 ≤ precision →
        ∃ l : DecLit, l.WellFormed ∧ put_fixed precision .negZero = l.text ∧
          l.value = 0 ∧ l.frac.length = precision ∧ l.negative = true) ∧
      (digitsValue 10 (put_uint msg.sequence_number) = msg.sequence_number ∧
        IsDigits (put_uint msg.sequence_number)) ∧
      to_json ⟨"temp-sensor-001".toList, Double.ofRat 22.3, Double.ofRat 45.6,
          "2024-01-01T00:00:00.000Z".toList, 7⟩ true [] =
        "\x7b\"sensorId\":\"temp-sensor-001\",\"temperature\":22.30,\"humidity\":45.6,\"timestamp\":\"2024-01-01T00:00:00.000Z\",\"sequenceNumber\":7,\"filterPassed\":true\x7d".toList := by
  refine ⟨?_, fun precision q h hp => put_fixed_finite precision hp q h,
    fun precision hp => put_fixed_negZero precision hp, put_uint_spec _, ?_⟩
  · unfold to_json
    cases filter_reason <;> simp
  · decide!

theorem parse_none_of (json : List Char)
    (h : extract_string json "sensorId".toList = none ∨
      extract_number json "temperature".toList = none ∨
      extract_number json "humidity".toList = none ∨
      extract_string json "timestamp".toList = none ∨
      extract_uint json "sequenceNumber".toList = none) :
    parse_sensor_message json = none := by
  unfold parse_sensor_message
  rcases h with h | h | h | h | h
  · simp only [h]
  · cases extract_string json "sensorId".toList <;> simp only [h]
  · cases extract_string json "sensorId".toList <;>
      cases extract_number json "temperature".toList <;> simp only [h]
  · cases extract_string json "sensorId".toList <;>
      cases extract_number json "temperature".toList <;>
      cases extract_number json "humidity".toList <;> simp only [h]
  · cases extract_string json "sensorId".toList <;>
      cases extract_number json "temperature".toList <;>
      cases extract_number json "humidity".toList <;>
      cases extract_string json "timestamp".toList <;> simp only [h]

theorem find_none_of_absent {json key : List Char} (T : List Char)
    (h : ¬ keyPattern key [] <:+: json) : find json (keyPattern key T) = none := by
  rw [find_eq_none_iff]
  intro h'
  exact h (List.IsInfix.trans (keyPattern_start key T).isInfix h')

theorem extract_string_absent {json key : List Char} (h : ¬ keyPattern key [] <:+: json) :
    extract_string json key = none := by
  unfold extract_string
  simp only [search_string_eq, find_none_of_absent ['"'] h]

theorem extract_number_absent {json key : List Char} (h : ¬ keyPattern key [] <:+: json) :
    extract_number json key = none := by
  unfold extract_number
  simp only [search_number_eq, find_none_of_absent [] h]

theorem extract_uint_absent {json key : List Char} (h : ¬ keyPattern key [] <:+: json) :
    extract_uint json key = none := by
  unfold extract_uint
  simp only [search_number_eq, find_none_of_absent [] h]

theorem extract_number_unparsable {json key : List Char} {p : Nat}
    (hfind : find json (keyPattern key []) = some p)
    (hnum : stod (json.drop (p + (keyPattern key []).length)) = none) :
    extract_number json key = none := by
  unfold extract_number
  simp only [search_number_eq, hfind, hnum]

theorem extract_uint_unparsable {json key : List Char} {p : Nat}
    (hfind : find json (keyPattern key []) = some p)
    (hnum : stoull (json.drop (p + (keyPattern key []).length)) = none) :
    extract_uint json key = none := by
  unfold extract_uint
  simp only [search_number_eq, hfind, hnum]

/-- C7: decoding yields no result (never a partial message) when one of the five required
keys does not occur in the text as a quoted key followed by a colon, and when the first
occurrence of the key of a numeric member (`temperature`, `humidity`, `sequenceNumber`) is
followed by text from which `std::stod` (resp. `std::stoull`) can parse no number. -/
theorem parse_fails_when_missing_or_unparsable (json : List Char)
    (h : (∃ key ∈ requiredKeys, ¬ keyPattern key [] <:+: json) ∨
      (∃ key ∈ ["temperature".toList, "humidity".toList], ∃ p,
        find json (keyPattern key []) = some p ∧
          stod (json.drop (p + (keyPattern key []).length)) = none) ∨
      (∃ p, find json (keyPattern "sequenceNumber".toList []) = some p ∧
          stoull (json.drop (p + (keyPattern "sequenceNumber".toList []).length)) = none)) :
    parse_sensor_message json = none := by
  apply parse_none_of
  rcases h with ⟨key, hkey, habs⟩ | ⟨key, hkey, p, hfind, hnum⟩ | ⟨p, hfind, hnum⟩
  · simp only [requiredKeys, List.mem_cons, List.mem_singleton, List.not_mem_nil,
      or_false] at hkey
    rcases hkey with rfl | rfl | rfl | rfl | rfl
    · exact Or.inl (extract_string_absent habs)
    · exact Or.inr (Or.inl (extract_number_absent habs))
    · exact Or.inr (Or.inr (Or.inl (extract_number_absent habs)))
    · exact Or.inr (Or.inr (Or.inr (Or.inl (extract_string_absent habs))))
    · exact Or.inr (Or.inr (Or.inr (Or.inr (extract_uint_absent habs))))
  · simp only [List.mem_cons, List.mem_singleton, List.not_mem_nil, or_false] at hkey
    rcases hkey with rfl | rfl
    · exact Or.inr (Or.inl (extract_number_unparsable hfind hnum))
    · exact Or.inr (Or.inr (Or.inl (extract_number_unparsable hfind hnum)))
  · exact Or.inr (Or.inr (Or.inr (Or.inr (extract_uint_unparsable hfind hnum))))

set_option maxRecDepth 100000 in
/-- C7 on a record whose `humidity` value is the text `high`: the key is found at index 35
and no number can be read after it. -/
theorem parse_fails_when_missing_or_unparsable_witness :
    (find "\x7b\"sensorId\":\"a\",\"temperature\":21.5,\"humidity\":high,\"timestamp\":\"t\",\"sequenceNumber\":7\x7d".toList
        (keyPattern "humidity".toList []) = some 35 ∧
      stod (("\x7b\"sensorId\":\"a\",\"temperature\":21.5,\"humidity\":high,\"timestamp\":\"t\",\"sequenceNumber\":7\x7d".toList).drop
        (35 + (keyPattern "humidity".toList []).length)) = none) ∧
    parse_sensor_message
      "\x7b\"sensorId\":\"a\",\"temperature\":21.5,\"humidity\":high,\"timestamp\":\"t\",\"sequenceNumber\":7\x7d".toList
        = none :=
  ⟨⟨by decide!, by decide!⟩,
    parse_fails_when_missing_or_unparsable _
      (Or.inr (Or.inl ⟨"humidity".toList, by decide, 35, by decide!, by decide!⟩))⟩

theorem extract_number_literal {json key rest : List Char} {p : Nat} {lit : DecLit}
    (hwf : lit.WellFormed) (hfind : find json (keyPattern key []) = some p)
    (hnext : json.drop (p + (keyPattern key []).length) = lit.text ++ rest)
    (hstop : extendsLiteral lit rest = false) :
    extract_number json key = if erange lit.value then none else some lit.double := by
  obtain ⟨k, hk, hk2⟩ := stod_declit lit rest hwf hstop
  unfold extract_number
  simp only [search_number_eq, hfind, hnext, hk2]
  cases erange lit.value
  · simp only [Bool.false_eq_true, if_false]
    rw [if_neg hk]
  · simp only [if_true]

set_option maxRecDepth 100000 in
/-- C8 fails as stated: the literal `1` followed by 400 zeros, of value `10 ^ 400`, stands
right after the first `"temperature":` and is followed by text that cannot extend it, and
the other four members decode, yet decoding yields no result: the value is beyond the
range of `double` and `std::stod` throws `std::out_of_range`. -/
theorem lenient_prefix_out_of_range :
    (DecLit.WellFormed ⟨false, '1' :: List.replicate 400 '0', []⟩ ∧
      (DecLit.mk false ('1' :: List.replicate 400 '0') []).value = 10 ^ 400 ∧
      find ("\x7b\"sensorId\":\"a\",\"temperature\":".toList ++
          (DecLit.mk false ('1' :: List.replicate 400 '0') []).text ++
          "garbage,\"humidity\":45.6,\"timestamp\":\"t\",\"sequenceNumber\":7\x7d".toList)
        (keyPattern "temperature".toList []) = some 16 ∧
      ("\x7b\"sensorId\":\"a\",\"temperature\":".toList ++
          (DecLit.mk false ('1' :: List.replicate 400 '0') []).text ++
          "garbage,\"humidity\":45.6,\"timestamp\":\"t\",\"sequenceNumber\":7\x7d".toList).drop
        (16 + (keyPattern "temperature".toList []).length) =
          (DecLit.mk false ('1' :: List.replicate 400 '0') []).text ++
          "garbage,\"humidity\":45.6,\"timestamp\":\"t\",\"sequenceNumber\":7\x7d".toList ∧
      extendsLiteral ⟨false, '1' :: List.replicate 400 '0', []⟩
        "garbage,\"humidity\":45.6,\"timestamp\":\"t\",\"sequenceNumber\":7\x7d".toList = false ∧
      extract_string ("\x7b\"sensorId\":\"a\",\"temperature\":".toList ++
          (DecLit.mk false ('1' :: List.replicate 400 '0') []).text ++
          "garbage,\"humidity\":45.6,\"timestamp\":\"t\",\"sequenceNumber\":7\x7d".toList)
        "sensorId".toList = some "a".toList ∧
      extract_number ("\x7b\"sensorId\":\"a\",\"temperature\":".toList ++
          (DecLit.mk false ('1' :: List.replicate 400 '0') []).text ++
          "garbage,\"humidity\":45.6,\"timestamp\":\"t\",\"sequenceNumber\":7\x7d".toList)
        "humidity".toList = some (Double.ofRat 45.6) ∧
      extract_string ("\x7b\"sensorId\":\"a\",\"temperature\":".toList ++
          (DecLit.mk false ('1' :: List.replicate 400 '0') []).text ++
          "garbage,\"humidity\":45.6,\"timestamp\":\"t\",\"sequenceNumber\":7\x7d".toList)
        "timestamp".toList = some "t".toList ∧
      extract_uint ("\x7b\"sensorId\":\"a\",\"temperature\":".toList ++
          (DecLit.mk false ('1' :: List.replicate 400 '0') []).text ++
          "garbage,\"humidity\":45.6,\"timestamp\":\"t\",\"sequenceNumber\":7\x7d".toList)
        "sequenceNumber".toList = some 7) ∧
    parse_sensor_message ("\x7b\"sensorId\":\"a\",\"temperature\":".toList ++
        (DecLit.mk false ('1' :: List.replicate 400 '0') []).text ++
        "garbage,\"humidity\":45.6,\"timestamp\":\"t\",\"sequenceNumber\":7\x7d".toList) = none :=
  ⟨⟨⟨by decide, by decide!, by decide⟩, by decide!, by decide!, by decide!, by decide!,
    by decide!, by decide!, by decide!, by decide!⟩, by decide!⟩

/-- C8, amended: lenient numeric prefix. When the first occurrence of `"temperature":` (or
of `"humidity":`, with `temperatureField = false`) is immediately followed by a decimal
literal and then by text that cannot extend it (no further digit, fraction, exponent or
hexadecimal part for `std::stod` to read), and the other four members decode, then decoding
yields no result when the value of the literal is outside the range of `double`, and
otherwise succeeds with the member equal to the `double` nearest to the value of the
literal (the value itself when it is a `double`); the trailing text is ignored. -/
theorem lenient_numeric_prefix (json : List Char) (temperatureField : Bool) (p : Nat)
    (lit : DecLit) (rest s ts : List Char) (other : Double) (n : Nat)
    (hwf : lit.WellFormed)
    (hfind : find json (keyPattern
      (if temperatureField then "temperature".toList else "humidity".toList) []) = some p)
    (hnext : json.drop (p + (keyPattern
      (if temperatureField then "temperature".toList else "humidity".toList) []).length)
        = lit.text ++ rest)
    (hstop : extendsLiteral lit rest = false)
    (hsid : extract_string json "sensorId".toList = some s)
    (hother : extract_number json
      (if temperatureField then "humidity".toList else "temperature".toList) = some other)
    (htime : extract_string json "timestamp".toList = some ts)
    (hseq : extract_uint json "sequenceNumber".toList = some n) :
    parse_sensor_message json =
      (if erange lit.value then none
       else some (if temperatureField
        then { sensor_id := s, temperature := lit.double, humidity := other,
               timestamp := ts, sequence_number := n }
        else { sensor_id := s, temperature := other, humidity := lit.double,
               timestamp := ts, sequence_number := n })) ∧
      (erange lit.value = false →
        lit.double.IsFinite ∧ lit.double.toRat = rn lit.value ∧
        |lit.double.toRat - lit.value| ≤ pow2 (-53) * |lit.value| + pow2 (-1075) ∧
        (isBinary64 lit.value = true → lit.double.toRat = lit.value)) := by
  have hthis := extract_number_literal hwf hfind hnext hstop
  refine ⟨?_, fun hr => Double.round_of_erange lit.negative hr⟩
  unfold parse_sensor_message
  cases temperatureField
  · simp only [Bool.false_eq_true, if_false] at hthis hother ⊢
    cases hr : erange lit.value
    · rw [hr] at hthis
      simp only [Bool.false_eq_true, if_false] at hthis ⊢
      simp only [hsid, hthis, hother, htime, hseq]
    · rw [hr] at hthis
      simp only [if_true] at hthis ⊢
      simp only [hsid, hthis, hother, htime, hseq]
  · simp only [if_true] at hthis hother ⊢
    cases hr : erange lit.value
    · rw [hr] at hthis
      simp only [Bool.false_eq_true, if_false] at hthis ⊢
      simp only [hsid, hthis, hother, htime, hseq]
    · rw [hr] at hthis
      simp only [if_true] at hthis ⊢
      simp only [hsid, hthis, hother, htime, hseq]

set_option maxRecDepth 100000 in
/-- C8, amended, on the specification's example: the value written `12.5garbage` decodes
as 12.5. -/
theorem lenient_numeric_prefix_witness :
    (DecLit.WellFormed ⟨false, "12".toList, "5".toList⟩ ∧
      extendsLiteral ⟨false, "12".toList, "5".toList⟩
        "garbage,\"humidity\":45.6,\"timestamp\":\"t\",\"sequenceNumber\":7\x7d".toList
        = false ∧
      (DecLit.mk false "12".toList "5".toList).value = 25 / 2 ∧
      erange (DecLit.mk false "12".toList "5".toList).value = false) ∧
    parse_sensor_message
      "\x7b\"sensorId\":\"a\",\"temperature\":12.5garbage,\"humidity\":45.6,\"timestamp\":\"t\",\"sequenceNumber\":7\x7d".toList
      = some { sensor_id := "a".toList,
               temperature := Double.ofRat (25 / 2),
               humidity := Double.ofRat (228 / 5),
               timestamp := "t".toList, sequence_number := 7 } ∧
    (Double.ofRat (25 / 2)).toRat = 25 / 2 :=
  have h := lenient_numeric_prefix
      "\x7b\"sensorId\":\"a\",\"temperature\":12.5garbage,\"humidity\":45.6,\"timestamp\":\"t\",\"sequenceNumber\":7\x7d".toList
      true 16 ⟨false, "12".toList, "5".toList⟩
      "garbage,\"humidity\":45.6,\"timestamp\":\"t\",\"sequenceNumber\":7\x7d".toList
      "a".toList "t".toList (Double.ofRat (228 / 5)) 7
      ⟨by decide, by decide, by decide⟩ (by decide!) (by decide!) (by decide) (by decide!)
      (by decide!) (by decide!) (by decide!)
  ⟨⟨⟨by decide, by decide, by decide⟩, by decide, by decide!, by decide!⟩,
    h.1.trans (by decide!), by decide!⟩

theorem flatRecord_eq (fs : List (List Char)) :
    flatRecord fs = [] ++ ['\x7b'] ++ (joinFields fs ++ ['\x7d']) := by
  simp [flatRecord]

set_option maxRecDepth 100000 in
/-- C9 fails as stated: a well-formed flat record in the original order, whose
`sequenceNumber` literal is 2^64, is not decoded (`std::stoull` is out of range). -/
theorem flat_record_sequence_overflow :
    ('"' ∉ "a".toList ∧ '"' ∉ "t".toList ∧ DecLit.WellFormed ⟨false, "1".toList, []⟩ ∧
      DecLit.WellFormed ⟨false, "2".toList, []⟩ ∧
      DecLit.WellFormed ⟨false, "18446744073709551616".toList, []⟩) ∧
    parse_sensor_message (flatRecord (requiredFields "a".toList
      (DecLit.mk false "1".toList []).text (DecLit.mk false "2".toList []).text "t".toList
      (DecLit.mk false "18446744073709551616".toList []).text)) = none :=
  ⟨⟨by decide, by decide, ⟨by decide, by decide, by decide⟩, ⟨by decide, by decide, by decide⟩,
    ⟨by decide, by decide, by decide⟩⟩, by decide!⟩

/-- C9, amended: for a flat record of the five required members, with `s` and `ts` free of
double quotes and `t`, `h`, `n` plain decimal literals, the values of `t` and `h` within
the range of `double` and the integer part of `n` below 2^64, every permutation of the
members decodes, and to the same message as the original order: the strings, the doubles
nearest to `t` and `h`, and the integer part of `n`. -/
theorem flat_record_order_independent (s ts : List Char) (t h n : DecLit)
    (fs : List (List Char)) (hs : '"' ∉ s) (hts : '"' ∉ ts) (ht : t.WellFormed)
    (hh : h.WellFormed) (hn : n.WellFormed) (htr : erange t.value = false)
    (hhr : erange h.value = false) (hrange : digitsValue 10 n.int < 2 ^ 64)
    (hperm : fs.Perm (requiredFields s t.text h.text ts n.text)) :
    parse_sensor_message (flatRecord fs) =
        some { sensor_id := s, temperature := t.double, humidity := h.double,
               timestamp := ts, sequence_number := n.uintValue } ∧
      parse_sensor_message (flatRecord fs) =
        parse_sensor_message (flatRecord (requiredFields s t.text h.text ts n.text)) := by
  have key : ∀ gs : List (List Char), gs.Perm (requiredFields s t.text h.text ts n.text) →
      parse_sensor_message (flatRecord gs) =
        some { sensor_id := s, temperature := t.double, humidity := h.double,
               timestamp := ts, sequence_number := n.uintValue } := by
    intro gs hgs
    rw [flatRecord_eq]
    exact parse_record (isField_plain hs) (fun S => hit_string hs) hts (t.numLit ht htr)
      (h.numLit hh hhr) (n.uintLit hn hrange) gs hgs [] _ keyFree_nil ⟨_, _, rfl, Or.inr rfl⟩
  exact ⟨key fs hperm, (key fs hperm).trans (key _ (List.Perm.refl _)).symm⟩

set_option maxRecDepth 100000 in
/-- C9, amended, on a record written in the order timestamp, sequenceNumber, humidity,
sensorId, temperature. -/
theorem flat_record_order_independent_witness :
    ('"' ∉ "a".toList ∧ '"' ∉ "t".toList ∧ digitsValue 10 "7".toList < 2 ^ 64 ∧
      erange (DecLit.mk true "3".toList []).value = false ∧
      erange (DecLit.mk false "45".toList "6".toList).value = false) ∧
    parse_sensor_message (flatRecord
      [stringField "timestamp".toList "t".toList,
       numberField "sequenceNumber".toList (DecLit.mk false "7".toList []).text,
       numberField "humidity".toList (DecLit.mk false "45".toList "6".toList).text,
       stringField "sensorId".toList "a".toList,
       numberField "temperature".toList (DecLit.mk true "3".toList []).text]) =
      parse_sensor_message (flatRecord (requiredFields "a".toList
        (DecLit.mk true "3".toList []).text (DecLit.mk false "45".toList "6".toList).text
        "t".toList (DecLit.mk false "7".toList []).text)) :=
  ⟨⟨by decide, by decide, by decide, by decide!, by decide!⟩,
    (flat_record_order_independent "a".toList "t".toList ⟨true, "3".toList, []⟩
      ⟨false, "45".toList, "6".toList⟩ ⟨false, "7".toList, []⟩ _ (by decide) (by decide)
      ⟨by decide, by decide, by decide⟩ ⟨by decide, by decide, by decide⟩
      ⟨by decide, by decide, by decide⟩ (by decide!) (by decide!) (by decide) (by
        unfold requiredFields
        decide)).2⟩

theorem hit_escaped {K a b : List Char} (ha : '"' ∉ a) (S : List Char) :
    extract_string (stringField K (escapedValue a b) ++ S) K = some (a ++ ['\\']) := by
  have e : stringField K (escapedValue a b) ++ S =
      stringField K (a ++ ['\\']) ++ (b ++ '"' :: S) := by
    simp [stringField, escapedValue]
  rw [e]
  apply hit_string
  intro h
  rcases List.mem_append.1 h with h | h
  · exact ha h
  · exact absurd (List.mem_singleton.1 h) (by decide)

theorem stod_none_of_head {c : Char} (r : List Char)
    (hc : c = '[' ∨ c = '\x7b' ∨ c = '"') : stod (c :: r) = none := by
  rcases hc with rfl | rfl | rfl <;>
    simp [stod, isspace, takeSign, strtodBody, startsWithNoCase, List.isPrefixOf, takeMantissa,
      isdigit, List.takeWhile, List.dropWhile]

theorem stoull_none_of_head {c : Char} (r : List Char)
    (hc : c = '[' ∨ c = '\x7b' ∨ c = '"') : stoull (c :: r) = none := by
  rcases hc with rfl | rfl | rfl <;>
    simp [stoull, isspace, takeSign, isdigit, List.takeWhile, List.dropWhile]

theorem extract_string_unopened {json key : List Char}
    (h : ¬ keyPattern key ['"'] <:+: json) : extract_string json key = none := by
  have hf : find json (keyPattern key ['"']) = none := by
    rw [find_eq_none_iff]
    exact h
  unfold extract_string
  simp only [search_string_eq, hf]

set_option maxRecDepth 100000 in
/-- C10 fails as stated: a record nested in an outer object, a record followed by an
array member and a nested object member, and a record whose `sensorId` holds an escaped
quote are all decoded; the last one with the value cut after the backslash. -/
theorem nested_array_escaped_are_decoded :
    (parse_sensor_message
      "\x7b\"data\":\x7b\"sensorId\":\"a\",\"temperature\":1.5,\"humidity\":2,\"timestamp\":\"t\",\"sequenceNumber\":3\x7d\x7d".toList).isSome
        = true ∧
    (parse_sensor_message
      "\x7b\"sensorId\":\"a\",\"temperature\":1.5,\"humidity\":2,\"timestamp\":\"t\",\"sequenceNumber\":3,\"tags\":[1,2],\"meta\":\x7b\"k\":\"v\"\x7d\x7d".toList).isSome
        = true ∧
    (parse_sensor_message
      "\x7b\"sensorId\":\"a\\\"b\",\"temperature\":1.5,\"humidity\":2,\"timestamp\":\"t\",\"sequenceNumber\":3\x7d".toList).map
        (fun m => m.sensor_id) = some "a\\".toList := by
  refine ⟨by decide!, by decide!, by decide!⟩

/-- C10, amended: nesting, arrays and escaped quotes are detected only where they stand in
the place of a required value. A record of the five required members, in any order, the
values of `t` and `h` within the range of `double` and the integer part of `n` below 2^64,
decodes to the message of its members when it is preceded by any text that holds none of
the five quoted keys followed by a colon (such as the opening of an enclosing object or
array) and followed by any text that starts with a comma or a closing brace (such as
further members holding nested objects or arrays); when the `sensorId` value is written
with an escaped quote, the decoded `sensor_id` is the value up to and including the
backslash. Decoding yields no result when the first occurrence of the key of a numeric
member is followed by an opening bracket, an opening brace or a double quote, and when the
key of a string member (`sensorId`, `timestamp`) is nowhere followed by a colon and a
double quote, as when its value is an array or an object. -/
theorem extra_structure_is_not_detected (pre post a b ts : List Char) (t h n : DecLit)
    (fs gs : List (List Char)) (hpre : KeyFree pre) (hpost : Terminated post)
    (ha : '"' ∉ a) (hb : '"' ∉ b) (hts : '"' ∉ ts) (ht : t.WellFormed) (hh : h.WellFormed)
    (hn : n.WellFormed) (htr : erange t.value = false) (hhr : erange h.value = false)
    (hrange : digitsValue 10 n.int < 2 ^ 64)
    (hfs : fs.Perm (requiredFields a t.text h.text ts n.text))
    (hgs : gs.Perm (requiredFields (escapedValue a b) t.text h.text ts n.text)) :
    parse_sensor_message (pre ++ ['\x7b'] ++ (joinFields fs ++ post)) =
        some { sensor_id := a, temperature := t.double, humidity := h.double,
               timestamp := ts, sequence_number := n.uintValue } ∧
      parse_sensor_message (pre ++ ['\x7b'] ++ (joinFields gs ++ post)) =
        some { sensor_id := a ++ ['\\'], temperature := t.double,
               humidity := h.double, timestamp := ts,
               sequence_number := n.uintValue } ∧
      (∀ (json key : List Char) (p : Nat) (c : Char) (r : List Char),
        key ∈ ["temperature".toList, "humidity".toList, "sequenceNumber".toList] →
        find json (keyPattern key []) = some p →
        json.drop (p + (keyPattern key []).length) = c :: r →
        (c = '[' ∨ c = '\x7b' ∨ c = '"') → parse_sensor_message json = none) ∧
      (∀ json key : List Char, key ∈ ["sensorId".toList, "timestamp".toList] →
        ¬ keyPattern key ['"'] <:+: json → parse_sensor_message json = none) := by
  refine ⟨parse_record (isField_plain ha) (fun _ => hit_string ha) hts (t.numLit ht htr)
      (h.numLit hh hhr) (n.uintLit hn hrange) fs hfs pre post hpre hpost,
    parse_record (Or.inr (Or.inr ⟨a, b, ha, hb, rfl⟩)) (fun S => hit_escaped ha S) hts
      (t.numLit ht htr) (h.numLit hh hhr) (n.uintLit hn hrange) gs hgs pre post hpre hpost,
    ?_, ?_⟩
  · intro json key p c r hkey hfind hnext hc
    apply parse_none_of
    simp only [List.mem_cons, List.mem_singleton, List.not_mem_nil, or_false] at hkey
    rcases hkey with rfl | rfl | rfl
    · exact Or.inr (Or.inl (extract_number_unparsable hfind
        (by rw [hnext]; exact stod_none_of_head r hc)))
    · exact Or.inr (Or.inr (Or.inl (extract_number_unparsable hfind
        (by rw [hnext]; exact stod_none_of_head r hc))))
    · exact Or.inr (Or.inr (Or.inr (Or.inr (extract_uint_unparsable hfind
        (by rw [hnext]; exact stoull_none_of_head r hc)))))
  · intro json key hkey habs
    apply parse_none_of
    simp only [List.mem_cons, List.mem_singleton, List.not_mem_nil, or_false] at hkey
    rcases hkey with rfl | rfl
    · exact Or.inl (extract_string_unopened habs)
    · exact Or.inr (Or.inr (Or.inr (Or.inl (extract_string_unopened habs))))

set_option maxRecDepth 100000 in
/-- C10, amended, on a record nested in an outer object and followed by an array member,
which is decoded, and on a record whose `temperature` value is an array, which is not. -/
theorem extra_structure_is_not_detected_witness :
    (KeyFree "\x7b\"data\":".toList ∧ Terminated ",\"tags\":[1,2]\x7d\x7d".toList ∧
      erange (DecLit.mk false "1".toList "5".toList).value = false ∧
      erange (DecLit.mk false "2".toList []).value = false) ∧
    parse_sensor_message ("\x7b\"data\":".toList ++ ['\x7b'] ++
      (joinFields (requiredFields (escapedValue "a".toList "b".toList)
        (DecLit.mk false "1".toList "5".toList).text (DecLit.mk false "2".toList []).text
        "t".toList (DecLit.mk false "3".toList []).text) ++ ",\"tags\":[1,2]\x7d\x7d".toList)) =
      some { sensor_id := "a".toList ++ ['\\'],
             temperature := (DecLit.mk false "1".toList "5".toList).double,
             humidity := (DecLit.mk false "2".toList []).double,
             timestamp := "t".toList,
             sequence_number := (DecLit.mk false "3".toList []).uintValue } ∧
    parse_sensor_message
      "\x7b\"sensorId\":\"a\",\"temperature\":[1.5],\"humidity\":2,\"timestamp\":\"t\",\"sequenceNumber\":3\x7d".toList
        = none :=
  have hpre : KeyFree "\x7b\"data\":".toList := by
    unfold KeyFree requiredKeys
    decide
  have hpost : Terminated ",\"tags\":[1,2]\x7d\x7d".toList := ⟨_, _, rfl, Or.inl rfl⟩
  have hall := extra_structure_is_not_detected "\x7b\"data\":".toList
      ",\"tags\":[1,2]\x7d\x7d".toList
      "a".toList "b".toList "t".toList ⟨false, "1".toList, "5".toList⟩
      ⟨false, "2".toList, []⟩ ⟨false, "3".toList, []⟩ (requiredFields "a".toList
        (DecLit.mk false "1".toList "5".toList).text (DecLit.mk false "2".toList []).text
        "t".toList (DecLit.mk false "3".toList []).text) _ hpre hpost (by decide) (by decide)
      (by decide) ⟨by decide, by decide, by decide⟩ ⟨by decide, by decide, by decide⟩
      ⟨by decide, by decide, by decide⟩ (by decide!) (by decide!) (by decide)
      (List.Perm.refl _) (List.Perm.refl _)
  ⟨⟨hpre, hpost, by decide!, by decide!⟩, hall.2.1,
    hall.2.2.1
      "\x7b\"sensorId\":\"a\",\"temperature\":[1.5],\"humidity\":2,\"timestamp\":\"t\",\"sequenceNumber\":3\x7d".toList
      "temperature".toList 16 '['
      "1.5],\"humidity\":2,\"timestamp\":\"t\",\"sequenceNumber\":3\x7d".toList
      (by decide) (by decide!) (by decide!) (Or.inl rfl)⟩

/-! ## Theorems: the window over a run -/

section Window

variable {α : Type}

theorem lastElements_length (k : Nat) (l : List α) :
    (lastElements k l).length = min k l.length := by
  unfold lastElements
  rw [List.length_drop]
  omega

/-- Appending at the back and dropping the front when over capacity keeps the last `k`. -/
theorem lastElements_snoc (k : Nat) (l : List α) (c : α) :
    (if (lastElements k l).length + 1 > k then (lastElements k l ++ [c]).tail
      else lastElements k l ++ [c]) = lastElements k (l ++ [c]) := by
  rw [lastElements_length]
  unfold lastElements
  by_cases h : l.length < k
  · have h1 : l.length - k = 0 := by omega
    have h2 : (l ++ [c]).length - k = 0 := by
      rw [List.length_append, List.length_singleton]; omega
    rw [if_neg (by omega), h1, h2]
    rfl
  · have h2 : (l ++ [c]).length - k = (l.length - k) + 1 := by
      rw [List.length_append, List.length_singleton]; omega
    rw [if_pos (by omega), h2, ← List.drop_drop, List.drop_one,
      List.drop_append_of_le_length (by omega)]

end Window

section WindowRun

variable {α : Type}

/-- The window and the configuration after one call. -/
theorem evaluate_window (A : Arith α) (f : DataFilter α) (c : α) :
    (f.evaluate A c).2.recent_readings_ =
        (if A.le f.config_.temp_min_valid c = true ∧ A.le c f.config_.temp_max_valid = true
          then (if f.recent_readings_.length + 1 > f.config_.spike_window
            then (f.recent_readings_ ++ [c]).tail else f.recent_readings_ ++ [c])
          else f.recent_readings_) ∧
      (f.evaluate A c).2.config_ = f.config_ := by
  obtain ⟨_, _, _, pc⟩ := push_counters f c
  have pw := push_window f c
  rw [evaluate_cases]
  by_cases h1 : A.le f.config_.temp_min_valid c = true ∧ A.le c f.config_.temp_max_valid = true
  · rw [if_neg (not_not.2 h1), if_pos h1]
    by_cases h2 : 2 ≤ f.recent_readings_.length ∧
        A.lt (A.spikeBound f.config_.noise_threshold f.recent_readings_)
          (A.deviation c f.recent_readings_) = true
    · rw [if_pos h2]; exact ⟨pw, pc⟩
    · rw [if_neg h2]; exact ⟨pw, pc⟩
  · rw [if_pos h1, if_neg h1]
    exact ⟨rfl, rfl⟩

theorem run_snoc (A : Arith α) (f : DataFilter α) (ts : List α) (t : α) :
    f.run A (ts ++ [t]) = ((f.run A ts).evaluate A t).2 := by
  simp [DataFilter.run, List.foldl_append]

theorem run_config (A : Arith α) (f : DataFilter α) (ts : List α) :
    (f.run A ts).config_ = f.config_ := by
  induction ts using List.reverseRecOn with
  | nil => rfl
  | append_singleton ts t ih => rw [run_snoc, (evaluate_window A _ t).2, ih]

/-- The window of a fresh filter after a run of calls. -/
theorem run_window (A : Arith α) (config : Config α) (ts : List α) :
    ((DataFilter.new config).run A ts).recent_readings_ =
      lastElements config.spike_window
        (ts.filter (fun t => A.le config.temp_min_valid t && A.le t config.temp_max_valid)) := by
  induction ts using List.reverseRecOn with
  | nil => simp [DataFilter.run, DataFilter.new, lastElements]
  | append_singleton ts t ih =>
    have hc := run_config A (DataFilter.new config) ts
    have hc' : ((DataFilter.new config).run A ts).config_ = config := hc
    rw [run_snoc, (evaluate_window A _ t).1, hc', ih, List.filter_append]
    by_cases h1 : A.le config.temp_min_valid t = true ∧ A.le t config.temp_max_valid = true
    · rw [if_pos h1]
      have : [t].filter (fun t => A.le config.temp_min_valid t && A.le t config.temp_max_valid)
          = [t] := by simp [h1]
      rw [this]
      exact lastElements_snoc _ _ _
    · rw [if_neg h1]
      have : [t].filter (fun t => A.le config.temp_min_valid t && A.le t config.temp_max_valid)
          = [] := by simp [h1]
      rw [this, List.append_nil]

/-- C11: on a freshly constructed filter fed any sequence of temperatures, the rolling
window after the calls is, in arrival order, the last `spike_window` elements (all of them
if fewer) of the inputs that lie within `[temp_min_valid, temp_max_valid]`, whether they
were accepted or rejected as spikes; so it never holds more than `spike_window` values and
never an out-of-range value. -/
theorem window_is_last_in_range_inputs (A : Arith α) (config : Config α) (ts : List α) :
    ((DataFilter.new config).run A ts).recent_readings_ =
        lastElements config.spike_window
          (ts.filter (fun t => A.le config.temp_min_valid t && A.le t config.temp_max_valid)) ∧
      ((DataFilter.new config).run A ts).recent_readings_.length ≤ config.spike_window ∧
      ∀ x ∈ ((DataFilter.new config).run A ts).recent_readings_,
        A.le config.temp_min_valid x = true ∧ A.le x config.temp_max_valid = true := by
  have hw := run_window A config ts
  refine ⟨hw, ?_, ?_⟩
  · rw [hw, lastElements_length]
    exact Nat.min_le_left _ _
  · intro x hx
    rw [hw] at hx
    have hx' := List.mem_of_mem_drop hx
    simpa using (List.mem_filter.1 hx').2

theorem run_append (A : Arith α) (f : DataFilter α) (ts us : List α) :
    (f.run A ts).run A us = f.run A (ts ++ us) := by
  simp [DataFilter.run, List.foldl_append]

theorem lastElements_append_replicate (k m : Nat) (l : List α) (v : α) (h : k ≤ m) :
    lastElements k (l ++ List.replicate m v) = List.replicate k v := by
  unfold lastElements
  have e : (l ++ List.replicate m v).length - k = l.length + (m - k) := by
    rw [List.length_append, List.length_replicate]; omega
  rw [e, ← List.drop_drop, List.drop_left, List.drop_replicate]
  congr 1
  omega

/-- The window of a reachable state after `m` further calls at an in-range level `v`, when
`m` is at least `spike_window`. -/
theorem run_constant_window (A : Arith α) (config : Config α) (ts : List α) (v : α) (m : Nat)
    (hlo : A.le config.temp_min_valid v = true) (hhi : A.le v config.temp_max_valid = true)
    (hm : config.spike_window ≤ m) :
    (((DataFilter.new config).run A ts).run A (List.replicate m v)).recent_readings_ =
      List.replicate config.spike_window v := by
  rw [run_append, run_window, List.filter_append]
  have : (List.replicate m v).filter
      (fun t => A.le config.temp_min_valid t && A.le t config.temp_max_valid) =
      List.replicate m v := by
    rw [List.filter_eq_self]
    intro a ha
    rw [List.eq_of_mem_replicate ha]
    simp [hlo, hhi]
  rw [this]
  exact lastElements_append_replicate _ _ _ _ hm

theorem countP_range_le (p : Nat → Bool) (k n : Nat) (h : ∀ j, k ≤ j → p j = false) :
    (List.range n).countP p ≤ k := by
  induction n with
  | zero => simp
  | succ n ih =>
    rw [List.range_succ, List.countP_append]
    by_cases hn : k ≤ n
    · have : [n].countP p = 0 := by simp [h n hn]
      omega
    · have h1 : (List.range n).countP p ≤ (List.range n).length := List.countP_le_length _
      have h2 : [n].countP p ≤ [n].length := List.countP_le_length _
      simp only [List.length_range, List.length_singleton] at h1 h2
      omega

end WindowRun

/-! ## Theorems: rounding errors along a constant window -/

/-- A natural number of at most 53 bits converts exactly. -/
theorem Double.ofNat_small (n : Nat) (hn : n ≤ 2 ^ 53) :
    (Double.ofNat n).IsFinite ∧ (Double.ofNat n).toRat = n := by
  have h53 : ((2 ^ 53 : ℕ) : ℚ) = pow2 53 := by
    rw [show (53 : ℤ) = ((53 : ℕ) : ℤ) by norm_num, pow2_natCast]
  have hq : (n : ℚ) ≤ pow2 53 := by rw [← h53]; exact_mod_cast hn
  have hlt : (n : ℚ) * pow2 0 < pow2 1024 := by
    rw [pow2_zero, mul_one]
    exact lt_of_le_of_lt hq (pow2_lt_pow2 (by norm_num))
  have := isBinary64_grid n 0 (by norm_num) hn hlt
  rw [pow2_zero, mul_one] at this
  exact Double.round_of_isBinary64 false this

/-- The sum of `j` copies of `v`, accumulated in `double`: each addition adds at most
`2 ^ -32 * |v| + 2 ^ -1000` to the error, for up to `2 ^ 20` terms of magnitude at most
`2 ^ 500`. -/
theorem sum_constant (v : Double) (hv : v.IsFinite) (hmag : |v.toRat| ≤ pow2 500) (j : Nat)
    (hj : j ≤ 2 ^ 20) :
    ((List.replicate j v).foldl (fun acc r => binary64.add acc r) (binary64.ofNat 0)).IsFinite ∧
      |((List.replicate j v).foldl (fun acc r => binary64.add acc r) (binary64.ofNat 0)).toRat
          - j * v.toRat| ≤ j * (pow2 (-32) * |v.toRat| + pow2 (-1000)) := by
  induction j with
  | zero =>
    have h0 := Double.ofNat_small 0 (by norm_num)
    simp only [List.replicate_zero, List.foldl_nil, Nat.cast_zero, zero_mul, sub_zero]
    refine ⟨h0.1, ?_⟩
    have : (binary64.ofNat 0).toRat = 0 := by simpa using h0.2
    rw [this]; simp
  | succ j ih =>
    obtain ⟨hfin, herr⟩ := ih (by omega)
    rw [List.replicate_succ', List.foldl_append, List.foldl_cons, List.foldl_nil]
    set S := (List.replicate j v).foldl (fun acc r => binary64.add acc r) (binary64.ofNat 0)
    set x := v.toRat
    set s := S.toRat
    have hX : 0 ≤ |x| := abs_nonneg x
    have hJ : (j : ℚ) + 1 ≤ 2 ^ 20 := by exact_mod_cast (show j + 1 ≤ 2 ^ 20 from hj)
    have hJ0 : (0 : ℚ) ≤ j := Nat.cast_nonneg j
    -- numerals
    have e32 : pow2 (-32) = 1 / 2 ^ 32 := pow2_neg_eq 32
    have e53 : pow2 (-53) = 1 / 2 ^ 53 := pow2_neg_eq 53
    have hE : 0 < pow2 (-1000) := pow2_pos _
    have hE1 : pow2 (-1000) ≤ 1 := by
      have := pow2_le_pow2 (show (-1000 : ℤ) ≤ 0 by norm_num)
      rwa [pow2_zero] at this
    have hη : pow2 (-1075) ≤ pow2 (-1000) / 2 := by
      have h1 := pow2_le_pow2 (show (-1075 : ℤ) ≤ -1001 by norm_num)
      have h2 : pow2 (-1001) = pow2 (-1000) / 2 := by
        rw [show (-1001 : ℤ) = -1000 - 1 by norm_num, pow2_sub, pow2_one]
      linarith
    have h500 : (1 : ℚ) ≤ pow2 500 := by
      have := pow2_le_pow2 (show (0 : ℤ) ≤ 500 by norm_num)
      rwa [pow2_zero] at this
    have h522 : 2 ^ 22 * pow2 500 ≤ pow2 1023 := by
      have h1 : pow2 522 = 2 ^ 22 * pow2 500 := by
        rw [show (522 : ℤ) = ((22 : ℕ) : ℤ) + 500 by norm_num, pow2_add, pow2_nat_eq]
      rw [← h1]
      exact pow2_le_pow2 (by norm_num)
    set δ := pow2 (-32) * |x| + pow2 (-1000) with hδ
    have hδ0 : 0 ≤ δ := by positivity
    have hδle : δ ≤ |x| + 1 := by
      rw [hδ, e32]
      have : 1 / 2 ^ 32 * |x| ≤ |x| := by
        have h1 : (1 : ℚ) / 2 ^ 32 ≤ 1 := by norm_num
        calc 1 / 2 ^ 32 * |x| ≤ 1 * |x| := mul_le_mul_of_nonneg_right h1 hX
          _ = |x| := one_mul _
      linarith
    -- the exact sum of this step
    have hs : |s| ≤ j * |x| + j * δ := by
      have h1 : |s| ≤ |s - j * x| + |(j : ℚ) * x| := by
        have := abs_add (s - j * x) (j * x)
        simpa using this
      rw [abs_mul, abs_of_nonneg hJ0] at h1
      linarith
    have hy : |s + x| ≤ (j + 1) * |x| + j * δ := by
      have := abs_add s x
      linarith
    have hjx : (j : ℚ) * |x| ≤ 2 ^ 20 * |x| := mul_le_mul_of_nonneg_right (by linarith) hX
    have hjδ : (j : ℚ) * δ ≤ 2 ^ 20 * δ := mul_le_mul_of_nonneg_right (by linarith) hδ0
    have hyR : |s + x| ≤ pow2 1023 := by
      have h1 : (j + 1 : ℚ) * |x| = j * |x| + |x| := by ring
      have h2 : (2 : ℚ) ^ 22 * pow2 500 = 4194304 * pow2 500 := by norm_num
      have h3 : (2 : ℚ) ^ 20 = 1048576 := by norm_num
      rw [h3] at hjx hjδ
      nlinarith
    have hbin := isBinary64_rn_of_le (s + x) hyR
    obtain ⟨afin, aval⟩ := Double.add_finite hfin hv hbin
    refine ⟨afin, ?_⟩
    have hv' : (binary64.add S v).toRat = rn (s + x) := aval
    rw [hv']
    have hr := rn_error (s + x)
    have hstep : pow2 (-53) * |s + x| + pow2 (-1075) ≤ δ := by
      have h1 : pow2 (-53) * |s + x| ≤ pow2 (-53) * ((j + 1) * |x| + j * δ) :=
        mul_le_mul_of_nonneg_left hy (pow2_pos _).le
      have h2 : pow2 (-53) * ((j + 1) * |x|) ≤ 1 / 2 ^ 33 * |x| := by
        rw [e53, ← mul_assoc]
        apply mul_le_mul_of_nonneg_right _ hX
        have : (1 : ℚ) / 2 ^ 53 * (j + 1) ≤ 1 / 2 ^ 53 * 2 ^ 20 :=
          mul_le_mul_of_nonneg_left hJ (by positivity)
        calc (1 : ℚ) / 2 ^ 53 * (j + 1) ≤ 1 / 2 ^ 53 * 2 ^ 20 := this
          _ = 1 / 2 ^ 33 := by norm_num
      have h3 : pow2 (-53) * (j * δ) ≤ 1 / 2 ^ 33 * δ := by
        rw [e53, ← mul_assoc]
        apply mul_le_mul_of_nonneg_right _ hδ0
        have : (1 : ℚ) / 2 ^ 53 * j ≤ 1 / 2 ^ 53 * 2 ^ 20 :=
          mul_le_mul_of_nonneg_left (by linarith) (by positivity)
        calc (1 : ℚ) / 2 ^ 53 * j ≤ 1 / 2 ^ 53 * 2 ^ 20 := this
          _ = 1 / 2 ^ 33 := by norm_num
      have h4 : (1 : ℚ) / 2 ^ 33 * δ = 1 / 2 ^ 65 * |x| + 1 / 2 ^ 33 * pow2 (-1000) := by
        rw [hδ, e32]; ring
      have h5 : pow2 (-53) * ((j + 1) * |x| + j * δ) =
          pow2 (-53) * ((j + 1) * |x|) + pow2 (-53) * (j * δ) := by ring
      have h6 : (1 : ℚ) / 2 ^ 33 * |x| + 1 / 2 ^ 65 * |x| ≤ 1 / 2 ^ 32 * |x| := by
        have : (1 : ℚ) / 2 ^ 33 + 1 / 2 ^ 65 ≤ 1 / 2 ^ 32 := by norm_num
        calc (1 : ℚ) / 2 ^ 33 * |x| + 1 / 2 ^ 65 * |x| = (1 / 2 ^ 33 + 1 / 2 ^ 65) * |x| := by ring
          _ ≤ 1 / 2 ^ 32 * |x| := mul_le_mul_of_nonneg_right this hX
      have h7 : (1 : ℚ) / 2 ^ 33 * pow2 (-1000) ≤ pow2 (-1000) / 2 := by
        have : (1 : ℚ) / 2 ^ 33 ≤ 1 / 2 := by norm_num
        calc (1 : ℚ) / 2 ^ 33 * pow2 (-1000) ≤ 1 / 2 * pow2 (-1000) :=
              mul_le_mul_of_nonneg_right this hE.le
          _ = pow2 (-1000) / 2 := by ring
      have a1 : pow2 (-53) * |s + x| ≤ 1 / 2 ^ 33 * |x| + 1 / 2 ^ 33 * δ := by
        rw [h5] at h1; exact le_trans h1 (add_le_add h2 h3)
      have a2 : δ = 1 / 2 ^ 32 * |x| + pow2 (-1000) := by rw [hδ, e32]
      rw [h4] at a1
      rw [a2]
      linarith only [a1, h6, h7, hη]
    have htri : |rn (s + x) - ((j + 1 : ℕ) : ℚ) * x| ≤ |rn (s + x) - (s + x)| + |s - j * x| := by
      have h1 : rn (s + x) - ((j + 1 : ℕ) : ℚ) * x = (rn (s + x) - (s + x)) + (s - j * x) := by
        push_cast; ring
      rw [h1]
      exact abs_add _ _
    have hgoal : ((j + 1 : ℕ) : ℚ) * δ = j * δ + δ := by push_cast; ring
    rw [hgoal]
    linarith

/-- Rounding errors of the mean and of the deviation, on rationals: `s` is the computed sum
of `k` copies of `x`, within `k * δ` of the exact sum. -/
theorem mean_error (x s δ : ℚ) (k : ℕ) (hk2 : 2 ≤ k)
    (hδ : δ = pow2 (-32) * |x| + pow2 (-1000)) (hmag : |x| ≤ pow2 500)
    (serr : |s - k * x| ≤ k * δ) :
    |s / k| ≤ pow2 1023 ∧ |x - rn (s / k)| ≤ pow2 1023 ∧ |rn (x - rn (s / k))| ≤ 3 * δ := by
  have hX : 0 ≤ |x| := abs_nonneg x
  have hK : (2 : ℚ) ≤ k := by exact_mod_cast hk2
  have hK0 : (0 : ℚ) < k := by linarith only [hK]
  have e32 : pow2 (-32) = 1 / 2 ^ 32 := pow2_neg_eq 32
  have e53 : pow2 (-53) = 1 / 2 ^ 53 := pow2_neg_eq 53
  have hE : 0 < pow2 (-1000) := pow2_pos _
  have hE1 : pow2 (-1000) ≤ 1 := by
    have := pow2_le_pow2 (show (-1000 : ℤ) ≤ 0 by norm_num)
    rwa [pow2_zero] at this
  have hη : pow2 (-1075) ≤ pow2 (-1000) / 2 := by
    have h1 := pow2_le_pow2 (show (-1075 : ℤ) ≤ -1001 by norm_num)
    have h2 : pow2 (-1001) = pow2 (-1000) / 2 := by
      rw [show (-1001 : ℤ) = -1000 - 1 by norm_num, pow2_sub, pow2_one]
    linarith only [h1, h2]
  have h500 : (1 : ℚ) ≤ pow2 500 := by
    have := pow2_le_pow2 (show (0 : ℤ) ≤ 500 by norm_num)
    rwa [pow2_zero] at this
  have h1023 : 4 * pow2 500 ≤ pow2 1023 := by
    have h1 : pow2 502 = 2 ^ 2 * pow2 500 := by
      rw [show (502 : ℤ) = ((2 : ℕ) : ℤ) + 500 by norm_num, pow2_add, pow2_nat_eq]
    have h2 := pow2_le_pow2 (show (502 : ℤ) ≤ 1023 by norm_num)
    rw [h1] at h2
    linarith only [h2]
  have a2 : δ = 1 / 2 ^ 32 * |x| + pow2 (-1000) := by rw [hδ, e32]
  have hδ0 : 0 ≤ δ := by rw [a2]; positivity
  have hδle : δ ≤ |x| + 1 := by
    have : 1 / 2 ^ 32 * |x| ≤ |x| := by
      have h1 : (1 : ℚ) / 2 ^ 32 ≤ 1 := by norm_num
      calc 1 / 2 ^ 32 * |x| ≤ 1 * |x| := mul_le_mul_of_nonneg_right h1 hX
        _ = |x| := one_mul _
    rw [a2]
    linarith only [this, hE1]
  have hq : |s / k - x| ≤ δ := by
    have h1 : s / k - x = (s - k * x) / k := by field_simp
    rw [h1, abs_div, abs_of_pos hK0, div_le_iff₀ hK0]
    linarith only [serr]
  have hqa : |s / k| ≤ |x| + δ := by
    have := abs_add (s / k - x) x
    rw [sub_add_cancel] at this
    linarith only [this, hq]
  have r1 : |s / k| ≤ pow2 1023 := by
    linarith only [hqa, hδle, hmag, h1023, h500]
  have hstep : pow2 (-53) * |s / k| + pow2 (-1075) ≤ δ := by
    have h1 : pow2 (-53) * |s / k| ≤ pow2 (-53) * (|x| + δ) :=
      mul_le_mul_of_nonneg_left hqa (pow2_pos _).le
    rw [e53, a2] at h1
    rw [e53, a2]
    have h2 : (1 : ℚ) / 2 ^ 53 * (|x| + (1 / 2 ^ 32 * |x| + pow2 (-1000))) =
        (1 / 2 ^ 53 + 1 / 2 ^ 85) * |x| + 1 / 2 ^ 53 * pow2 (-1000) := by ring
    have h3 : ((1 : ℚ) / 2 ^ 53 + 1 / 2 ^ 85) * |x| ≤ 1 / 2 ^ 32 * |x| :=
      mul_le_mul_of_nonneg_right (by norm_num) hX
    have h4 : (1 : ℚ) / 2 ^ 53 * pow2 (-1000) ≤ 1 / 2 * pow2 (-1000) :=
      mul_le_mul_of_nonneg_right (by norm_num) hE.le
    rw [h2] at h1
    linarith only [h1, h3, h4, hη]
  have hmx : |x - rn (s / k)| ≤ 2 * δ := by
    have hr := rn_error (s / k)
    have h1 : x - rn (s / k) = -((rn (s / k) - s / k) + (s / k - x)) := by ring
    rw [h1, abs_neg]
    have := abs_add (rn (s / k) - s / k) (s / k - x)
    linarith only [this, hr, hstep, hq]
  have r2 : |x - rn (s / k)| ≤ pow2 1023 := by
    linarith only [hmx, hδle, hmag, h1023, h500]
  refine ⟨r1, r2, ?_⟩
  have hr := rn_error (x - rn (s / k))
  have h1 : |rn (x - rn (s / k))| ≤
      |rn (x - rn (s / k)) - (x - rn (s / k))| + |x - rn (s / k)| := by
    have := abs_add (rn (x - rn (s / k)) - (x - rn (s / k))) (x - rn (s / k))
    rwa [sub_add_cancel] at this
  have h2 : pow2 (-53) * |x - rn (s / k)| ≤ 1 / 2 * δ := by
    rw [e53]
    have : (1 : ℚ) / 2 ^ 53 * |x - rn (s / k)| ≤ 1 / 2 ^ 53 * (2 * δ) :=
      mul_le_mul_of_nonneg_left hmx (by positivity)
    have h3 : (1 : ℚ) / 2 ^ 53 * (2 * δ) ≤ 1 / 2 * δ := by
      rw [← mul_assoc]
      exact mul_le_mul_of_nonneg_right (by norm_num) hδ0
    linarith only [this, h3]
  have h3 : pow2 (-1075) ≤ 1 / 2 * δ := by
    have : 0 ≤ (1 : ℚ) / 2 ^ 32 * |x| := by positivity
    rw [a2]
    linarith only [this, hη]
  linarith only [h1, hr, h2, h3, hmx]

/-- The deviation of a reading `v` from the mean of a window of `k` copies of `v`, both
computed in `double`: at most three times the error of one addition. -/
theorem deviation_constant (v : Double) (hv : v.IsFinite) (hmag : |v.toRat| ≤ pow2 500)
    (k : Nat) (hk2 : 2 ≤ k) (hk : k ≤ 2 ^ 20) :
    (binary64.deviation v (List.replicate k v)).IsFinite ∧
      (binary64.deviation v (List.replicate k v)).toRat ≤
        3 * (pow2 (-32) * |v.toRat| + pow2 (-1000)) := by
  obtain ⟨sfin, serr⟩ := sum_constant v hv hmag k hk
  obtain ⟨kfin, kval⟩ := Double.ofNat_small k (by omega)
  obtain ⟨r1, r2, r3⟩ := mean_error v.toRat _ _ k hk2 rfl hmag serr
  have hk0 : (Double.ofNat k).toRat ≠ 0 := by
    rw [kval]
    have : (2 : ℚ) ≤ k := by exact_mod_cast hk2
    intro h0
    rw [h0] at this
    norm_num at this
  have hbin1 := isBinary64_rn_of_le _ r1
  rw [← kval] at hbin1
  obtain ⟨mfin, mval⟩ := Double.div_finite sfin kfin hk0 hbin1
  rw [kval] at mval
  have hbin2 := isBinary64_rn_of_le _ r2
  rw [← mval] at hbin2
  obtain ⟨dfin, dval⟩ := Double.sub_finite hv mfin hbin2
  rw [mval] at dval
  obtain ⟨afin, aval⟩ := Double.abs_finite dfin
  rw [dval] at aval
  unfold Arith.deviation Arith.mean
  rw [List.length_replicate]
  refine ⟨afin, ?_⟩
  refine le_trans (le_of_eq ?_) r3
  exact aval

namespace Double

theorem ofNat_one : ∃ h, Double.ofNat 1 = Double.finite 1 h := ⟨by decide!, by decide!⟩

theorem ofNat_five : ∃ h, Double.ofNat 5 = Double.finite 5 h := ⟨by decide!, by decide!⟩

/-- The product of two finite values is the rounded exact product. -/
theorem mul_eq_round {x y : Double} (hx : x.IsFinite) (hy : y.IsFinite) :
    ∃ z, mul x y = round z (x.toRat * y.toRat) := by
  cases x with
  | finite p hp =>
    cases y with
    | finite q hq => exact ⟨_, rfl⟩
    | negZero => exact ⟨_, by rw [show (finite p hp).toRat * negZero.toRat = 0 from mul_zero p]; rfl⟩
    | inf _ => exact hy.elim
    | nan _ => exact hy.elim
  | negZero =>
    cases y with
    | finite q hq =>
      exact ⟨_, by rw [show negZero.toRat * (finite q hq).toRat = 0 from zero_mul q]; rfl⟩
    | negZero => exact ⟨_, by rw [show negZero.toRat * negZero.toRat = 0 from mul_zero 0]; rfl⟩
    | inf _ => exact hy.elim
    | nan _ => exact hy.elim
  | inf _ => exact hx.elim
  | nan _ => exact hx.elim

/-- A positive exact result rounds to a finite value, or overflows to `+inf`. -/
theorem round_pos (z : Bool) {p : ℚ} (hp : 0 < p) :
    round z p = inf false ∨ ((round z p).IsFinite ∧ (round z p).toRat = rn p) := by
  by_cases h : isBinary64 (rn p) = true
  · exact Or.inr (round_finite z p h)
  · left
    unfold round
    rw [dif_neg h]
    simp [not_lt.2 hp.le]

theorem lt_inf_false (d : Double) : lt (inf false) d = false := by
  cases d with
  | finite q h => rfl
  | negZero => rfl
  | inf b => rfl
  | nan b => rfl

theorem mul_inf_five : mul (inf false) (Double.ofNat 5) = inf false := by
  obtain ⟨h, e⟩ := ofNat_five
  rw [e]
  show (if (5 : ℚ) = 0 then nan true else inf (false != decide ((5 : ℚ) < 0))) = inf false
  norm_num

end Double

/-- The spike bound computed in `double` is not exceeded by a finite deviation below four
times the threshold (less the rounding of the two products), whatever the value that stands
for the effective standard deviation: a NaN, `+inf`, or a finite value of at least one. -/
theorem bound_covers (nt eff d : Double) (B : ℚ) (hnt : nt.IsFinite) (hd : d.IsFinite)
    (hdB : d.toRat ≤ B) (hB0 : 0 ≤ B) (hB : B + 6 * pow2 (-1075) ≤ 4 * nt.toRat)
    (heff : (∃ s, eff = .nan s) ∨ eff = .inf false ∨ (eff.IsFinite ∧ 1 ≤ eff.toRat)) :
    Double.lt (Double.mul (Double.mul nt eff) (Double.ofNat 5)) d = false := by
  have hη : 0 < pow2 (-1075) := pow2_pos _
  have e53 : pow2 (-53) = 1 / 2 ^ 53 := pow2_neg_eq 53
  have ht : 0 < nt.toRat := by linarith only [hB, hB0, hη]
  obtain ⟨h5, e5⟩ := Double.ofNat_five
  have f5 : (Double.ofNat 5).IsFinite ∧ (Double.ofNat 5).toRat = 5 := by
    rw [e5]; exact ⟨trivial, rfl⟩
  rcases heff with ⟨s, rfl⟩ | rfl | ⟨hfin, h1⟩
  · cases nt with
    | finite p hp => rfl
    | negZero => rfl
    | inf _ => exact hnt.elim
    | nan _ => exact hnt.elim
  · cases nt with
    | finite p hp =>
      have hp0 : 0 < p := ht
      have e : Double.mul (Double.finite p hp) (Double.inf false) = Double.inf false := by
        show (if p = 0 then Double.nan true else Double.inf (decide (p < 0) != false)) =
          Double.inf false
        rw [if_neg hp0.ne']
        simp [not_lt.2 hp0.le]
      rw [e, Double.mul_inf_five]
      exact Double.lt_inf_false d
    | negZero => exact absurd ht (lt_irrefl _)
    | inf _ => exact hnt.elim
    | nan _ => exact hnt.elim
  · obtain ⟨z1, e1⟩ := Double.mul_eq_round hnt hfin
    have hp : 0 < nt.toRat * eff.toRat := mul_pos ht (by linarith only [h1])
    rw [e1]
    rcases Double.round_pos z1 hp with e | ⟨rfin, rval⟩
    · rw [e, Double.mul_inf_five]
      exact Double.lt_inf_false d
    · have hr := rn_error (nt.toRat * eff.toRat)
      rw [abs_of_pos hp] at hr
      have hr1 := (abs_le.1 hr).1
      have hu : pow2 (-53) * (nt.toRat * eff.toRat) ≤ 1 / 10 * (nt.toRat * eff.toRat) := by
        rw [e53]
        exact mul_le_mul_of_nonneg_right (by norm_num) hp.le
      have hge : nt.toRat ≤ nt.toRat * eff.toRat := by
        have := mul_le_mul_of_nonneg_left h1 ht.le
        rwa [mul_one] at this
      have hrlow : 9 / 10 * nt.toRat - pow2 (-1075) ≤ rn (nt.toRat * eff.toRat) := by
        linarith only [hr1, hu, hge]
      have hrpos : 0 < rn (nt.toRat * eff.toRat) := by
        linarith only [hrlow, hB, hB0, hη]
      obtain ⟨z2, e2⟩ := Double.mul_eq_round rfin f5.1
      rw [e2, rval, f5.2]
      have hp2 : 0 < rn (nt.toRat * eff.toRat) * 5 := by linarith only [hrpos]
      rcases Double.round_pos z2 hp2 with e | ⟨tfin, tval⟩
      · rw [e]; exact Double.lt_inf_false d
      · rw [Double.lt_finite tfin hd, tval]
        have hr2 := rn_error (rn (nt.toRat * eff.toRat) * 5)
        rw [abs_of_pos hp2] at hr2
        have hr3 := (abs_le.1 hr2).1
        have hu2 : pow2 (-53) * (rn (nt.toRat * eff.toRat) * 5) ≤
            1 / 10 * (rn (nt.toRat * eff.toRat) * 5) := by
          rw [e53]
          exact mul_le_mul_of_nonneg_right (by norm_num) hp2.le
        apply decide_eq_false
        rw [not_lt]
        linarith only [hr3, hu2, hrlow, hB, hdB, hη, ht]

/-- The effective standard deviation `std::max(stdev, 1.0)` is a NaN, `+inf`, or a finite
value of at least one. -/
theorem max_one_cases (s : Double) :
    (∃ b, binary64.max s (binary64.ofNat 1) = .nan b) ∨
      binary64.max s (binary64.ofNat 1) = .inf false ∨
      ((binary64.max s (binary64.ofNat 1)).IsFinite ∧
        1 ≤ (binary64.max s (binary64.ofNat 1)).toRat) := by
  obtain ⟨h1, e1⟩ := Double.ofNat_one
  have eo : binary64.ofNat 1 = Double.finite 1 h1 := e1
  unfold Arith.max
  rw [eo]
  cases s with
  | nan b => exact Or.inl ⟨b, rfl⟩
  | inf b =>
    cases b with
    | false => exact Or.inr (Or.inl rfl)
    | true => exact Or.inr (Or.inr ⟨trivial, le_refl _⟩)
  | negZero =>
    right; right
    have : binary64.lt Double.negZero (Double.finite 1 h1) = true := by
      show decide ((0 : ℚ) < 1) = true
      exact decide_eq_true (by norm_num)
    rw [this]
    exact ⟨trivial, le_refl _⟩
  | finite q hq =>
    right; right
    by_cases hlt : q < 1
    · have : binary64.lt (Double.finite q hq) (Double.finite 1 h1) = true := decide_eq_true hlt
      rw [this]
      exact ⟨trivial, le_refl _⟩
    · have : binary64.lt (Double.finite q hq) (Double.finite 1 h1) = false :=
        decide_eq_false hlt
      rw [this]
      exact ⟨trivial, not_lt.1 hlt⟩

/-- A reading equal to every value of the window is accepted when the threshold exceeds
the rounding errors of the mean. -/
theorem evaluate_constant_window (f : DataFilter Double) (v : Double) (k : Nat)
    (hw : f.recent_readings_ = List.replicate k v) (hk : k ≤ 2 ^ 20)
    (hv : v.IsFinite) (hmag : |v.toRat| ≤ pow2 500)
    (hnt : f.config_.noise_threshold.IsFinite)
    (hmargin : pow2 (-32) * max 1 |v.toRat| ≤ f.config_.noise_threshold.toRat)
    (hlo : Double.le f.config_.temp_min_valid v = true)
    (hhi : Double.le v f.config_.temp_max_valid = true) :
    (f.evaluate binary64 v).1 = ⟨true, ""⟩ := by
  apply (evaluate_in_range binary64 f v hlo hhi).2
  rintro ⟨h2, h3⟩
  rw [hw, List.length_replicate] at h2
  rw [hw] at h3
  obtain ⟨dfin, dval⟩ := deviation_constant v hv hmag k h2 hk
  have e32 : pow2 (-32) = 1 / 2 ^ 32 := pow2_neg_eq 32
  have hE : pow2 (-1000) ≤ 1 / 2 ^ 40 := by
    have := pow2_le_pow2 (show (-1000 : ℤ) ≤ -((40 : ℕ) : ℤ) by norm_num)
    rwa [pow2_neg_eq 40] at this
  have hE0 : 0 < pow2 (-1000) := pow2_pos _
  have hη : pow2 (-1075) ≤ pow2 (-1000) := pow2_le_pow2 (by norm_num)
  have hM1 : (1 : ℚ) ≤ max 1 |v.toRat| := le_max_left _ _
  have hM2 : |v.toRat| ≤ max 1 |v.toRat| := le_max_right _ _
  have hX : 0 ≤ |v.toRat| := abs_nonneg _
  rw [e32] at hmargin dval
  have key := bound_covers f.config_.noise_threshold
    (binary64.max (binary64.sigma (List.replicate k v)) (binary64.ofNat 1))
    (binary64.deviation v (List.replicate k v))
    (3 * (1 / 2 ^ 32 * |v.toRat| + pow2 (-1000))) hnt dfin dval
    (by positivity)
    (by linarith only [hmargin, hE, hη, hM1, hM2, hE0])
    (max_one_cases _)
  have h3' : Double.lt (Double.mul (Double.mul f.config_.noise_threshold
      (binary64.max (binary64.sigma (List.replicate k v)) (binary64.ofNat 1))) (Double.ofNat 5))
      (binary64.deviation v (List.replicate k v)) = true := h3
  rw [key] at h3'
  exact Bool.false_ne_true h3'

/-- C12 fails as stated: with the default configuration but `noise_threshold = 0.0`, which is
not negative, and the in-range level 25.61, a fresh filter holds five copies of the level
after five calls, and rejects the sixth call as "spike_detected" (the mean of the five
copies computed in `double` is not the level); of the first twelve calls seven are rejected
as spikes, more than `spike_window = 5`. -/
theorem sustained_level_flagged_at_zero_threshold :
    Double.le (Double.ofRat 0) (Double.ofRat 0) = true ∧
    (Double.le Config.default.temp_min_valid (Double.ofRat (2561 / 100)) = true ∧
      Double.le (Double.ofRat (2561 / 100)) Config.default.temp_max_valid = true) ∧
    ((DataFilter.new { Config.default with noise_threshold := Double.ofRat 0 }).run binary64
        (List.replicate 5 (Double.ofRat (2561 / 100)))).recent_readings_ =
      List.replicate 5 (Double.ofRat (2561 / 100)) ∧
    (((DataFilter.new { Config.default with noise_threshold := Double.ofRat 0 }).run binary64
        (List.replicate 5 (Double.ofRat (2561 / 100)))).evaluate binary64
          (Double.ofRat (2561 / 100))).1 = ⟨false, "spike_detected"⟩ ∧
    (List.range 12).countP (fun j => decide
        ((((DataFilter.new { Config.default with noise_threshold := Double.ofRat 0 }).run binary64
          (List.replicate j (Double.ofRat (2561 / 100)))).evaluate binary64
            (Double.ofRat (2561 / 100))).1 = ⟨false, "spike_detected"⟩)) = 7 := by
  refine ⟨by decide!, ⟨by decide!, by decide!⟩, by decide!, by decide!, by decide!⟩

/-- C12, amended: a sustained level is not perpetually flagged when the threshold exceeds
the rounding errors of the mean. For a window of at most `2 ^ 20` readings, a finite
in-range level `v` of magnitude at most `2 ^ 500` and a finite `noise_threshold` of at least
`2 ^ -32 * max(1, |v|)`, from any state reached from a fresh filter: after `spike_window`
consecutive calls with `v` the window holds only copies of `v`; every later call with `v`
(the call number `m + 1` of the streak, `m >= spike_window`) is accepted with an empty
reason; hence among any `n` consecutive calls with `v` at most `spike_window` are rejected
as "spike_detected". The arithmetic is that of `double`. -/
theorem sustained_level_is_absorbed (config : Config Double) (ts : List Double) (v : Double)
    (n : Nat) (hwin : config.spike_window ≤ 2 ^ 20)
    (hv : v.IsFinite) (hmag : |v.toRat| ≤ pow2 500)
    (hnt : config.noise_threshold.IsFinite)
    (hmargin : pow2 (-32) * max 1 |v.toRat| ≤ config.noise_threshold.toRat)
    (hlo : Double.le config.temp_min_valid v = true)
    (hhi : Double.le v config.temp_max_valid = true) :
    (((DataFilter.new config).run binary64 ts).run binary64
        (List.replicate config.spike_window v)).recent_readings_ =
        List.replicate config.spike_window v ∧
      (∀ m, config.spike_window ≤ m →
        ((((DataFilter.new config).run binary64 ts).run binary64
          (List.replicate m v)).evaluate binary64 v).1 = ⟨true, ""⟩) ∧
      (List.range n).countP (fun j => decide
        (((((DataFilter.new config).run binary64 ts).run binary64
          (List.replicate j v)).evaluate binary64 v).1 = ⟨false, "spike_detected"⟩))
        ≤ config.spike_window := by
  have hacc : ∀ m, config.spike_window ≤ m →
      ((((DataFilter.new config).run binary64 ts).run binary64
        (List.replicate m v)).evaluate binary64 v).1 = ⟨true, ""⟩ := by
    intro m hm
    have hc : (((DataFilter.new config).run binary64 ts).run binary64
        (List.replicate m v)).config_ = config := by
      rw [run_config, run_config]; rfl
    apply evaluate_constant_window _ v config.spike_window
      (run_constant_window binary64 config ts v m hlo hhi hm) hwin hv hmag
    · rw [hc]; exact hnt
    · rw [hc]; exact hmargin
    · rw [hc]; exact hlo
    · rw [hc]; exact hhi
  refine ⟨run_constant_window binary64 config ts v _ hlo hhi (le_refl _), hacc, ?_⟩
  apply countP_range_le
  intro j hj
  rw [hacc j hj]
  decide

/-- C12, amended, with the defaults: after five readings 20.0, five readings 50.0 fill the
window, and the sixth is accepted. -/
theorem sustained_level_is_absorbed_witness :
    (Config.default.spike_window ≤ 2 ^ 20 ∧ (Double.ofRat 50).IsFinite ∧
      |(Double.ofRat 50).toRat| ≤ pow2 500 ∧ Config.default.noise_threshold.IsFinite ∧
      pow2 (-32) * max 1 |(Double.ofRat 50).toRat| ≤ Config.default.noise_threshold.toRat ∧
      Double.le Config.default.temp_min_valid (Double.ofRat 50) = true ∧
      Double.le (Double.ofRat 50) Config.default.temp_max_valid = true) ∧
      (((DataFilter.new Config.default).run binary64
          (List.replicate 5 (Double.ofRat 20))).run binary64
        (List.replicate 5 (Double.ofRat 50))).recent_readings_ =
          List.replicate 5 (Double.ofRat 50) ∧
      ((((DataFilter.new Config.default).run binary64
          (List.replicate 5 (Double.ofRat 20))).run binary64
        (List.replicate 5 (Double.ofRat 50))).evaluate binary64 (Double.ofRat 50)).1
          = ⟨true, ""⟩ :=
  have f50 : (Double.ofRat 50).IsFinite := (Double.round_of_isBinary64 false (by decide!)).1
  have fnt : Config.default.noise_threshold.IsFinite :=
    (Double.round_of_isBinary64 false (by decide!)).1
  have h := sustained_level_is_absorbed Config.default (List.replicate 5 (Double.ofRat 20))
    (Double.ofRat 50) 0 (by decide) f50 (by decide!) fnt (by decide!) (by decide!) (by decide!)
  ⟨⟨by decide, f50, by decide!, fnt, by decide!, by decide!, by decide!⟩, h.1, h.2.1 5 (le_refl _)⟩

end iot_edge
